import Mathlib

/-!
Verification of the neuron-graph engine of `mmnnrust` against its
specification.  The Rust sources are shallowly embedded: `f64` values become
real numbers, `Rc<RefCell<Neuron>>` references become string identifiers
resolved in an association list (the arena view suggested by the spec),
`HashMap` state becomes functions `String → Option _` or association lists,
and the arbitrary iteration order of a `HashMap` becomes an explicit list
parameter.  Recursive functions whose termination in Rust is guaranteed by
borrow conflicts receive a fuel parameter; build supplies `size + 1` fuel,
which the borrow argument shows is never exhausted.
-/

namespace MMNN

/-! ## Depth computation (`Neuron::calculate_depth`, neuron.rs 90-124)

The only neuron state read or written by `calculate_depth` is each neuron's
`depth` field (`u32`, with `u32::MAX` as the "uncomputed" sentinel, modelled
as `Option Nat` with `none` for the sentinel) and the source-id lists of the
synapses, which are fixed during the computation.  The depth state is
therefore modelled as a map `String → Option Nat`, and the synapse structure
as a function `String → List String`.  `try_borrow_mut` on a source fails
exactly when that source is the current neuron or an ancestor in the
recursion chain; the chain is passed explicitly as `active`. -/

/-- Depth state: neuron id to computed depth, `none` = `u32::MAX` sentinel. -/
abbrev DMap : Type := String → Option Nat

/-- Set one entry of a depth map. -/
def setD (m : DMap) (k : String) (v : Nat) : DMap :=
  fun x => if x = k then some v else m x

/-- Synapse structure given as an association list from neuron id to the list
of source ids of its synapses, in synapse order. -/
abbrev SynSpec : Type := List (String × List String)

/-- Source ids of a neuron's synapses; a neuron that does not appear has no
synapses. -/
def synOf (l : SynSpec) (id : String) : List String :=
  match l with
  | [] => []
  | (k, v) :: rest => if k = id then v else synOf rest id

/-- The candidate one synapse source contributes to the depth maximum in
`calculate_depth` (one arm of the `map` closure): a source currently
borrowed by an ancestor call (`s ∈ active`) contributes nothing; a source
with a computed depth contributes `depth + 1`; otherwise the depth of the
source is computed recursively by `recD` and contributes `depth + 1` on
success and nothing on failure. -/
def srcCand (recD : List String → DMap → String → DMap × Bool)
    (active : List String) (m : DMap) (s : String) : DMap × Option Nat :=
  if s ∈ active then (m, none)
  else
    match m s with
    | some d => (m, some (d + 1))
    | none =>
      let r1 := recD active m s
      match r1.2, r1.1 s with
      | true, some d => (r1.1, some (d + 1))
      | true, none => (r1.1, none)
      | false, _ => (r1.1, none)

/-- The candidate-collection pass over all synapse sources of a neuron (the
`map`/`filter_map` pipeline of `calculate_depth`), threading the depth state
left to right and keeping the surviving candidates in synapse order. -/
def calcSources (recD : List String → DMap → String → DMap × Bool)
    (active : List String) : DMap → List String → DMap × List Nat
  | m, [] => (m, [])
  | m, s :: rest =>
    let c := srcCand recD active m s
    let r := calcSources recD active c.1 rest
    (r.1, c.2.toList ++ r.2)

/-- `Neuron::calculate_depth`: memoized; depth 0 for a neuron without
synapses; otherwise the maximum of the collected candidates, failing when no
candidate survives.  The `Bool` result is `Ok`/`Err`; on `Err` the neuron's
depth stays unset.  Fuel bounds the recursion depth, which in Rust is bounded
by the borrow chain (`active` grows by one per level). -/
def calcDepth (syn : String → List String) :
    Nat → List String → DMap → String → DMap × Bool
  | 0, _, m, _ => (m, false)
  | fuel + 1, active, m, id =>
    match m id with
    | some _ => (m, true)
    | none =>
      if syn id = [] then (setD m id 0, true)
      else
        let r := calcSources (calcDepth syn fuel) (id :: active) m (syn id)
        match r.2.max? with
        | some d => (setD r.1 id d, true)
        | none => (r.1, false)

/-- `NeuralNetwork::calculate_depths` (network.rs 144-152): run
`calculate_depth` on every neuron in the map's iteration order, aborting
(`panic!`) as soon as one neuron's depth remains the sentinel afterwards. -/
def runDepths (syn : String → List String) (fuel : Nat) :
    DMap → List String → Except String DMap
  | m, [] => .ok m
  | m, id :: rest =>
    let r := calcDepth syn fuel [] m id
    match r.1 id with
    | some _ => runDepths syn fuel r.1 rest
    | none => .error id

/-! ### Generic monotonicity facts about `calcDepth` -/

/-- Map extension: computed entries are preserved with their values. -/
def Extends (m m' : DMap) : Prop := ∀ k d, m k = some d → m' k = some d

/-! ### Correctness of depth computation on acyclic topologies -/

/-- The all-unset initial depth state (every neuron starts at `u32::MAX`). -/
def emptyD : DMap := fun _ => none

/-- Collect the depths of a list of sources; `none` if any is unset. -/
def omap (m : DMap) : List String → Option (List Nat)
  | [] => some []
  | s :: rest =>
    match m s, omap m rest with
    | some d, some ds => some (d :: ds)
    | _, _ => none

/-- The fixed-point equation depth values satisfy: `0` for a neuron without
synapses, `1 + max(source depths)` otherwise, with all source depths set. -/
def LocalEq (syn : String → List String) (m : DMap) (k : String) (d : Nat) : Prop :=
  (syn k = [] ∧ d = 0) ∨
  (syn k ≠ [] ∧ ∃ ds : List Nat, omap m (syn k) = some ds ∧ d = ds.foldr Nat.max 0 + 1)

/-- Every set entry of the depth map satisfies its fixed-point equation. -/
def InvD (syn : String → List String) (m : DMap) : Prop :=
  ∀ k d, m k = some d → LocalEq syn m k d

/-- Acyclic example topology for the C1 witness: `b` listens to `a`, `c`
listens to `a` and `b`. -/
def c1SynL : SynSpec := [("b", ["a"]), ("c", ["a", "b"])]

/-- Rank function witnessing acyclicity of `c1SynL`. -/
def c1Rank : String → Nat := fun s => if s = "b" then 1 else if s = "c" then 2 else 0

/-- Two-neuron pure cycle used as the C7 witness. -/
def c7SynL : SynSpec := [("x", ["y"]), ("y", ["x"])]

/-! ## Activation catalog (`ActivationFunction`, activation.rs)

`f64` arithmetic is modelled over `ℝ`; `E.powf(y)` becomes `Real.exp y`.
Rust's `to_lowercase` is modelled on ASCII names by a structural lowercase
map (all catalog names are ASCII). -/

/-- ASCII lowercase of one character (model of `char::to_lowercase` on the
catalog's ASCII names). -/
def lowerChar (c : Char) : Char :=
  if c.isUpper then Char.ofNat (c.toNat + 32) else c

/-- ASCII lowercase of a string (model of `str::to_lowercase`). -/
def lowerStr (s : String) : String := String.mk (s.data.map lowerChar)

/-- The activation-function catalog (activation.rs 1-19). -/
inductive ActivationFunction where
  | Identity
  | ArcTan
  | Binary
  | ISRU
  | LeakyReLU
  | Linear
  | ReLU
  | ELU
  | GELU
  | Gaussian
  | SoftSign
  | SoftStep
  | TanH
  | Swish
  | Sinusoid
  | ELiSH
deriving DecidableEq

/-- `ActivationFunction::new` (activation.rs 22-43): case-insensitive name
lookup; the `panic!` on an unknown name is modelled as `none`. -/
def ActivationFunction.new (name : String) : Option ActivationFunction :=
  match lowerStr name with
  | "identity" => some .Identity
  | "arctan" => some .ArcTan
  | "binary" => some .Binary
  | "isru" => some .ISRU
  | "leakyrelu" => some .LeakyReLU
  | "linear" => some .Linear
  | "relu" => some .ReLU
  | "elu" => some .ELU
  | "gelu" => some .GELU
  | "gaussian" => some .Gaussian
  | "softsign" => some .SoftSign
  | "sigmoid" => some .SoftStep
  | "softstep" => some .SoftStep
  | "tanh" => some .TanH
  | "swish" => some .Swish
  | "sinusoid" => some .Sinusoid
  | "elish" => some .ELiSH
  | _ => none

/-- `ActivationFunction::activation` (activation.rs 45-105). -/
noncomputable def ActivationFunction.activation : ActivationFunction → ℝ → ℝ
  | .Identity, x => x
  | .ArcTan, x => Real.arctan x
  | .Binary, x => if 0 < x then 1 else 0
  | .ISRU, x => x / Real.sqrt (1 + x ^ 2)
  | .LeakyReLU, x => if 0 < x then x else 0.01 * x
  | .Linear, x => x
  | .ReLU, x => if 0 < x then x else 0
  | .ELU, x => if 0 ≤ x then x else 0.1 * (Real.exp x - 1)
  | .GELU, x =>
      0.5 * x * (1 + Real.tanh (Real.sqrt (2 / Real.pi) * (x ^ 3 * 0.044715 + x)))
  | .Gaussian, x => Real.exp (-(x ^ 2))
  | .SoftSign, x => x / (1 + |x|)
  | .SoftStep, x => 1 / (1 + Real.exp (-x))
  | .TanH, x => (Real.exp x - Real.exp (-x)) / (Real.exp x + Real.exp (-x))
  | .Swish, x => x * (1 - Real.exp (-x))
  | .Sinusoid, x => Real.sin x
  | .ELiSH, x =>
      if 0 ≤ x then x / (1 + Real.exp (-x))
      else (Real.exp x - 1) / (1 + Real.exp (-x))

/-- `ActivationFunction::derivative` (activation.rs 107-168). -/
noncomputable def ActivationFunction.derivative : ActivationFunction → ℝ → ℝ
  | .Identity, _ => 1
  | .ArcTan, x => 1 / (1 + x ^ 2)
  | .Binary, _ => 0
  | .ISRU, x => 1 / (1 + x ^ 2) ^ (1.5 : ℝ)
  | .LeakyReLU, x => if 0 ≤ x then 1 else 0.01
  | .Linear, _ => 1
  | .ReLU, x => if 0 < x then 1 else 0
  | .ELU, x => if 0 ≤ x then 1 else 0.1 * Real.exp x
  | .GELU, x =>
      let cdf := 0.5 * Real.tanh (Real.sqrt (2 / Real.pi) * (x + 0.044715 * x ^ 3) +
        x / Real.sqrt 2) + 0.5
      0.5 * (1 + cdf + x * (1 - cdf))
  | .Gaussian, x => -2 * x * (ActivationFunction.Gaussian.activation x)
  | .SoftSign, x => 1 / (1 + |x|) ^ 2
  | .SoftStep, x =>
      let fx := ActivationFunction.SoftStep.activation x
      fx * (1 - fx)
  | .TanH, x => 1 - (ActivationFunction.TanH.activation x) ^ 2
  | .Swish, x =>
      let sigmoid := 1 / (1 + Real.exp (-x))
      sigmoid * (1 + x * (1 - sigmoid))
  | .Sinusoid, x => Real.cos x
  | .ELiSH, x =>
      if 0 ≤ x then
        (x * Real.exp x + Real.exp (2 * x) + Real.exp x) /
          (Real.exp (2 * x) + 2 * Real.exp x + 1)
      else
        (2 * Real.exp (2 * x) + Real.exp (3 * x) - Real.exp x) /
          (Real.exp (2 * x) + 2 * Real.exp x + 1)

/-- `ActivationFunction::get_name` (activation.rs 170-189). -/
def ActivationFunction.get_name : ActivationFunction → String
  | .Identity => "Identity"
  | .ArcTan => "ARCTAN"
  | .Binary => "Binary"
  | .ISRU => "ISRU"
  | .LeakyReLU => "LeakyReLU"
  | .Linear => "Linear"
  | .ReLU => "ReLU"
  | .ELU => "ELU"
  | .GELU => "GELU"
  | .Gaussian => "Gaussian"
  | .SoftSign => "SoftSign"
  | .SoftStep => "SoftStep"
  | .TanH => "TanH"
  | .Swish => "Swish"
  | .Sinusoid => "Sinusoid"
  | .ELiSH => "ELiSH"

/-! ## Neurons (`Neuron`, neuron.rs)

`Rc<RefCell<Neuron>>` synapse references become source ids resolved against
the owning graph, so a neuron-local operation receives a total lookup
function for the other neurons (the graph guarantees every reference
resolves).  During `backpropagate` the neuron itself is mutably borrowed, so
`try_borrow_mut` on a synapse source fails exactly for a self-loop; during
`propagate` the failing branch reads `self.last_activation_value`, which
coincides with the map's pre-update entry, so no separate branch is needed
there. -/

/-- Neuron kinds.  `Input` and `Normal` are from neuron.rs 7-11.

Modelled from the spec: the `Output` variant is referenced by
`NeuralNetwork::create_outputs` (network.rs 98) but absent from the
`NeuronType` enum in neuron.rs; per the spec it is "a logical role layered
over Normal", so it behaves like `Normal` everywhere (`is_input` is false). -/
inductive NeuronType where
  | Input
  | Normal
  | Output
deriving DecidableEq

/-- The neuron record (neuron.rs 13-23).  `depth : Option Nat` models the
`u32` field with `none` for the `u32::MAX` "uncomputed" sentinel. -/
structure Neuron where
  id : String
  ntype : NeuronType
  synapses : List (String × ℝ)
  activation : ActivationFunction
  bias : ℝ
  depth : Option Nat
  last_activation_value : ℝ
  backup_activation_value : ℝ

instance : Inhabited Neuron :=
  ⟨⟨"", .Normal, [], .Linear, 0, none, 0, 0⟩⟩

/-- `Neuron::new` (neuron.rs 26-37). -/
def Neuron.new (id : String) (ntype : NeuronType) (activation : ActivationFunction)
    (bias : ℝ) : Neuron :=
  ⟨id, ntype, [], activation, bias, none, 0, 0⟩

/-- `Neuron::is_input` (neuron.rs 47-49). -/
def Neuron.is_input (n : Neuron) : Bool := n.ntype = NeuronType.Input

/-- Modelled from the spec: `Neuron::set_activation_bias` is called by
`NeuralNetwork::create_neuron` (network.rs 111) but its definition is absent
from neuron.rs; per the spec ("registers every declared neuron with its
activation and bias") it stores the declared activation and bias on the
already-registered neuron. -/
def Neuron.set_activation_bias (n : Neuron) (activation : ActivationFunction)
    (bias : ℝ) : Neuron :=
  { n with activation := activation, bias := bias }

/-- The `u32` order with `u32::MAX` (`none`) as the greatest element, as used
by `lneuron.depth <= curr_depth` and the depth sort. -/
def depthLE : Option Nat → Option Nat → Bool
  | _, none => true
  | none, some _ => false
  | some a, some b => a ≤ b

/-- Error-accumulator map (`HashMap<String, f64>`). -/
abbrev EMap : Type := String → Option ℝ

/-- Set one entry of an error map (`HashMap::insert`). -/
def setE (m : EMap) (k : String) (v : ℝ) : EMap :=
  fun x => if x = k then some v else m x

/-- `Neuron::propagate` (neuron.rs 126-138): weighted sum of the sources'
current activation values plus bias through the activation function, saving
the previous activation value as backup. -/
noncomputable def Neuron.propagate (n : Neuron) (find : String → Neuron) : Neuron :=
  let sum_activations : ℝ :=
    (n.synapses.map (fun p => p.2 * (find p.1).last_activation_value)).sum
  { n with
    backup_activation_value := n.last_activation_value,
    last_activation_value := n.activation.activation (sum_activations + n.bias) }

/-- First pass of `Neuron::backpropagate` (neuron.rs 150-175): walk the
synapses accumulating errors into the map and collecting the indexed weight
updates, without touching any weight.  A source equal to the neuron itself is
the failing `try_borrow_mut` branch: the error is credited to the neuron's
own entry and the update uses its backup activation value. -/
noncomputable def backpropPass (n : Neuron) (find : String → Neuron) (acc lr : ℝ) :
    List (String × ℝ) → Nat → EMap → EMap × List (Nat × ℝ)
  | [], _, m => (m, [])
  | (s, w) :: rest, i, m =>
    if s = n.id then
      let laccumulated : ℝ :=
        match m n.id with
        | some v => v + acc * w
        | none => acc * w
      let r := backpropPass n find acc lr rest (i + 1) (setE m n.id laccumulated)
      (r.1, (i, acc * lr * n.backup_activation_value) :: r.2)
    else
      let lneuron := find s
      let activation_value : ℝ :=
        if depthLE lneuron.depth n.depth then lneuron.last_activation_value
        else lneuron.backup_activation_value
      let laccumulated : ℝ :=
        match m s with
        | some v => v + acc * w
        | none => acc * w
      let r := backpropPass n find acc lr rest (i + 1) (setE m s laccumulated)
      (r.1, (i, acc * lr * activation_value) :: r.2)

/-- Replace the element at an index (if present). -/
def listModify : List α → Nat → (α → α) → List α
  | [], _, _ => []
  | a :: l, 0, f => f a :: l
  | a :: l, i + 1, f => a :: listModify l i f

/-- Second pass of `Neuron::backpropagate` (neuron.rs 177-180): apply the
collected weight updates by index (`self.synapses[index].1 -= update`). -/
def applyUpdates : List (String × ℝ) → List (Nat × ℝ) → List (String × ℝ)
  | syn, [] => syn
  | syn, (i, u) :: rest => applyUpdates (listModify syn i (fun p => (p.1, p.2 - u))) rest

/-- `Neuron::backpropagate` (neuron.rs 140-183). -/
noncomputable def Neuron.backpropagate (n : Neuron) (find : String → Neuron)
    (error_map : EMap) (learning_rate : ℝ) : Neuron × EMap :=
  let m0 := if (error_map n.id).isSome then error_map else setE error_map n.id 0
  let accumulated_error : ℝ := (m0 n.id).getD 0
  let error : ℝ := accumulated_error * n.activation.derivative n.last_activation_value
  let p := backpropPass n find accumulated_error learning_rate n.synapses 0 m0
  ({ n with
      synapses := applyUpdates n.synapses p.2,
      bias := n.bias - error * learning_rate }, p.1)

/-! ### The weight-update rule of `Neuron::backpropagate` (C2) -/

/-- The activation value the backward pass multiplies into the update for a
synapse from source `s`: the backup value for a self-loop (failed borrow),
otherwise the source's current value when its depth is `≤` this neuron's
and its backup value when it is greater. -/
noncomputable def backpropSourceValue (n : Neuron) (find : String → Neuron)
    (s : String) : ℝ :=
  if s = n.id then n.backup_activation_value
  else if depthLE (find s).depth n.depth then (find s).last_activation_value
  else (find s).backup_activation_value

/-- Self-looping linear neuron at depth 1 whose current activation value (2)
differs from its backup value (3). -/
def c2Neuron : Neuron := ⟨"n", .Normal, [("n", 1)], .Linear, 0, some 1, 2, 3⟩

/-- Error map crediting error 1 to the self-looping neuron. -/
def c2ErrMap : EMap := fun s => if s = "n" then some 1 else none

/-! ## Loss metric (`ErrorFunction`, network/error_function.rs)

This is the metric `network.rs` imports (`use error_function::ErrorFunction`);
the `LossFunction` in loss_function.rs carries the other convention but is
not used by the network.  The length-mismatch `panic!` in `get_error` is
unreachable from `NeuralNetwork::backpropagate`, which checks the lengths
first; the sum is modelled on the zipped vectors. -/

inductive ErrorFunction where
  | LossSquared
deriving DecidableEq

/-- `ErrorFunction::new`. -/
def ErrorFunction.new : ErrorFunction := .LossSquared

/-- `ErrorFunction::get_error`: `Σ (out − expected)² / 2`. -/
noncomputable def ErrorFunction.get_error : ErrorFunction → List ℝ → List ℝ → ℝ
  | .LossSquared, out, expected =>
    ((out.zip expected).map (fun p => (p.1 - p.2) ^ 2 / 2)).sum

/-- `ErrorFunction::get_derivative`: `out − expected`. -/
def ErrorFunction.get_derivative : ErrorFunction → ℝ → ℝ → ℝ
  | .LossSquared, out, expected => out - expected

/-! ## The neuron graph (`NeuralNetwork`, network.rs)

The `HashMap<String, Rc<RefCell<Neuron>>>` is modelled as an association
list in insertion order (the single owner of the neurons); the `inputs`,
`outputs` and `sorted_neurons` vectors of shared references become lists of
ids resolved in that map.  `HashMap` iteration orders appear as explicit
list parameters where build iterates the map. -/

/-- `HashMap::get` on the association-list model. -/
def aFind : List (String × α) → String → Option α
  | [], _ => none
  | (k, v) :: rest, id => if k = id then some v else aFind rest id

/-- `HashMap::insert`: replace in place or append. -/
def aIns : List (String × α) → String → α → List (String × α)
  | [], id, v => [(id, v)]
  | (k, w) :: rest, id, v =>
    if k = id then (k, v) :: rest else (k, w) :: aIns rest id v

/-- Modify the value stored under a key (mutation through a borrow). -/
def aModify : List (String × α) → String → (α → α) → List (String × α)
  | [], _, _ => []
  | (k, w) :: rest, id, f =>
    if k = id then (k, f w) :: rest else (k, w) :: aModify rest id f

/-- Dereference a neuron handle: every `Rc` held by the graph resolves, so
the lookup is made total with the default neuron (never hit by the graph's
own operations, which is a hypothesis of the theorems). -/
def findNeuron (map : List (String × Neuron)) (id : String) : Neuron :=
  (aFind map id).getD default

structure NeuralNetwork where
  inputs : List String
  outputs : List String
  neuron_map : List (String × Neuron)
  sorted_neurons : List String
  error_function : ErrorFunction

/-- Assign the input values to the input neurons
(`input_neuron.set_activation_value`), pairs `(value, input id)` as produced
by `zip`. -/
def setInputValues : List (String × Neuron) → List (ℝ × String) → List (String × Neuron)
  | map, [] => map
  | map, (v, id) :: rest =>
    setInputValues (aModify map id (fun n => { n with last_activation_value := v })) rest

/-- The forward sweep over the evaluation order: every non-input neuron is
recomputed against the current state of the map. -/
noncomputable def runForward : List (String × Neuron) → List String → List (String × Neuron)
  | map, [] => map
  | map, id :: rest =>
    match aFind map id with
    | some n =>
      if n.is_input then runForward map rest
      else runForward (aIns map id (n.propagate (findNeuron map))) rest
    | none => runForward map rest

/-- `NeuralNetwork::propagate` (network.rs 177-196): length guard, then
input assignment, then the ascending-depth forward sweep.  The pair holds
the `Result` and the (possibly updated) graph. -/
noncomputable def NeuralNetwork.propagate (net : NeuralNetwork)
    (input_values : List ℝ) : Except String Unit × NeuralNetwork :=
  if input_values.length ≠ net.inputs.length then
    (.error ("Input sizes do not match. " ++ toString input_values.length ++ " vs " ++
      toString net.inputs.length), net)
  else
    let map1 := setInputValues net.neuron_map (input_values.zip net.inputs)
    (.ok (), { net with neuron_map := runForward map1 net.sorted_neurons })

/-- Seed the error accumulator: for each `(output id, expected)` pair insert
the loss derivative of the output's current activation value. -/
noncomputable def seedErrors (ef : ErrorFunction) (map : List (String × Neuron)) :
    List (String × ℝ) → EMap → EMap
  | [], m => m
  | (id, expected) :: rest, m =>
    seedErrors ef map rest
      (setE m id (ef.get_derivative (findNeuron map id).last_activation_value expected))

/-- The backward sweep in descending depth order, threading the error map. -/
noncomputable def runBackward (lr : ℝ) :
    List (String × Neuron) → EMap → List String → List (String × Neuron) × EMap
  | map, m, [] => (map, m)
  | map, m, id :: rest =>
    match aFind map id with
    | some n =>
      let r := n.backpropagate (findNeuron map) m lr
      runBackward lr (aIns map id r.1) r.2 rest
    | none => runBackward lr map m rest

/-- `NeuralNetwork::backpropagate` (network.rs 198-229): length guard, total
loss over the current output activations (the `println!` diagnostic, modelled
as the `Ok` payload), error-map seeding, then the reverse sweep. -/
noncomputable def NeuralNetwork.backpropagate (net : NeuralNetwork)
    (expected_output_values : List ℝ) (learning_rate : ℝ) :
    Except String ℝ × NeuralNetwork :=
  if expected_output_values.length ≠ net.outputs.length then
    (.error ("Output sizes do not match. " ++ toString expected_output_values.length ++
      " vs " ++ toString net.outputs.length), net)
  else
    let output_results :=
      net.outputs.map (fun id => (findNeuron net.neuron_map id).last_activation_value)
    let total_error := net.error_function.get_error output_results expected_output_values
    let m0 := seedErrors net.error_function net.neuron_map
      (net.outputs.zip expected_output_values) (fun _ => none)
    let r := runBackward learning_rate net.neuron_map m0 net.sorted_neurons.reverse
    (.ok total_error, { net with neuron_map := r.1 })

/-- Minimal two-neuron graph for the shape-mismatch witness. -/
def c3Net : NeuralNetwork :=
  ⟨["i"], ["o"],
    [("i", Neuron.new "i" .Input .Linear 0), ("o", Neuron.new "o" .Output .Linear 0)],
    ["i", "o"], .LossSquared⟩

/-- One-output graph whose output neuron currently holds activation 5. -/
def c8Net : NeuralNetwork :=
  ⟨[], ["o"], [("o", ⟨"o", .Output, [], .Linear, 0, some 0, 5, 0⟩)], ["o"], .LossSquared⟩

/-! ## Graph construction (`NeuralNetwork::new`, network.rs 54-162)

Build consumes the parsed topology description.  `cfg.neurons` is a JSON
map; its (arbitrary but fixed) iteration order is the list order — the same
list is iterated by the creation and wiring loops, as in the source.  The
iteration order of `neuron_map` used by `calculate_depths` and
`create_sorted_neuron_list` is the explicit `mapIter` parameter.  The
`expect`/`panic!` aborts of the source are modelled as build errors. -/

inductive BuildError where
  | unknownNeuronReference (id : String)
  | inputConnection (id : String)
  | unknownActivation (name : String)
  | depthFailure (id : String)
deriving DecidableEq

/-- One entry of the `neurons` map of the topology description
(`NeuronDefs`, network.rs 27-35); the synapse map's iteration order is the
list order. -/
structure NeuronDefs where
  activation : String
  bias : ℝ
  synapses : List (String × ℝ)

/-- The topology description (`ConfigJson`, network.rs 37-42). -/
structure ConfigJson where
  inputs : List String
  outputs : List String
  neurons : List (String × NeuronDefs)

/-- `create_inputs` (network.rs 81-92). -/
def createInputsMap (map : List (String × Neuron)) : List String → List (String × Neuron)
  | [] => map
  | id :: rest => createInputsMap (aIns map id (Neuron.new id .Input .Linear 0)) rest

/-- `create_outputs` (network.rs 94-105): registers a fresh neuron for every
declared output id, unconditionally. -/
def createOutputsMap (map : List (String × Neuron)) : List String → List (String × Neuron)
  | [] => map
  | id :: rest => createOutputsMap (aIns map id (Neuron.new id .Output .Linear 0)) rest

/-- `create_neuron` (network.rs 107-119): set activation and bias on an
already-registered id, otherwise insert a fresh normal neuron; the
activation name is resolved first (`ActivationFunction::new` panics on an
unknown name). -/
def createNeuronStep (map : List (String × Neuron)) (id : String) (defs : NeuronDefs) :
    Except BuildError (List (String × Neuron)) :=
  match ActivationFunction.new defs.activation with
  | none => .error (.unknownActivation defs.activation)
  | some act =>
    match aFind map id with
    | some _ => .ok (aModify map id (fun n => n.set_activation_bias act defs.bias))
    | none => .ok (aIns map id (Neuron.new id .Normal act defs.bias))

def createAllNeurons (map : List (String × Neuron)) :
    List (String × NeuronDefs) → Except BuildError (List (String × Neuron))
  | [] => .ok map
  | (id, defs) :: rest =>
    match createNeuronStep map id defs with
    | .error e => .error e
    | .ok m2 => createAllNeurons m2 rest

/-- `connect_neurons` (network.rs 121-142): both endpoints must resolve
(`expect` panics otherwise), the target must not be an input, and the
synapse is appended to the target's list.  `Neuron::connect`'s own input
check repeats the network-level one and its result is discarded by the
caller, so the two collapse. -/
def connectNeurons (map : List (String × Neuron)) (lid rid : String) (w : ℝ) :
    Except BuildError (List (String × Neuron)) :=
  match aFind map lid with
  | none => .error (.unknownNeuronReference lid)
  | some _ =>
    match aFind map rid with
    | none => .error (.unknownNeuronReference rid)
    | some rn =>
      if rn.is_input then .error (.inputConnection rid)
      else .ok (aModify map rid (fun n => { n with synapses := n.synapses ++ [(lid, w)] }))

def wireOne (map : List (String × Neuron)) (rid : String) :
    List (String × ℝ) → Except BuildError (List (String × Neuron))
  | [] => .ok map
  | (lid, w) :: rest =>
    match connectNeurons map lid rid w with
    | .error e => .error e
    | .ok m2 => wireOne m2 rid rest

def wireAll (map : List (String × Neuron)) :
    List (String × NeuronDefs) → Except BuildError (List (String × Neuron))
  | [] => .ok map
  | (rid, defs) :: rest =>
    match wireOne map rid defs.synapses with
    | .error e => .error e
    | .ok m2 => wireAll m2 rest

/-- Source ids of a neuron's synapses. -/
def Neuron.sourceIds (n : Neuron) : List String := n.synapses.map Prod.fst

/-- The synapse structure `calculate_depth` traverses, read off the neuron
map (the map's synapse lists are fixed during depth computation). -/
def synView (map : List (String × Neuron)) : String → List String :=
  fun id0 => ((aFind map id0).map Neuron.sourceIds).getD []

/-- Write the computed depths back into the neurons. -/
def writeDepths (map : List (String × Neuron)) (dm : DMap) : List (String × Neuron) :=
  map.map (fun p => (p.1, { p.2 with depth := dm p.1 }))

/-- Insert into a sorted list, after every element that is `le` the new one
(the insertion step of a stable sort). -/
def insSorted (le : α → α → Bool) (a : α) : List α → List α
  | [] => [a]
  | b :: l => if le a b then a :: b :: l else b :: insSorted le a l

/-- Stable sort, modelling `Vec::sort_by` (which is stable): equal elements
keep their relative order from the input list. -/
def stableSort (le : α → α → Bool) : List α → List α
  | [] => []
  | a :: l => insSorted le a (stableSort le l)

/-- The `(id, neuron)` pairs of the map in iteration order. -/
def depthPairs (map : List (String × Neuron)) (iter : List String) :
    List (String × Neuron) :=
  iter.filterMap (fun id0 => (aFind map id0).map (fun n => (id0, n)))

/-- `create_sorted_neuron_list` (network.rs 154-162): collect the map in its
iteration order and stable-sort by depth (`u32` order, `MAX` = uncomputed
greatest). -/
def sortNet (map : List (String × Neuron)) (iter : List String) : List String :=
  (stableSort (fun a b => depthLE a.2.depth b.2.depth) (depthPairs map iter)).map Prod.fst

/-- `NeuralNetwork::new` (network.rs 54-79): inputs, outputs, declared
neurons, wiring, depth computation (fuel `size + 1` covers the
borrow-bounded recursion), then the sorted evaluation order. -/
def build (cfg : ConfigJson) (mapIter : List String) : Except BuildError NeuralNetwork :=
  let m1 := createInputsMap [] cfg.inputs
  let m2 := createOutputsMap m1 cfg.outputs
  match createAllNeurons m2 cfg.neurons with
  | .error e => .error e
  | .ok m3 =>
    match wireAll m3 cfg.neurons with
    | .error e => .error e
    | .ok m4 =>
      match runDepths (synView m4) (m4.length + 1) emptyD mapIter with
      | .error e => .error (.depthFailure e)
      | .ok dm =>
        let m5 := writeDepths m4 dm
        .ok ⟨cfg.inputs, cfg.outputs, m5, sortNet m5 mapIter, ErrorFunction.new⟩

/-- Topology with an output id that is neither declared in `neurons` nor an
input: per the claim build should fail, but it succeeds. -/
def c5Cfg : ConfigJson := ⟨["i"], ["o"], []⟩

/-- Two depth-0 inputs: equal depths, so the evaluation order is decided
purely by the map iteration order. -/
def c6Cfg : ConfigJson := ⟨["i", "j"], [], []⟩

/-! ## Topology snapshot (`NeuralNetwork::print_as_json`, network.rs 231-262)

The snapshot composes JSON encoding with re-parsing: it yields the
description record that re-building consumes. -/

/-- `Neuron::get_synapses_map` (neuron.rs 67-77): collect the synapse vector
into a map.  The `try_borrow` fallback is dead here because `print_as_json`
holds only shared borrows. -/
def Neuron.get_synapses_map (n : Neuron) : List (String × ℝ) :=
  n.synapses.foldl (fun acc p => aIns acc p.1 p.2) []

/-- The `neurons` section of the snapshot: every non-input neuron in
evaluation order, keyed by id with activation name, bias and synapse map. -/
def snapNeurons (map : List (String × Neuron)) :
    List String → List (String × NeuronDefs) → List (String × NeuronDefs)
  | [], acc => acc
  | id :: rest, acc =>
    match aFind map id with
    | some n =>
      if n.is_input then snapNeurons map rest acc
      else snapNeurons map rest
        (aIns acc id ⟨n.activation.get_name, n.bias, n.get_synapses_map⟩)
    | none => snapNeurons map rest acc

/-- `print_as_json` as a description record. -/
def snapshot (net : NeuralNetwork) : ConfigJson :=
  ⟨net.inputs, net.outputs, snapNeurons net.neuron_map net.sorted_neurons []⟩

/-- Feed a sequence of input vectors through the graph, reading the output
activations after each forward pass. -/
noncomputable def runSequence (net : NeuralNetwork) : List (List ℝ) → List (List ℝ)
  | [] => []
  | v :: rest =>
    let net2 := (net.propagate v).2
    (net2.outputs.map (fun id0 => (findNeuron net2.neuron_map id0).last_activation_value)) ::
      runSequence net2 rest

/-- Recurrent two-cycle between `u` and `v`, each also fed by an input. -/
def c9Cfg : ConfigJson :=
  ⟨["i", "j"], ["u", "v"],
   [("u", ⟨"Linear", 0, [("i", 1), ("v", 1)]⟩),
    ("v", ⟨"Linear", 0, [("u", 1), ("j", 1)]⟩)]⟩

/-- The graph `build c9Cfg ["i","j","u","v"]` produces: `u` gets depth 2,
`v` depth 1, evaluation order `[i, j, v, u]`. -/
def c9Net1 : NeuralNetwork :=
  ⟨["i", "j"], ["u", "v"],
   [("i", ⟨"i", .Input, [], .Linear, 0, some 0, 0, 0⟩),
    ("j", ⟨"j", .Input, [], .Linear, 0, some 0, 0, 0⟩),
    ("u", ⟨"u", .Output, [("i", 1), ("v", 1)], .Linear, 0, some 2, 0, 0⟩),
    ("v", ⟨"v", .Output, [("u", 1), ("j", 1)], .Linear, 0, some 1, 0, 0⟩)],
   ["i", "j", "v", "u"], .LossSquared⟩

/-- Rebuilding from the snapshot with iteration order `[i, j, v, u]`
computes `v` first, giving `u` depth 1 and `v` depth 2 and the opposite
evaluation order of the cycle. -/
def c9Net2 : NeuralNetwork :=
  ⟨["i", "j"], ["u", "v"],
   [("i", ⟨"i", .Input, [], .Linear, 0, some 0, 0, 0⟩),
    ("j", ⟨"j", .Input, [], .Linear, 0, some 0, 0, 0⟩),
    ("u", ⟨"u", .Output, [("i", 1), ("v", 1)], .Linear, 0, some 1, 0, 0⟩),
    ("v", ⟨"v", .Output, [("u", 1), ("j", 1)], .Linear, 0, some 2, 0, 0⟩)],
   ["i", "j", "u", "v"], .LossSquared⟩

/-! ### Characterization of the built graph -/

/-- Synapses a built neuron ends with, read from the description. -/
def cfgSyn (cfg : ConfigJson) (id : String) : List (String × ℝ) :=
  ((aFind cfg.neurons id).map NeuronDefs.synapses).getD []

/-- Bias a built neuron ends with. -/
def cfgBias (cfg : ConfigJson) (id : String) : ℝ :=
  ((aFind cfg.neurons id).map NeuronDefs.bias).getD 0

/-- Activation a built neuron ends with (`none` when the declared name is
unknown, in which case build fails). -/
def cfgAct (cfg : ConfigJson) (id : String) : Option ActivationFunction :=
  match aFind cfg.neurons id with
  | some defs => ActivationFunction.new defs.activation
  | none => some .Linear

/-- Well-formed description: unique input/output/neuron names, inputs not
re-declared as neurons, outputs disjoint from inputs, and per-neuron synapse
sources unique (all guaranteed for descriptions read from JSON maps with the
usual conventions). -/
def CfgWF (cfg : ConfigJson) : Prop :=
  cfg.inputs.Nodup ∧ cfg.outputs.Nodup ∧ (cfg.neurons.map Prod.fst).Nodup ∧
  (∀ i ∈ cfg.inputs, i ∉ cfg.neurons.map Prod.fst) ∧
  (∀ o ∈ cfg.outputs, o ∉ cfg.inputs) ∧
  (∀ p ∈ cfg.neurons, (p.2.synapses.map Prod.fst).Nodup)

/-- Everything the forward pass needs from a built graph. -/
def GoodNet (net : NeuralNetwork) (rank : String → Nat) : Prop :=
  (net.neuron_map.map Prod.fst).Nodup ∧
  net.inputs.Nodup ∧
  net.sorted_neurons.Perm (net.neuron_map.map Prod.fst) ∧
  net.sorted_neurons.Pairwise (fun a b =>
    depthLE (findNeuron net.neuron_map a).depth (findNeuron net.neuron_map b).depth = true) ∧
  (∀ id, (findNeuron net.neuron_map id).is_input = true ↔ id ∈ net.inputs) ∧
  (∀ o ∈ net.outputs, (aFind net.neuron_map o).isSome = true) ∧
  (∀ id p, p ∈ (findNeuron net.neuron_map id).synapses → rank p.1 < rank id) ∧
  (∀ id p, p ∈ (findNeuron net.neuron_map id).synapses →
    (aFind net.neuron_map p.1).isSome = true) ∧
  (∀ id n, aFind net.neuron_map id = some n → ∀ p ∈ n.synapses,
    ∃ dsrc dn, (findNeuron net.neuron_map p.1).depth = some dsrc ∧
      n.depth = some dn ∧ dsrc < dn)

/-- The value a neuron settles to in one forward sweep of an acyclic graph:
inputs take the assigned value `inp`, other neurons apply their activation to
the weighted sum of their sources' settled values plus bias.  `fuel` bounds
the recursion; any fuel above the neuron's rank gives the same value. -/
noncomputable def Vf (map : List (String × Neuron)) (inp : String → ℝ) :
    Nat → String → ℝ
  | 0, _ => 0
  | fuel + 1, id0 =>
    match aFind map id0 with
    | none => 0
    | some n =>
      if n.is_input then inp id0
      else n.activation.activation
        ((n.synapses.map (fun p => p.2 * Vf map inp fuel p.1)).sum + n.bias)

/-- Two graph states share every structural field (the forward pass only
rewrites activation values). -/
def SameStruct (m1 m2 : List (String × Neuron)) : Prop :=
  m2.map Prod.fst = m1.map Prod.fst ∧
  ∀ id0, ((aFind m1 id0).isSome = (aFind m2 id0).isSome) ∧
    ∀ n1 n2, aFind m1 id0 = some n1 → aFind m2 id0 = some n2 →
      n1.id = n2.id ∧ n1.ntype = n2.ntype ∧ n1.synapses = n2.synapses ∧
      n1.activation = n2.activation ∧ n1.bias = n2.bias ∧ n1.depth = n2.depth

/-- Correspondence between two graphs that determines the forward values:
same input flag, activation, bias, and synapse multiset per neuron. -/
def NeuronEquiv (n1 n2 : Neuron) : Prop :=
  n1.is_input = n2.is_input ∧ n1.activation = n2.activation ∧
  n1.bias = n2.bias ∧ n1.synapses.Perm n2.synapses

def MapEquiv (m1 m2 : List (String × Neuron)) : Prop :=
  ∀ id0, (aFind m1 id0 = none ∧ aFind m2 id0 = none) ∨
    (∃ n1 n2, aFind m1 id0 = some n1 ∧ aFind m2 id0 = some n2 ∧ NeuronEquiv n1 n2)

/-- The graph state after assigning an input vector. -/
def assignedMap (net : NeuralNetwork) (vals : List ℝ) : List (String × Neuron) :=
  setInputValues net.neuron_map (vals.zip net.inputs)

/-- The input assignment a graph state encodes. -/
noncomputable def inpView (m : List (String × Neuron)) : String → ℝ :=
  fun x => (findNeuron m x).last_activation_value

/-- Two descriptions that build equivalent graphs: same inputs and outputs,
same declared-neuron keys, and per neuron the same resolved activation, bias
and synapse multiset (synapse order is a hash-map iteration artefact). -/
def CfgEquiv (c1 c2 : ConfigJson) : Prop :=
  c1.inputs = c2.inputs ∧ c1.outputs = c2.outputs ∧
  (∀ id0, (aFind c1.neurons id0).isSome = (aFind c2.neurons id0).isSome) ∧
  (∀ id0, cfgAct c1 id0 = cfgAct c2 id0) ∧
  (∀ id0, cfgBias c1 id0 = cfgBias c2 id0) ∧
  (∀ id0, (cfgSyn c1 id0).Perm (cfgSyn c2 id0))

/-- Acyclic chain `i -> o` used to witness the amended round-trip claim. -/
def c9wCfg : ConfigJson := ⟨["i"], ["o"], [("o", ⟨"Linear", 1, [("i", 2)]⟩)]⟩

def c9wRank : String → Nat := fun x => if x = "o" then 1 else 0

def c9wNet1 : NeuralNetwork :=
  ⟨["i"], ["o"],
   [("i", ⟨"i", .Input, [], .Linear, 0, some 0, 0, 0⟩),
    ("o", ⟨"o", .Output, [("i", 2)], .Linear, 1, some 1, 0, 0⟩)],
   ["i", "o"], .LossSquared⟩

def c9wNet2 : NeuralNetwork :=
  ⟨["i"], ["o"],
   [("i", ⟨"i", .Input, [], .Linear, 0, some 0, 0, 0⟩),
    ("o", ⟨"o", .Output, [("i", 2)], .Linear, 1, some 1, 0, 0⟩)],
   ["i", "o"], .LossSquared⟩

theorem Extends.refl {m : DMap} : Extends m m := fun _ _ h => h

theorem Extends.trans {m1 m2 m3 : DMap} (h1 : Extends m1 m2)
    (h2 : Extends m2 m3) : Extends m1 m3 :=
  fun k d h => h2 k d (h1 k d h)

theorem setD_self (m : DMap) (k : String) (v : Nat) : setD m k v k = some v := by
  simp [setD]

theorem setD_other (m : DMap) {k x : String} (h : x ≠ k) (v : Nat) :
    setD m k v x = m x := by
  simp [setD, h]

theorem extends_setD {m : DMap} {k : String} (hk : m k = none) (v : Nat) :
    Extends m (setD m k v) := by
  intro x d hx
  by_cases hxk : x = k
  · rw [hxk] at hx; rw [hx] at hk; cases hk
  · rw [setD_other m hxk, hx]

theorem srcCand_no_touch
    {recD : List String → DMap → String → DMap × Bool}
    (hrec : ∀ active m s x, x ∈ active → x ≠ s → (recD active m s).1 x = m x)
    (active : List String) (m : DMap) (s : String) {x : String}
    (hx : x ∈ active) : (srcCand recD active m s).1 x = m x := by
  by_cases hs : s ∈ active
  · simp [srcCand, hs]
  · have hxs : x ≠ s := fun h => hs (h ▸ hx)
    cases hm : m s with
    | some d => simp [srcCand, hs, hm]
    | none =>
      have h1 := hrec active m s x hx hxs
      cases hb : (recD active m s).2 with
      | true =>
        cases hv : (recD active m s).1 s with
        | some d => simpa [srcCand, hs, hm, hb, hv] using h1
        | none => simpa [srcCand, hs, hm, hb, hv] using h1
      | false => simpa [srcCand, hs, hm, hb] using h1

theorem calcSources_no_touch
    {recD : List String → DMap → String → DMap × Bool}
    (hrec : ∀ active m s x, x ∈ active → x ≠ s → (recD active m s).1 x = m x)
    (active : List String) :
    ∀ ss m {x}, x ∈ active → (calcSources recD active m ss).1 x = m x := by
  intro ss
  induction ss with
  | nil => intro m x _; rfl
  | cons s rest ih =>
    intro m x hx
    have h1 := srcCand_no_touch hrec active m s hx
    have h2 := ih (srcCand recD active m s).1 hx
    calc (calcSources recD active m (s :: rest)).1 x
        = (calcSources recD active (srcCand recD active m s).1 rest).1 x := rfl
      _ = (srcCand recD active m s).1 x := h2
      _ = m x := h1

theorem calcDepth_no_touch (syn : String → List String) :
    ∀ fuel active m id x, x ∈ active → x ≠ id →
      (calcDepth syn fuel active m id).1 x = m x := by
  intro fuel
  induction fuel with
  | zero => intro active m id x _ _; rfl
  | succ f ih =>
    intro active m id x hx hxid
    cases hm : m id with
    | some d => simp [calcDepth, hm]
    | none =>
      by_cases hsyn : syn id = []
      · simp [calcDepth, hm, hsyn, setD_other m hxid]
      · have h1 := calcSources_no_touch (fun a mm s y hy hys => ih a mm s y hy hys)
          (id :: active) (syn id) m (x := x) (List.mem_cons_of_mem id hx)
        set r := calcSources (calcDepth syn f) (id :: active) m (syn id) with hr
        cases hmx : r.2.max? with
        | some d =>
          simp only [calcDepth, hm, if_neg hsyn, ← hr, hmx]
          rw [setD_other r.1 hxid, h1]
        | none =>
          simp only [calcDepth, hm, if_neg hsyn, ← hr, hmx]
          exact h1

/-- During the candidate pass launched for a neuron, the neuron's own depth
entry stays unset (no recursive call can reach it past the borrow check). -/
theorem calcSources_self_none (syn : String → List String) (f : Nat)
    (active : List String) (m : DMap) (id : String) (ss : List String)
    (hm : m id = none) :
    (calcSources (calcDepth syn f) (id :: active) m ss).1 id = none := by
  have h := calcSources_no_touch
    (fun a mm s y hy hys => calcDepth_no_touch syn f a mm s y hy hys)
    (id :: active) ss m (x := id) (List.mem_cons_self id active)
  rw [h, hm]

theorem srcCand_extends
    {recD : List String → DMap → String → DMap × Bool}
    (hrec : ∀ active m s, Extends m (recD active m s).1)
    (active : List String) (m : DMap) (s : String) :
    Extends m (srcCand recD active m s).1 := by
  by_cases hs : s ∈ active
  · simpa [srcCand, hs] using Extends.refl
  · cases hm : m s with
    | some d => simpa [srcCand, hs, hm] using Extends.refl
    | none =>
      have h1 := hrec active m s
      cases hb : (recD active m s).2 with
      | true =>
        cases hv : (recD active m s).1 s with
        | some d => simpa [srcCand, hs, hm, hb, hv] using h1
        | none => simpa [srcCand, hs, hm, hb, hv] using h1
      | false => simpa [srcCand, hs, hm, hb] using h1

theorem calcSources_extends
    {recD : List String → DMap → String → DMap × Bool}
    (hrec : ∀ active m s, Extends m (recD active m s).1)
    (active : List String) :
    ∀ ss m, Extends m (calcSources recD active m ss).1 := by
  intro ss
  induction ss with
  | nil => intro m; exact Extends.refl
  | cons s rest ih =>
    intro m
    exact (srcCand_extends hrec active m s).trans (ih _)

theorem calcDepth_extends (syn : String → List String) :
    ∀ fuel active m id, Extends m (calcDepth syn fuel active m id).1 := by
  intro fuel
  induction fuel with
  | zero => intro active m id; exact Extends.refl
  | succ f ih =>
    intro active m id
    cases hm : m id with
    | some d => simpa [calcDepth, hm] using Extends.refl
    | none =>
      by_cases hsyn : syn id = []
      · simpa [calcDepth, hm, hsyn] using extends_setD hm 0
      · have h1 := calcSources_extends (fun a mm s => ih a mm s) (id :: active) (syn id) m
        set r := calcSources (calcDepth syn f) (id :: active) m (syn id) with hr
        cases hmx : r.2.max? with
        | some d =>
          have hnone : r.1 id = none := calcSources_self_none syn f active m id (syn id) hm
          simp only [calcDepth, hm, hsyn, if_neg hsyn, ← hr, hmx]
          exact h1.trans (extends_setD hnone d)
        | none =>
          simp only [calcDepth, hm, hsyn, if_neg hsyn, ← hr, hmx]
          exact h1

theorem omap_congr {m m' : DMap} :
    ∀ {l : List String}, (∀ s ∈ l, m' s = m s) → omap m' l = omap m l := by
  intro l
  induction l with
  | nil => intro _; rfl
  | cons s rest ih =>
    intro h
    have hs := h s (List.mem_cons_self s rest)
    have hr := ih (fun x hx => h x (List.mem_cons_of_mem s hx))
    simp [omap, hs, hr]

theorem omap_extends {m m' : DMap} (h : Extends m m') :
    ∀ {l : List String} {ds : List Nat}, omap m l = some ds → omap m' l = some ds := by
  intro l
  induction l with
  | nil => intro ds hds; exact hds
  | cons s rest ih =>
    intro ds hds
    cases hs : m s with
    | none => rw [omap, hs] at hds; cases hds
    | some d =>
      cases hrest : omap m rest with
      | none => rw [omap, hs, hrest] at hds; cases hds
      | some ds0 =>
        rw [omap, hs, hrest] at hds
        rw [omap, h s d hs, ih hrest]
        exact hds

theorem LocalEq.mono {syn : String → List String} {m m' : DMap}
    (h : Extends m m') {k : String} {d : Nat} (hl : LocalEq syn m k d) :
    LocalEq syn m' k d := by
  cases hl with
  | inl hl => exact Or.inl hl
  | inr hl =>
    rcases hl with ⟨hne, ds, hds, hd⟩
    exact Or.inr ⟨hne, ds, omap_extends h hds, hd⟩

theorem invD_empty (syn : String → List String) : InvD syn emptyD := by
  intro k d h
  cases h

theorem foldl_max_shift :
    ∀ (t : List Nat) (a : Nat),
      (t.map (fun x => x + 1)).foldl Nat.max (a + 1) = t.foldl Nat.max a + 1 := by
  intro t
  induction t with
  | nil => intro a; rfl
  | cons b t ih =>
    intro a
    have h : Nat.max (a + 1) (b + 1) = Nat.max a b + 1 := Nat.succ_max_succ a b
    simp only [List.map_cons, List.foldl_cons, h, ih]

theorem foldl_max_foldr :
    ∀ (t : List Nat) (a : Nat), t.foldl Nat.max a = Nat.max a (t.foldr Nat.max 0) := by
  intro t
  induction t with
  | nil => intro a; simp
  | cons b t ih =>
    intro a
    simp only [List.foldl_cons, List.foldr_cons, ih (Nat.max a b), Nat.max_assoc]

theorem max_shift {ds : List Nat} (h : ds ≠ []) :
    (ds.map (fun x => x + 1)).max? = some (ds.foldr Nat.max 0 + 1) := by
  cases ds with
  | nil => exact absurd rfl h
  | cons d t =>
    show some (((t.map (fun x => x + 1))).foldl Nat.max (d + 1)) = _
    rw [foldl_max_shift, foldl_max_foldr]
    rfl

theorem omap_cons_ne_nil {m : DMap} {s : String} {t : List String}
    {ds : List Nat} (h : omap m (s :: t) = some ds) : ds ≠ [] := by
  cases hs : m s with
  | none => rw [omap, hs] at h; cases h
  | some d =>
    cases ht : omap m t with
    | none => rw [omap, hs, ht] at h; cases h
    | some ds0 =>
      rw [omap, hs, ht] at h
      intro hnil
      rw [hnil] at h
      cases h

/-- On an acyclic synapse graph (witnessed by a rank function strictly
decreasing along synapses), `calculate_depth` succeeds, extends the depth
state, preserves the fixed-point invariant and sets the neuron's depth. -/
theorem calcDepth_acyclic (syn : String → List String) (rank : String → Nat)
    (acyc : ∀ n s, s ∈ syn n → rank s < rank n) :
    ∀ fuel n active m, rank n < fuel → InvD syn m →
      (∀ a ∈ active, rank n ≤ rank a) →
      ∃ m', calcDepth syn fuel active m n = (m', true) ∧
        Extends m m' ∧ InvD syn m' ∧ ∃ d, m' n = some d := by
  intro fuel
  induction fuel with
  | zero => intro n active m hrank; exact absurd hrank (Nat.not_lt_zero _)
  | succ f ih =>
    intro n active m hrank hinv hact
    cases hm : m n with
    | some d =>
      exact ⟨m, by simp [calcDepth, hm], Extends.refl, hinv, d, hm⟩
    | none =>
      by_cases hsyn : syn n = []
      · refine ⟨setD m n 0, by simp [calcDepth, hm, hsyn], extends_setD hm 0, ?_, 0,
          setD_self m n 0⟩
        intro k d hk
        by_cases hkn : k = n
        · subst hkn
          rw [setD_self] at hk
          exact Or.inl ⟨hsyn, (Option.some_inj.mp hk).symm⟩
        · rw [setD_other m hkn] at hk
          exact (hinv k d hk).mono (extends_setD hm 0)
      · have inner : ∀ ss, (∀ s ∈ ss, s ∈ syn n) → ∀ m0, InvD syn m0 →
            ∃ m1 ds,
              calcSources (calcDepth syn f) (n :: active) m0 ss =
                (m1, ds.map (fun x => x + 1)) ∧
              Extends m0 m1 ∧ InvD syn m1 ∧ omap m1 ss = some ds := by
          intro ss
          induction ss with
          | nil =>
            intro _ m0 hinv0
            exact ⟨m0, [], rfl, Extends.refl, hinv0, rfl⟩
          | cons s rest ihs =>
            intro hmem m0 hinv0
            have hsn : s ∈ syn n := hmem s (List.mem_cons_self s rest)
            have hrs : rank s < rank n := acyc n s hsn
            have hsact : s ∉ n :: active := by
              intro hcon
              rcases List.mem_cons.mp hcon with h | h
              · exact absurd (h ▸ hrs) (lt_irrefl _)
              · exact absurd hrs (not_lt.mpr (hact s h))
            have hmemr : ∀ x ∈ rest, x ∈ syn n :=
              fun x hx => hmem x (List.mem_cons_of_mem s hx)
            cases hm0 : m0 s with
            | some d =>
              have hcand : srcCand (calcDepth syn f) (n :: active) m0 s =
                  (m0, some (d + 1)) := by
                simp [srcCand, hsact, hm0]
              obtain ⟨m2, ds, hcseq, hext2, hinv2, homap⟩ := ihs hmemr m0 hinv0
              refine ⟨m2, d :: ds, ?_, hext2, hinv2, ?_⟩
              · simp only [calcSources, hcand, hcseq, Option.toList_some, List.map_cons,
                  List.singleton_append]
              · have hm2s : m2 s = some d := hext2 s d hm0
                simp [omap, hm2s, homap]
            | none =>
              have hranks : rank s < f := lt_of_lt_of_le hrs (Nat.lt_succ_iff.mp hrank)
              have hacts : ∀ a ∈ n :: active, rank s ≤ rank a := by
                intro a ha
                rcases List.mem_cons.mp ha with h | h
                · exact le_of_lt (h ▸ hrs)
                · exact le_of_lt (lt_of_lt_of_le hrs (hact a h))
              obtain ⟨mA, hcd, hext1, hinv1, d, hd⟩ := ih s (n :: active) m0 hranks hinv0 hacts
              have hcand : srcCand (calcDepth syn f) (n :: active) m0 s =
                  (mA, some (d + 1)) := by
                simp only [srcCand, if_neg hsact, hm0, hcd, hd]
              obtain ⟨m2, ds, hcseq, hext2, hinv2, homap⟩ := ihs hmemr mA hinv1
              refine ⟨m2, d :: ds, ?_, hext1.trans hext2, hinv2, ?_⟩
              · simp only [calcSources, hcand, hcseq, Option.toList_some, List.map_cons,
                  List.singleton_append]
              · have hm2s : m2 s = some d := hext2 s d hd
                simp [omap, hm2s, homap]
        obtain ⟨m1, ds, hcseq, hext, hinv1, homap⟩ := inner (syn n) (fun s hs => hs) m hinv
        have hdsne : ds ≠ [] := by
          rcases List.exists_cons_of_ne_nil hsyn with ⟨s, t, hst⟩
          rw [hst] at homap
          exact omap_cons_ne_nil homap
        have hmx : (ds.map (fun x => x + 1)).max? = some (ds.foldr Nat.max 0 + 1) :=
          max_shift hdsne
        have hm1n : m1 n = none := by
          have := calcSources_self_none syn f active m n (syn n) hm
          rw [hcseq] at this
          exact this
        have hres : calcDepth syn (f + 1) active m n =
            (setD m1 n (ds.foldr Nat.max 0 + 1), true) := by
          simp only [calcDepth, hm, if_neg hsyn, hcseq, hmx]
        refine ⟨setD m1 n (ds.foldr Nat.max 0 + 1), hres,
          hext.trans (extends_setD hm1n _), ?_, ds.foldr Nat.max 0 + 1, setD_self _ _ _⟩
        intro k d hk
        by_cases hkn : k = n
        · subst hkn
          rw [setD_self] at hk
          refine Or.inr ⟨hsyn, ds, omap_extends (extends_setD hm1n _) homap, ?_⟩
          exact (Option.some_inj.mp hk).symm
        · rw [setD_other m1 hkn] at hk
          exact (hinv1 k d hk).mono (extends_setD hm1n _)

/-- Running `calculate_depths` over any iteration order of an acyclic graph
succeeds and yields a depth state satisfying the fixed-point equations. -/
theorem runDepths_acyclic (syn : String → List String) (rank : String → Nat)
    (acyc : ∀ n s, s ∈ syn n → rank s < rank n) (fuel : Nat) :
    ∀ order m, (∀ n ∈ order, rank n < fuel) → InvD syn m →
      ∃ m', runDepths syn fuel m order = .ok m' ∧ Extends m m' ∧ InvD syn m' ∧
        ∀ n ∈ order, ∃ d, m' n = some d := by
  intro order
  induction order with
  | nil =>
    intro m _ hinv
    exact ⟨m, rfl, Extends.refl, hinv, fun n hn => absurd hn (List.not_mem_nil n)⟩
  | cons id rest ihr =>
    intro m hf hinv
    obtain ⟨mA, hcd, hext, hinvA, d, hd⟩ :=
      calcDepth_acyclic syn rank acyc fuel id [] m
        (hf id (List.mem_cons_self id rest)) hinv (fun a ha => absurd ha (List.not_mem_nil a))
    obtain ⟨m', hrun, hext2, hinv', hall⟩ :=
      ihr mA (fun n hn => hf n (List.mem_cons_of_mem id hn)) hinvA
    have hstep : runDepths syn fuel m (id :: rest) = runDepths syn fuel mA rest := by
      simp only [runDepths, hcd, hd]
    refine ⟨m', by rw [hstep, hrun], hext.trans hext2, hinv', ?_⟩
    intro n hn
    rcases List.mem_cons.mp hn with h | h
    · exact ⟨d, hext2 n d (h ▸ hd)⟩
    · exact hall n h

theorem mem_synOf {synL : SynSpec} {n s : String} (h : s ∈ synOf synL n) :
    ∃ p ∈ synL, p.1 = n ∧ s ∈ p.2 := by
  induction synL with
  | nil => cases h
  | cons p rest ih =>
    obtain ⟨k, v⟩ := p
    by_cases hk : k = n
    · subst hk
      rw [synOf, if_pos rfl] at h
      exact ⟨(k, v), List.mem_cons_self _ _, rfl, h⟩
    · rw [synOf, if_neg hk] at h
      obtain ⟨q, hq, h1, h2⟩ := ih h
      exact ⟨q, List.mem_cons_of_mem _ hq, h1, h2⟩

/-- C1: on every acyclic topology (acyclicity witnessed by a rank function
strictly decreasing along synapses), running depth computation from the
all-unset state over any iteration order succeeds and assigns depth `0` to
every neuron without synapses and `1 + max(source depths)` to every neuron
with at least one synapse; and calling `calculate_depth` again on a neuron
whose depth is already computed returns `Ok` and leaves every depth
unchanged. -/
theorem C1_depth_correct (synL : SynSpec) (rank : String → Nat)
    (hacyc : ∀ p ∈ synL, ∀ s ∈ p.2, rank s < rank p.1)
    (order : List String) (fuel : Nat) (hf : ∀ n ∈ order, rank n < fuel) :
    ∃ m, runDepths (synOf synL) fuel emptyD order = .ok m ∧
      (∀ n ∈ order,
        (synOf synL n = [] → m n = some 0) ∧
        (synOf synL n ≠ [] → ∃ ds, omap m (synOf synL n) = some ds ∧
            m n = some (1 + ds.foldr Nat.max 0))) ∧
      (∀ n d f' active, m n = some d →
        calcDepth (synOf synL) (f' + 1) active m n = (m, true)) := by
  have acyc : ∀ n s, s ∈ synOf synL n → rank s < rank n := by
    intro n s hs
    obtain ⟨p, hp, h1, h2⟩ := mem_synOf hs
    exact h1 ▸ hacyc p hp s h2
  obtain ⟨m, hrun, _, hinvm, hall⟩ :=
    runDepths_acyclic (synOf synL) rank acyc fuel order emptyD hf (invD_empty _)
  refine ⟨m, hrun, ?_, ?_⟩
  · intro n hn
    obtain ⟨d, hd⟩ := hall n hn
    have hloc := hinvm n d hd
    constructor
    · intro hempty
      cases hloc with
      | inl h => rw [hd, h.2]
      | inr h => exact absurd hempty h.1
    · intro hne
      cases hloc with
      | inl h => exact absurd h.1 hne
      | inr h =>
        obtain ⟨_, ds, hds, hdval⟩ := h
        exact ⟨ds, hds, by rw [hd, hdval, Nat.add_comm]⟩
  · intro n d f' active h
    simp [calcDepth, h]

theorem C1_depth_correct_witness :
    (∀ p ∈ c1SynL, ∀ s ∈ p.2, c1Rank s < c1Rank p.1) ∧
    (∀ n ∈ ["a", "b", "c"], c1Rank n < 3) ∧
    (∃ m, runDepths (synOf c1SynL) 3 emptyD ["a", "b", "c"] = .ok m ∧
      (∀ n ∈ ["a", "b", "c"],
        (synOf c1SynL n = [] → m n = some 0) ∧
        (synOf c1SynL n ≠ [] → ∃ ds, omap m (synOf c1SynL n) = some ds ∧
            m n = some (1 + ds.foldr Nat.max 0))) ∧
      (∀ n d f' active, m n = some d →
        calcDepth (synOf c1SynL) (f' + 1) active m n = (m, true))) :=
  ⟨by decide, by decide,
    C1_depth_correct c1SynL c1Rank (by decide) ["a", "b", "c"] 3 (by decide)⟩

/-! ### Failure of depth computation on purely cyclic regions -/

/-- On a closed cycle region `C` (every member has synapses and all its
sources stay in `C`) whose members are all unset, `calculate_depth` on a
member fails and leaves the depth state untouched. -/
theorem calcDepth_cycle_fail (syn : String → List String) (C : List String)
    (hC : ∀ k ∈ C, syn k ≠ [] ∧ ∀ s ∈ syn k, s ∈ C) :
    ∀ fuel active m n, n ∈ C → (∀ k ∈ C, m k = none) →
      calcDepth syn fuel active m n = (m, false) := by
  intro fuel
  induction fuel with
  | zero => intro active m n _ _; rfl
  | succ f ih =>
    intro active m n hn hnone
    have inner : ∀ ss, (∀ s ∈ ss, s ∈ C) → ∀ active2,
        calcSources (calcDepth syn f) active2 m ss = (m, []) := by
      intro ss
      induction ss with
      | nil => intro _ _; rfl
      | cons s rest ihs =>
        intro hmem active2
        have hsC : s ∈ C := hmem s (List.mem_cons_self s rest)
        have hrest := ihs (fun x hx => hmem x (List.mem_cons_of_mem s hx)) active2
        by_cases hs : s ∈ active2
        · have hcand : srcCand (calcDepth syn f) active2 m s = (m, none) := by
            simp [srcCand, hs]
          simp only [calcSources, hcand, hrest, Option.toList_none, List.nil_append]
        · have hm0 : m s = none := hnone s hsC
          have hfail := ih active2 m s hsC hnone
          have hcand : srcCand (calcDepth syn f) active2 m s = (m, none) := by
            simp only [srcCand, if_neg hs, hm0, hfail]
          simp only [calcSources, hcand, hrest, Option.toList_none, List.nil_append]
    have hmn : m n = none := hnone n hn
    have hsyn : syn n ≠ [] := (hC n hn).1
    have hsrc := inner (syn n) (hC n hn).2 (n :: active)
    simp only [calcDepth, hmn, if_neg hsyn, hsrc, List.max?_nil]

/-- Depth computations started anywhere never set the entry of a member of a
closed, all-unset cycle region. -/
theorem calcDepth_cycle_preserve (syn : String → List String) (C : List String)
    (hC : ∀ k ∈ C, syn k ≠ [] ∧ ∀ s ∈ syn k, s ∈ C) :
    ∀ fuel active m id, (∀ k ∈ C, m k = none) →
      ∀ k ∈ C, (calcDepth syn fuel active m id).1 k = none := by
  intro fuel
  induction fuel with
  | zero => intro active m id hnone k hk; exact hnone k hk
  | succ f ih =>
    intro active m id hnone k hk
    by_cases hidC : id ∈ C
    · rw [calcDepth_cycle_fail syn C hC (f + 1) active m id hidC hnone]
      exact hnone k hk
    · have hkid : k ≠ id := fun h => hidC (h ▸ hk)
      cases hm : m id with
      | some d =>
        simp only [calcDepth, hm]
        exact hnone k hk
      | none =>
        by_cases hsyn : syn id = []
        · simp only [calcDepth, hm, if_pos hsyn]
          rw [setD_other m hkid]
          exact hnone k hk
        · have inner : ∀ ss active2 m0, (∀ x ∈ C, m0 x = none) →
              ∀ x ∈ C, (calcSources (calcDepth syn f) active2 m0 ss).1 x = none := by
            intro ss
            induction ss with
            | nil => intro _ m0 h0 x hx; exact h0 x hx
            | cons s rest ihs =>
              intro active2 m0 h0 x hx
              have hcand : ∀ y ∈ C, (srcCand (calcDepth syn f) active2 m0 s).1 y = none := by
                intro y hy
                by_cases hs : s ∈ active2
                · simp only [srcCand, if_pos hs]
                  exact h0 y hy
                · cases hm0 : m0 s with
                  | some d =>
                    simp only [srcCand, if_neg hs, hm0]
                    exact h0 y hy
                  | none =>
                    have hpres := ih active2 m0 s h0 y hy
                    cases hb : (calcDepth syn f active2 m0 s).2 with
                    | true =>
                      cases hv : (calcDepth syn f active2 m0 s).1 s with
                      | some d => simp only [srcCand, if_neg hs, hm0, hb, hv]; exact hpres
                      | none => simp only [srcCand, if_neg hs, hm0, hb, hv]; exact hpres
                    | false => simp only [srcCand, if_neg hs, hm0, hb]; exact hpres
              show (calcSources (calcDepth syn f) active2
                  (srcCand (calcDepth syn f) active2 m0 s).1 rest).1 x = none
              exact ihs active2 (srcCand (calcDepth syn f) active2 m0 s).1 hcand x hx
          have hin := inner (syn id) (id :: active) m hnone
          set r := calcSources (calcDepth syn f) (id :: active) m (syn id) with hr
          cases hmx : r.2.max? with
          | some d =>
            simp only [calcDepth, hm, if_neg hsyn, ← hr, hmx]
            rw [setD_other r.1 hkid]
            exact hin k hk
          | none =>
            simp only [calcDepth, hm, if_neg hsyn, ← hr, hmx]
            exact hin k hk

/-- A closed, all-unset cycle region that meets the iteration order makes
`calculate_depths` abort. -/
theorem runDepths_cycle_error (syn : String → List String) (C : List String)
    (hC : ∀ k ∈ C, syn k ≠ [] ∧ ∀ s ∈ syn k, s ∈ C) (fuel : Nat) :
    ∀ order m, (∀ k ∈ C, m k = none) → (∃ n, n ∈ C ∧ n ∈ order) →
      ∃ e, runDepths syn fuel m order = .error e := by
  intro order
  induction order with
  | nil =>
    intro m _ hex
    obtain ⟨n, _, hn⟩ := hex
    exact absurd hn (List.not_mem_nil n)
  | cons id rest ihr =>
    intro m hnone hex
    by_cases hidC : id ∈ C
    · have hfail := calcDepth_cycle_fail syn C hC fuel [] m id hidC hnone
      refine ⟨id, ?_⟩
      simp only [runDepths, hfail, hnone id hidC]
    · cases hv : (calcDepth syn fuel [] m id).1 id with
      | none =>
        refine ⟨id, ?_⟩
        simp only [runDepths, hv]
      | some d =>
        obtain ⟨n, hnC, hnmem⟩ := hex
        have hnrest : n ∈ rest := by
          rcases List.mem_cons.mp hnmem with h | h
          · exact absurd (h ▸ hnC) hidC
          · exact h
        have hpres := calcDepth_cycle_preserve syn C hC fuel [] m id hnone
        obtain ⟨e, he⟩ := ihr (calcDepth syn fuel [] m id).1 hpres ⟨n, hnC, hnrest⟩
        refine ⟨e, ?_⟩
        simp only [runDepths, hv]
        exact he

/-- C7: a neuron lying in a closed cycle region (every member has at least
one synapse and all sources of members stay inside the region, so every
candidate of every member is excluded by the re-entrancy detection) makes
depth computation fail for that neuron from the pristine state, and graph
construction aborts: `calculate_depths` over any iteration order containing
the neuron ends in the fatal error. -/
theorem C7_pure_cycle_fatal (synL : SynSpec) (C : List String)
    (hC : ∀ k ∈ C, synOf synL k ≠ [] ∧ ∀ s ∈ synOf synL k, s ∈ C)
    (n : String) (hn : n ∈ C) (order : List String) (ho : n ∈ order) (fuel : Nat) :
    (∀ active, calcDepth (synOf synL) fuel active emptyD n = (emptyD, false)) ∧
    ∃ e, runDepths (synOf synL) fuel emptyD order = .error e := by
  constructor
  · intro active
    exact calcDepth_cycle_fail (synOf synL) C hC fuel active emptyD n hn (fun _ _ => rfl)
  · exact runDepths_cycle_error (synOf synL) C hC fuel order emptyD
      (fun _ _ => rfl) ⟨n, hn, ho⟩

theorem C7_pure_cycle_fatal_witness :
    (∀ k ∈ ["x", "y"], synOf c7SynL k ≠ [] ∧ ∀ s ∈ synOf c7SynL k, s ∈ ["x", "y"]) ∧
    ("x" ∈ (["x", "y"] : List String)) ∧
    ((∀ active, calcDepth (synOf c7SynL) 5 active emptyD "x" = (emptyD, false)) ∧
      ∃ e, runDepths (synOf c7SynL) 5 emptyD ["x", "y"] = .error e) :=
  ⟨by decide, by decide,
    C7_pure_cycle_fatal c7SynL ["x", "y"] (by decide) "x" (by decide) ["x", "y"]
      (by decide) 5⟩

/-- Serialized activation names parse back to the same variant (shared
helper, also used by the round-trip development). -/
theorem new_get_name (v : ActivationFunction) :
    ActivationFunction.new v.get_name = some v := by
  cases v <;> decide

/-- C10: for every activation variant the serialized name round-trips
through the case-insensitive lookup (including the all-uppercase `ARCTAN`
and `ELiSH`), and both `sigmoid` and `softstep` resolve to `SoftStep`. -/
theorem C10_name_roundtrip :
    (∀ v : ActivationFunction, ActivationFunction.new v.get_name = some v) ∧
    ActivationFunction.new "sigmoid" = some ActivationFunction.SoftStep ∧
    ActivationFunction.new "softstep" = some ActivationFunction.SoftStep :=
  ⟨new_get_name, by decide, by decide⟩

/-- C4 counterexample: the claim says `SoftStep`'s derivative, called with
the activation's own output `a`, equals `a(1−a)`; at `a = 0` the code
computes `σ(0)(1−σ(0)) = 1/4 ≠ 0(1−0)`. -/
theorem C4_counterexample :
    ActivationFunction.SoftStep.derivative 0 ≠ 0 * (1 - 0) := by
  have h : ActivationFunction.SoftStep.activation 0 = 1 / 2 := by
    simp [ActivationFunction.activation, Real.exp_zero]
    norm_num
  simp only [ActivationFunction.derivative, h]
  norm_num

theorem exp_add_exp_neg_pos (x : ℝ) : 0 < Real.exp x + Real.exp (-x) :=
  add_pos (Real.exp_pos x) (Real.exp_pos (-x))

theorem one_add_exp_neg_pos (x : ℝ) : 0 < 1 + Real.exp (-x) :=
  add_pos one_pos (Real.exp_pos (-x))

theorem hasDerivAt_exp_neg (x : ℝ) :
    HasDerivAt (fun y : ℝ => Real.exp (-y)) (-Real.exp (-x)) x := by
  have h := (Real.hasDerivAt_exp (-x)).comp x (hasDerivAt_neg x)
  simpa [Function.comp] using h

/-- C4 amended: the `TanH` and `SoftStep` derivative formulas re-apply the
activation to their argument — `derivative x = 1 − tanh(x)²` and
`derivative x = σ(x)(1 − σ(x))` — so they are the true derivatives of the
activation at the pre-activation input `x`, not functions of the
post-activation output. -/
theorem C4_amended (x : ℝ) :
    ActivationFunction.TanH.derivative x =
      1 - (ActivationFunction.TanH.activation x) ^ 2 ∧
    ActivationFunction.SoftStep.derivative x =
      ActivationFunction.SoftStep.activation x *
        (1 - ActivationFunction.SoftStep.activation x) ∧
    HasDerivAt (fun y => ActivationFunction.TanH.activation y)
      (ActivationFunction.TanH.derivative x) x ∧
    HasDerivAt (fun y => ActivationFunction.SoftStep.activation y)
      (ActivationFunction.SoftStep.derivative x) x := by
  have hden := exp_add_exp_neg_pos x
  have hden1 := one_add_exp_neg_pos x
  refine ⟨rfl, rfl, ?_, ?_⟩
  · have hnum : HasDerivAt (fun y : ℝ => Real.exp y - Real.exp (-y))
        (Real.exp x + Real.exp (-x)) x := by
      have h := (Real.hasDerivAt_exp x).sub (hasDerivAt_exp_neg x)
      simpa [sub_neg_eq_add] using h
    have hd : HasDerivAt (fun y : ℝ => Real.exp y + Real.exp (-y))
        (Real.exp x - Real.exp (-x)) x := by
      have h := (Real.hasDerivAt_exp x).add (hasDerivAt_exp_neg x)
      simpa [sub_eq_add_neg] using h
    have hdiv := hnum.div hd (ne_of_gt hden)
    have heq : ((Real.exp x + Real.exp (-x)) * (Real.exp x + Real.exp (-x)) -
          (Real.exp x - Real.exp (-x)) * (Real.exp x - Real.exp (-x))) /
          (Real.exp x + Real.exp (-x)) ^ 2 =
        ActivationFunction.TanH.derivative x := by
      show _ = 1 - ((Real.exp x - Real.exp (-x)) / (Real.exp x + Real.exp (-x))) ^ 2
      field_simp
      ring
    exact heq ▸ hdiv
  · have hnum : HasDerivAt (fun _ : ℝ => (1 : ℝ)) 0 x := hasDerivAt_const x 1
    have hd : HasDerivAt (fun y : ℝ => 1 + Real.exp (-y)) (-Real.exp (-x)) x := by
      have h := (hasDerivAt_const x (1 : ℝ)).add (hasDerivAt_exp_neg x)
      simpa using h
    have hdiv := hnum.div hd (ne_of_gt hden1)
    have heq : (0 * (1 + Real.exp (-x)) - 1 * -Real.exp (-x)) /
          (1 + Real.exp (-x)) ^ 2 =
        ActivationFunction.SoftStep.derivative x := by
      show _ = (1 / (1 + Real.exp (-x))) * (1 - 1 / (1 + Real.exp (-x)))
      field_simp
      ring
    exact heq ▸ hdiv

theorem backpropPass_updates (n : Neuron) (find : String → Neuron) (acc lr : ℝ) :
    ∀ (syn : List (String × ℝ)) (i : Nat) (m : EMap),
      (backpropPass n find acc lr syn i m).2 =
        (syn.enumFrom i).map
          (fun q => (q.1, acc * lr * backpropSourceValue n find q.2.1)) := by
  intro syn
  induction syn with
  | nil => intro i m; rfl
  | cons p rest ih =>
    intro i m
    obtain ⟨s, w⟩ := p
    by_cases hs : s = n.id
    · simp [backpropPass, hs, List.enumFrom, ih, backpropSourceValue]
    · simp [backpropPass, hs, List.enumFrom, ih, backpropSourceValue]

theorem listModify_append (pre : List α) (a : α) (l : List α) (f : α → α) :
    listModify (pre ++ a :: l) pre.length f = pre ++ f a :: l := by
  induction pre with
  | nil => rfl
  | cons b pre ih =>
    simp only [List.cons_append, List.length_cons, listModify]
    exact congrArg _ ih

theorem applyUpdates_enum (val : String × ℝ → ℝ) :
    ∀ (suf pre : List (String × ℝ)),
      applyUpdates (pre ++ suf)
          ((suf.enumFrom pre.length).map (fun q => (q.1, val q.2))) =
        pre ++ suf.map (fun p => (p.1, p.2 - val p)) := by
  intro suf
  induction suf with
  | nil => intro pre; simp [applyUpdates]
  | cons p suf ih =>
    intro pre
    have hmod := listModify_append pre p suf (fun q => (q.1, q.2 - val p))
    have hlen : (pre ++ [(p.1, p.2 - val p)]).length = pre.length + 1 := by
      simp
    calc applyUpdates (pre ++ p :: suf)
          ((List.enumFrom pre.length (p :: suf)).map (fun q => (q.1, val q.2)))
        = applyUpdates (pre ++ (p.1, p.2 - val p) :: suf)
            ((suf.enumFrom (pre.length + 1)).map (fun q => (q.1, val q.2))) := by
          simp only [List.enumFrom, List.map_cons, applyUpdates, hmod]
      _ = applyUpdates ((pre ++ [(p.1, p.2 - val p)]) ++ suf)
            ((suf.enumFrom (pre ++ [(p.1, p.2 - val p)]).length).map
              (fun q => (q.1, val q.2))) := by
          rw [hlen, List.append_assoc, List.singleton_append]
      _ = (pre ++ [(p.1, p.2 - val p)]) ++ suf.map (fun q => (q.1, q.2 - val q)) := ih _
      _ = pre ++ (p.1, p.2 - val p) :: suf.map (fun q => (q.1, q.2 - val q)) := by
          rw [List.append_assoc, List.singleton_append]

/-- C2 amended: during a backward pass with learning rate `r`, with
`e = (error map at this neuron).getD 0` read once as a snapshot, every
synapse weight is decreased by `e * r * v` where `v` is the source's current
activation value when the source's depth is `≤` this neuron's depth and its
pre-pass backup value otherwise — except that a self-loop always uses the
neuron's backup value (the failed self-borrow branch) — and the bias is
decreased by `(e * derivative(current activation value)) * r`. -/
theorem C2_backprop_update_rule (n : Neuron) (find : String → Neuron)
    (m : EMap) (r : ℝ) :
    (n.backpropagate find m r).1.synapses =
      n.synapses.map (fun p =>
        (p.1, p.2 - ((m n.id).getD 0) * r * backpropSourceValue n find p.1)) ∧
    (n.backpropagate find m r).1.bias =
      n.bias - ((m n.id).getD 0) * n.activation.derivative n.last_activation_value * r := by
  have hacc :
      ((if (m n.id).isSome then m else setE m n.id 0) n.id).getD 0 = (m n.id).getD 0 := by
    cases hm : m n.id with
    | some v => simp [hm]
    | none => simp [hm, setE]
  have key : ∀ (acc lr : ℝ) (m0 : EMap),
      applyUpdates n.synapses (backpropPass n find acc lr n.synapses 0 m0).2 =
        n.synapses.map (fun p =>
          (p.1, p.2 - acc * lr * backpropSourceValue n find p.1)) := by
    intro acc lr m0
    rw [backpropPass_updates]
    have h := applyUpdates_enum
      (fun p => acc * lr * backpropSourceValue n find p.1) n.synapses []
    simpa using h
  constructor
  · have h1 : (n.backpropagate find m r).1.synapses =
        applyUpdates n.synapses
          (backpropPass n find
            (((if (m n.id).isSome then m else setE m n.id 0) n.id).getD 0) r n.synapses 0
            (if (m n.id).isSome then m else setE m n.id 0)).2 := rfl
    rw [h1, key, hacc]
  · have h2 : (n.backpropagate find m r).1.bias =
        n.bias - (((if (m n.id).isSome then m else setE m n.id 0) n.id).getD 0) *
          n.activation.derivative n.last_activation_value * r := rfl
    rw [h2, hacc]

/-- C2 counterexample: for a self-loop the source's depth equals this
neuron's depth, so the claim predicts the weight update `e·r·v` with `v` the
*current* activation value (2), i.e. new weight `1 − 1·1·2`; the code takes
the failing-borrow branch and uses the *backup* value (3), producing
`1 − 1·1·3`. -/
theorem C2_counterexample :
    (c2Neuron.backpropagate (fun _ => default) c2ErrMap 1).1.synapses =
      [("n", 1 - 1 * 1 * 3)] ∧
    ((1 : ℝ) - 1 * 1 * 3) ≠ 1 - 1 * 1 * 2 := by
  constructor
  · norm_num [Neuron.backpropagate, c2Neuron, c2ErrMap, backpropPass, applyUpdates,
      listModify, setE]
  · norm_num

/-- C3: `propagate` fails exactly when the input vector's length differs
from the number of declared inputs, and `backpropagate` fails exactly when
the expected vector's length differs from the number of declared outputs; in
both failure cases the whole graph (every neuron's activation value, backup
value, synapse weights, bias and depth) is returned unchanged, and the
failing `backpropagate` emits no loss diagnostic (its result carries no
loss value). -/
theorem C3_shape_mismatch (net : NeuralNetwork) (vals expected : List ℝ) (lr : ℝ) :
    ((net.propagate vals).1 = .ok () ↔ vals.length = net.inputs.length) ∧
    (vals.length ≠ net.inputs.length →
      ∃ msg, net.propagate vals = (.error msg, net)) ∧
    ((∃ loss, (net.backpropagate expected lr).1 = .ok loss) ↔
      expected.length = net.outputs.length) ∧
    (expected.length ≠ net.outputs.length →
      ∃ msg, net.backpropagate expected lr = (.error msg, net)) := by
  refine ⟨?_, ?_, ?_, ?_⟩
  · by_cases h : vals.length = net.inputs.length
    · simp [NeuralNetwork.propagate, h]
    · simp [NeuralNetwork.propagate, h]
  · intro h
    exact ⟨"Input sizes do not match. " ++ toString vals.length ++ " vs " ++
      toString net.inputs.length, by simp [NeuralNetwork.propagate, h]⟩
  · by_cases h : expected.length = net.outputs.length
    · simp [NeuralNetwork.backpropagate, h]
    · simp [NeuralNetwork.backpropagate, h]
  · intro h
    exact ⟨"Output sizes do not match. " ++ toString expected.length ++ " vs " ++
      toString net.outputs.length, by simp [NeuralNetwork.backpropagate, h]⟩

theorem C3_shape_mismatch_witness :
    (([] : List ℝ).length ≠ c3Net.inputs.length) ∧
    (∃ msg, c3Net.propagate [] = (.error msg, c3Net)) ∧
    (([1, 2] : List ℝ).length ≠ c3Net.outputs.length) ∧
    (∃ msg, c3Net.backpropagate [1, 2] 1 = (.error msg, c3Net)) :=
  ⟨by decide,
    (C3_shape_mismatch c3Net [] [1, 2] 1).2.1 (by decide),
    by decide,
    (C3_shape_mismatch c3Net [] [1, 2] 1).2.2.2 (by decide)⟩

/-! ### The loss diagnostic and error seeding of `backpropagate` (C8) -/

theorem seedErrors_not_mem (ef : ErrorFunction) (map : List (String × Neuron)) :
    ∀ (pairs : List (String × ℝ)) (m : EMap) (id : String),
      id ∉ pairs.map Prod.fst → seedErrors ef map pairs m id = m id := by
  intro pairs
  induction pairs with
  | nil => intro m id _; rfl
  | cons p rest ih =>
    intro m id hid
    obtain ⟨k, ex⟩ := p
    have hik : id ≠ k := by
      intro h
      exact hid (by simp [h])
    have hrest : id ∉ rest.map Prod.fst := by
      intro h
      exact hid (by simp [h])
    show seedErrors ef map rest _ id = m id
    rw [ih _ id hrest, setE, if_neg hik]

theorem seedErrors_mem (ef : ErrorFunction) (map : List (String × Neuron)) :
    ∀ (pairs : List (String × ℝ)) (m : EMap) (id : String) (e : ℝ),
      (pairs.map Prod.fst).Nodup → (id, e) ∈ pairs →
      seedErrors ef map pairs m id =
        some (ef.get_derivative (findNeuron map id).last_activation_value e) := by
  intro pairs
  induction pairs with
  | nil => intro m id e _ hmem; cases hmem
  | cons p rest ih =>
    intro m id0 e hnd hmem
    obtain ⟨k, ex⟩ := p
    rw [List.map_cons] at hnd
    have hnd2 := List.nodup_cons.mp hnd
    rcases List.mem_cons.mp hmem with h | h
    · have h1 : id0 = k := congrArg Prod.fst h
      have h2 : e = ex := congrArg Prod.snd h
      subst h1
      subst h2
      have hnot : id0 ∉ rest.map Prod.fst := hnd2.1
      show seedErrors ef map rest _ id0 = _
      rw [seedErrors_not_mem ef map rest _ id0 hnot, setE, if_pos rfl]
    · exact ih _ id0 e hnd2.2 h

/-- C8: with matching lengths, `backpropagate` emits (as its visible
diagnostic, before any weight or bias is changed — the loss is a function of
the pre-pass activations) the loss `Σ (out − expected)²/2` of the first
documented convention; the error accumulator is seeded for each output
neuron with `current activation − expected`; and that seed value is exactly
the derivative of the per-output loss term `(out − expected)²/2`. -/
theorem C8_loss_convention (net : NeuralNetwork) (expected : List ℝ) (lr : ℝ)
    (hlen : expected.length = net.outputs.length) :
    ((net.backpropagate expected lr).1 = .ok (net.error_function.get_error
        (net.outputs.map (fun id => (findNeuron net.neuron_map id).last_activation_value))
        expected)) ∧
    (∀ out exp0 : List ℝ, net.error_function.get_error out exp0 =
      ((out.zip exp0).map (fun p => (p.1 - p.2) ^ 2 / 2)).sum) ∧
    (net.outputs.Nodup → ∀ i (hi : i < net.outputs.length) (hi2 : i < expected.length),
      seedErrors net.error_function net.neuron_map (net.outputs.zip expected)
          (fun _ => none) net.outputs[i] =
        some ((findNeuron net.neuron_map net.outputs[i]).last_activation_value -
          expected[i])) ∧
    (∀ o e : ℝ, net.error_function.get_derivative o e = o - e ∧
      HasDerivAt (fun y => (y - e) ^ 2 / 2) (net.error_function.get_derivative o e) o) := by
  have hef : net.error_function = .LossSquared := by
    cases net.error_function
    rfl
  have hderiv : ∀ o e : ℝ, net.error_function.get_derivative o e = o - e := by
    intro o e
    rw [hef]
    rfl
  refine ⟨?_, ?_, ?_, ?_⟩
  · have hne : ¬ expected.length ≠ net.outputs.length := by
      intro h
      exact h hlen
    simp [NeuralNetwork.backpropagate, hne]
  · intro out exp0
    rw [hef]
    rfl
  · intro hnd i hi hi2
    have hmem : (net.outputs[i], expected[i]) ∈ net.outputs.zip expected := by
      have hlz : i < (net.outputs.zip expected).length := by
        rw [List.length_zip]
        exact lt_min hi hi2
      have hz : (net.outputs.zip expected)[i] = (net.outputs[i], expected[i]) :=
        List.getElem_zip
      exact hz ▸ List.getElem_mem _
    have hfst : (net.outputs.zip expected).map Prod.fst = net.outputs :=
      List.map_fst_zip net.outputs expected (le_of_eq hlen.symm)
    have hnd2 : ((net.outputs.zip expected).map Prod.fst).Nodup := by
      rw [hfst]
      exact hnd
    rw [seedErrors_mem net.error_function net.neuron_map _ _ _ _ hnd2 hmem, hderiv]
  · intro o e
    refine ⟨hderiv o e, ?_⟩
    have h1 : HasDerivAt (fun y : ℝ => y - e) 1 o := (hasDerivAt_id o).sub_const e
    have h2 := (h1.pow 2).div_const 2
    have heq : (2 : ℕ) * (o - e) ^ (2 - 1) * 1 / 2 = net.error_function.get_derivative o e := by
      rw [hderiv]
      norm_num
    exact heq ▸ h2

theorem C8_loss_convention_witness :
    (([2] : List ℝ).length = c8Net.outputs.length) ∧
    ((c8Net.backpropagate [2] 1).1 = .ok (c8Net.error_function.get_error
        (c8Net.outputs.map (fun id => (findNeuron c8Net.neuron_map id).last_activation_value))
        [2])) ∧
    (seedErrors c8Net.error_function c8Net.neuron_map (c8Net.outputs.zip [2])
        (fun _ => none) "o" =
      some ((findNeuron c8Net.neuron_map "o").last_activation_value - 2)) ∧
    (∀ o e : ℝ, c8Net.error_function.get_derivative o e = o - e ∧
      HasDerivAt (fun y => (y - e) ^ 2 / 2) (c8Net.error_function.get_derivative o e) o) :=
  ⟨by decide,
    (C8_loss_convention c8Net [2] 1 (by decide)).1,
    (C8_loss_convention c8Net [2] 1 (by decide)).2.2.1 (by decide) 0 (by decide) (by decide),
    (C8_loss_convention c8Net [2] 1 (by decide)).2.2.2⟩

/-! ### Association-map facts -/

theorem aFind_aIns (map : List (String × α)) (k x : String) (v : α) :
    aFind (aIns map k v) x = if k = x then some v else aFind map x := by
  induction map with
  | nil => rfl
  | cons p rest ih =>
    obtain ⟨k0, w⟩ := p
    by_cases hk : k0 = k
    · subst hk
      by_cases hx : k0 = x
      · simp [aIns, aFind, hx]
      · simp [aIns, aFind, hx]
    · by_cases hx : k0 = x
      · subst hx
        have : ¬ k = k0 := fun h => hk h.symm
        simp [aIns, aFind, hk, this]
      · simp [aIns, aFind, hk, hx, ih]

theorem aFind_aModify (map : List (String × α)) (k x : String) (f : α → α) :
    aFind (aModify map k f) x =
      if k = x then (aFind map k).map f else aFind map x := by
  induction map with
  | nil => simp [aModify, aFind]
  | cons p rest ih =>
    obtain ⟨k0, w⟩ := p
    by_cases hk : k0 = k
    · subst hk
      by_cases hx : k0 = x
      · simp [aModify, aFind, hx]
      · simp [aModify, aFind, hx]
    · by_cases hx : k0 = x
      · subst hx
        have : ¬ k = k0 := fun h => hk h.symm
        simp [aModify, aFind, hk, this]
      · simp [aModify, aFind, hk, hx, ih]

theorem aFind_writeDepths (map : List (String × Neuron)) (dm : DMap) (x : String) :
    aFind (writeDepths map dm) x =
      (aFind map x).map (fun n => { n with depth := dm x }) := by
  induction map with
  | nil => rfl
  | cons p rest ih =>
    obtain ⟨k0, w⟩ := p
    show aFind ((k0, { w with depth := dm k0 }) :: writeDepths rest dm) x = _
    by_cases hx : k0 = x
    · subst hx
      simp [aFind]
    · simp [aFind, hx, ih]

theorem aFind_none_keys {map : List (String × α)} {x : String}
    (h : aFind map x = none) : ∀ p ∈ map, p.1 ≠ x := by
  induction map with
  | nil => intro p hp; cases hp
  | cons q rest ih =>
    intro p hp
    obtain ⟨k0, w⟩ := q
    by_cases hk : k0 = x
    · rw [aFind, if_pos hk] at h
      cases h
    · rw [aFind, if_neg hk] at h
      rcases List.mem_cons.mp hp with hh | hh
    
      · rw [hh]
        exact hk
      · exact ih h p hh

/-! ### C5: an output id absent from `neurons` and from `inputs` -/

theorem createOutputsMap_not_mem (o : String) :
    ∀ (outs : List String) (map : List (String × Neuron)), o ∉ outs →
      aFind (createOutputsMap map outs) o = aFind map o := by
  intro outs
  induction outs with
  | nil => intro map _; rfl
  | cons id rest ih =>
    intro map ho
    have h1 : o ∉ rest := fun h => ho (List.mem_cons_of_mem id h)
    have h2 : id ≠ o := fun h => ho (h ▸ List.mem_cons_self id rest)
    show aFind (createOutputsMap (aIns map id (Neuron.new id .Output .Linear 0)) rest) o = _
    rw [ih _ h1, aFind_aIns, if_neg h2]

theorem createOutputsMap_mem (o : String) :
    ∀ (outs : List String) (map : List (String × Neuron)), o ∈ outs →
      aFind (createOutputsMap map outs) o = some (Neuron.new o .Output .Linear 0) := by
  intro outs
  induction outs with
  | nil => intro map h; cases h
  | cons id rest ih =>
    intro map ho
    by_cases hr : o ∈ rest
    · exact ih _ hr
    · have hid : id = o := by
        rcases List.mem_cons.mp ho with h | h
        · exact h.symm
        · exact absurd h hr
      subst hid
      show aFind (createOutputsMap (aIns map id (Neuron.new id .Output .Linear 0)) rest) id = _
      rw [createOutputsMap_not_mem id rest _ hr, aFind_aIns, if_pos rfl]

theorem createAllNeurons_preserve (o : String) :
    ∀ (l : List (String × NeuronDefs)) (map m' : List (String × Neuron)),
      (∀ p ∈ l, p.1 ≠ o) → createAllNeurons map l = .ok m' →
      aFind m' o = aFind map o := by
  intro l
  induction l with
  | nil =>
    intro map m' _ h
    cases h
    rfl
  | cons p rest ih =>
    intro map m' hk h
    obtain ⟨id, defs⟩ := p
    have hido : id ≠ o := hk (id, defs) (List.mem_cons_self _ _)
    cases hact : ActivationFunction.new defs.activation with
    | none =>
      rw [createAllNeurons, createNeuronStep, hact] at h
      cases h
    | some act =>
      cases hfind : aFind map id with
      | some n0 =>
        rw [createAllNeurons, createNeuronStep, hact, hfind] at h
        have := ih _ m' (fun q hq => hk q (List.mem_cons_of_mem _ hq)) h
        rw [this, aFind_aModify, if_neg hido]
      | none =>
        rw [createAllNeurons, createNeuronStep, hact, hfind] at h
        have := ih _ m' (fun q hq => hk q (List.mem_cons_of_mem _ hq)) h
        rw [this, aFind_aIns, if_neg hido]

theorem createAllNeurons_error :
    ∀ (l : List (String × NeuronDefs)) (map : List (String × Neuron)) (e : BuildError),
      createAllNeurons map l = .error e → ∃ name, e = .unknownActivation name := by
  intro l
  induction l with
  | nil => intro map e h; cases h
  | cons p rest ih =>
    intro map e h
    obtain ⟨id, defs⟩ := p
    cases hact : ActivationFunction.new defs.activation with
    | none =>
      rw [createAllNeurons, createNeuronStep, hact] at h
      cases h
      exact ⟨defs.activation, rfl⟩
    | some act =>
      cases hfind : aFind map id with
      | some n0 =>
        rw [createAllNeurons, createNeuronStep, hact, hfind] at h
        exact ih _ e h
      | none =>
        rw [createAllNeurons, createNeuronStep, hact, hfind] at h
        exact ih _ e h

theorem connectNeurons_spec (o lid rid : String) (w : ℝ) (hro : rid ≠ o)
    (map : List (String × Neuron)) (n0 : Neuron) (h : aFind map o = some n0) :
    (∀ m', connectNeurons map lid rid w = .ok m' → aFind m' o = some n0) ∧
    (∀ e, connectNeurons map lid rid w = .error e → e ≠ .unknownNeuronReference o) := by
  cases hl : aFind map lid with
  | none =>
    constructor
    · intro m' hm
      rw [connectNeurons, hl] at hm
      cases hm
    · intro e he
      rw [connectNeurons, hl] at he
      cases he
      intro hcon
      cases hcon
      rw [h] at hl
      cases hl
  | some ln =>
    cases hr : aFind map rid with
    | none =>
      constructor
      · intro m' hm
        simp only [connectNeurons, hl, hr] at hm
        cases hm
      · intro e he
        simp only [connectNeurons, hl, hr] at he
        cases he
        intro hcon
        cases hcon
        exact hro rfl
    | some rn =>
      by_cases hin : rn.is_input
      · constructor
        · intro m' hm
          simp only [connectNeurons, hl, hr, if_pos hin] at hm
          cases hm
        · intro e he
          simp only [connectNeurons, hl, hr, if_pos hin] at he
          cases he
          intro hcon
          cases hcon
      · constructor
        · intro m' hm
          simp only [connectNeurons, hl, hr, if_neg hin] at hm
          cases hm
          rw [aFind_aModify, if_neg hro, h]
        · intro e he
          simp only [connectNeurons, hl, hr, if_neg hin] at he
          cases he

theorem wireOne_spec (o rid : String) (hro : rid ≠ o) :
    ∀ (syns : List (String × ℝ)) (map : List (String × Neuron)) (n0 : Neuron),
      aFind map o = some n0 →
      (∀ m', wireOne map rid syns = .ok m' → aFind m' o = some n0) ∧
      (∀ e, wireOne map rid syns = .error e → e ≠ .unknownNeuronReference o) := by
  intro syns
  induction syns with
  | nil =>
    intro map n0 h
    constructor
    · intro m' hm
      cases hm
      exact h
    · intro e he
      cases he
  | cons p rest ih =>
    intro map n0 h
    obtain ⟨lid, w⟩ := p
    obtain ⟨hok, herr⟩ := connectNeurons_spec o lid rid w hro map n0 h
    cases hc : connectNeurons map lid rid w with
    | error e =>
      constructor
      · intro m' hm
        rw [wireOne, hc] at hm
        cases hm
      · intro e2 he
        rw [wireOne, hc] at he
        cases he
        exact herr _ hc
    | ok m2 =>
      have h2 : aFind m2 o = some n0 := hok m2 hc
      obtain ⟨hok2, herr2⟩ := ih m2 n0 h2
      constructor
      · intro m' hm
        rw [wireOne, hc] at hm
        exact hok2 m' hm
      · intro e he
        rw [wireOne, hc] at he
        exact herr2 e he

theorem wireAll_spec (o : String) :
    ∀ (l : List (String × NeuronDefs)) (map : List (String × Neuron)) (n0 : Neuron),
      (∀ p ∈ l, p.1 ≠ o) → aFind map o = some n0 →
      (∀ m', wireAll map l = .ok m' → aFind m' o = some n0) ∧
      (∀ e, wireAll map l = .error e → e ≠ .unknownNeuronReference o) := by
  intro l
  induction l with
  | nil =>
    intro map n0 _ h
    constructor
    · intro m' hm
      cases hm
      exact h
    · intro e he
      cases he
  | cons p rest ih =>
    intro map n0 hk h
    obtain ⟨rid, defs⟩ := p
    have hro : rid ≠ o := hk (rid, defs) (List.mem_cons_self _ _)
    obtain ⟨hok, herr⟩ := wireOne_spec o rid hro defs.synapses map n0 h
    cases hc : wireOne map rid defs.synapses with
    | error e =>
      constructor
      · intro m' hm
        rw [wireAll, hc] at hm
        cases hm
      · intro e2 he
        rw [wireAll, hc] at he
        cases he
        exact herr _ hc
    | ok m2 =>
      obtain ⟨hok2, herr2⟩ :=
        ih m2 n0 (fun q hq => hk q (List.mem_cons_of_mem _ hq)) (hok m2 hc)
      constructor
      · intro m' hm
        rw [wireAll, hc] at hm
        exact hok2 m' hm
      · intro e he
        rw [wireAll, hc] at he
        exact herr2 e he

/-- A neuron without synapses can only ever receive depth `0`. -/
theorem calcDepth_keeps_zero (syn : String → List String) {k : String}
    (hk : syn k = []) :
    ∀ fuel active m t, (m k = none ∨ m k = some 0) →
      ((calcDepth syn fuel active m t).1 k = none ∨
        (calcDepth syn fuel active m t).1 k = some 0) := by
  intro fuel
  induction fuel with
  | zero => intro active m t h; exact h
  | succ f ih =>
    intro active m t h
    have inner : ∀ ss active2 m0, (m0 k = none ∨ m0 k = some 0) →
        ((calcSources (calcDepth syn f) active2 m0 ss).1 k = none ∨
          (calcSources (calcDepth syn f) active2 m0 ss).1 k = some 0) := by
      intro ss
      induction ss with
      | nil => intro _ m0 h0; exact h0
      | cons s rest ihs =>
        intro active2 m0 h0
        have hcand : ((srcCand (calcDepth syn f) active2 m0 s).1 k = none ∨
            (srcCand (calcDepth syn f) active2 m0 s).1 k = some 0) := by
          by_cases hs : s ∈ active2
          · simp only [srcCand, if_pos hs]
            exact h0
          · cases hm0 : m0 s with
            | some d =>
              simp only [srcCand, if_neg hs, hm0]
              exact h0
            | none =>
              have hrec := ih active2 m0 s h0
              cases hb : (calcDepth syn f active2 m0 s).2 with
              | true =>
                cases hv : (calcDepth syn f active2 m0 s).1 s with
                | some d => simp only [srcCand, if_neg hs, hm0, hb, hv]; exact hrec
                | none => simp only [srcCand, if_neg hs, hm0, hb, hv]; exact hrec
              | false => simp only [srcCand, if_neg hs, hm0, hb]; exact hrec
        exact ihs active2 (srcCand (calcDepth syn f) active2 m0 s).1 hcand
    cases hm : m t with
    | some d =>
      simp only [calcDepth, hm]
      exact h
    | none =>
      by_cases hsyn : syn t = []
      · simp only [calcDepth, hm, if_pos hsyn]
        by_cases htk : k = t
        · subst htk
          right
          exact setD_self m k 0
        · rw [setD_other m htk]
          exact h
      · have htk : k ≠ t := by
          intro hcon
          rw [hcon] at hk
          exact hsyn hk
        have hin := inner (syn t) (t :: active) m h
        set r := calcSources (calcDepth syn f) (t :: active) m (syn t) with hr
        cases hmx : r.2.max? with
        | some d =>
          simp only [calcDepth, hm, if_neg hsyn, ← hr, hmx]
          rw [setD_other r.1 htk]
          exact hin
        | none =>
          simp only [calcDepth, hm, if_neg hsyn, ← hr, hmx]
          exact hin

theorem runDepths_extends (syn : String → List String) (fuel : Nat) :
    ∀ order m m', runDepths syn fuel m order = .ok m' → Extends m m' := by
  intro order
  induction order with
  | nil =>
    intro m m' h
    cases h
    exact Extends.refl
  | cons id rest ih =>
    intro m m' h
    cases hv : (calcDepth syn fuel [] m id).1 id with
    | none =>
      rw [runDepths, hv] at h
      cases h
    | some d =>
      rw [runDepths, hv] at h
      exact (calcDepth_extends syn fuel [] m id).trans (ih _ m' h)

/-- On a successful run, a neuron without synapses that appears in the
iteration order ends with depth `0`. -/
theorem runDepths_zero (syn : String → List String) {k : String}
    (hk : syn k = []) (fuel : Nat) :
    ∀ order m m', runDepths syn fuel m order = .ok m' →
      (m k = none ∨ m k = some 0) → k ∈ order → m' k = some 0 := by
  intro order
  induction order with
  | nil =>
    intro m m' _ _ hmem
    exact absurd hmem (List.not_mem_nil k)
  | cons id rest ih =>
    intro m m' h hinv hmem
    cases hv : (calcDepth syn fuel [] m id).1 id with
    | none =>
      rw [runDepths, hv] at h
      cases h
    | some d =>
      rw [runDepths, hv] at h
      have hinv2 := calcDepth_keeps_zero syn hk fuel [] m id hinv
      by_cases hkid : k = id
      · subst hkid
        have : (calcDepth syn fuel [] m k).1 k = some 0 := by
          rcases hinv2 with h0 | h0
          · rw [h0] at hv; cases hv
          · exact h0
        exact runDepths_extends syn fuel rest _ m' h k 0 this
      · rcases List.mem_cons.mp hmem with hcon | hrest
        · exact absurd hcon hkid
        · exact ih _ m' h hinv2 hrest

/-- C5 amended: an id declared in `outputs` that neither occurs in the
`neurons` mapping nor among the inputs does not make build fail with an
unknown-neuron-reference error; `create_outputs` registers a fresh
`Output`-typed neuron for it (Linear activation, bias 0, no synapses), and
when build succeeds that neuron is in the graph with depth 0. -/
theorem C5_undeclared_output (cfg : ConfigJson) (mapIter : List String) (o : String)
    (ho : o ∈ cfg.outputs) (h1 : aFind cfg.neurons o = none) (hnotin : o ∉ cfg.inputs)
    (hi : o ∈ mapIter) :
    (∀ e, build cfg mapIter = .error e → e ≠ .unknownNeuronReference o) ∧
    (∀ net, build cfg mapIter = .ok net → ∃ n, aFind net.neuron_map o = some n ∧
      n.ntype = .Output ∧ n.activation = .Linear ∧ n.bias = 0 ∧ n.synapses = [] ∧
      n.depth = some 0) := by
  have hkeys : ∀ p ∈ cfg.neurons, p.1 ≠ o := aFind_none_keys h1
  have hm2 : aFind (createOutputsMap (createInputsMap [] cfg.inputs) cfg.outputs) o =
      some (Neuron.new o .Output .Linear 0) :=
    createOutputsMap_mem o cfg.outputs _ ho
  cases h3 : createAllNeurons (createOutputsMap (createInputsMap [] cfg.inputs)
      cfg.outputs) cfg.neurons with
  | error e0 =>
    have hbuild : build cfg mapIter = .error e0 := by
      simp only [build, h3]
    obtain ⟨name, hname⟩ := createAllNeurons_error _ _ _ h3
    constructor
    · intro e he
      rw [hbuild] at he
      cases he
      rw [hname]
      intro hcon
      cases hcon
    · intro net hnet
      rw [hbuild] at hnet
      cases hnet
  | ok m3 =>
    have hm3 : aFind m3 o = some (Neuron.new o .Output .Linear 0) := by
      rw [createAllNeurons_preserve o cfg.neurons _ m3 hkeys h3, hm2]
    cases h4 : wireAll m3 cfg.neurons with
    | error e0 =>
      have hbuild : build cfg mapIter = .error e0 := by
        simp only [build, h3, h4]
      have hne := (wireAll_spec o cfg.neurons m3 _ hkeys hm3).2 e0 h4
      constructor
      · intro e he
        rw [hbuild] at he
        cases he
        exact hne
      · intro net hnet
        rw [hbuild] at hnet
        cases hnet
    | ok m4 =>
      have hm4 : aFind m4 o = some (Neuron.new o .Output .Linear 0) :=
        (wireAll_spec o cfg.neurons m3 _ hkeys hm3).1 m4 h4
      have hsynV : synView m4 o = [] := by
        rw [synView, hm4]
        rfl
      cases h5 : runDepths (synView m4) (m4.length + 1) emptyD mapIter with
      | error e0 =>
        have hbuild : build cfg mapIter = .error (.depthFailure e0) := by
          simp only [build, h3, h4, h5]
        constructor
        · intro e he
          rw [hbuild] at he
          cases he
          intro hcon
          cases hcon
        · intro net hnet
          rw [hbuild] at hnet
          cases hnet
      | ok dm =>
        have hdm : dm o = some 0 :=
          runDepths_zero (synView m4) hsynV (m4.length + 1) mapIter emptyD dm h5
            (Or.inl rfl) hi
        have hbuild : build cfg mapIter =
            .ok ⟨cfg.inputs, cfg.outputs, writeDepths m4 dm, sortNet (writeDepths m4 dm)
              mapIter, ErrorFunction.new⟩ := by
          simp only [build, h3, h4, h5]
        constructor
        · intro e he
          rw [hbuild] at he
          cases he
        · intro net hnet
          rw [hbuild] at hnet
          cases hnet
          refine ⟨{ Neuron.new o .Output .Linear 0 with depth := dm o }, ?_, rfl, rfl,
            rfl, rfl, ?_⟩
          · rw [aFind_writeDepths, hm4]
            rfl
          · show dm o = some 0
            exact hdm

/-- C5 counterexample: the claim predicts an `UnknownNeuronReference`
failure for `c5Cfg`; instead build succeeds and the undeclared output is a
fresh Linear output neuron of depth 0. -/
theorem C5_counterexample :
    ("o" ∈ c5Cfg.outputs ∧ aFind c5Cfg.neurons "o" = none ∧ "o" ∉ c5Cfg.inputs) ∧
    ∃ net, build c5Cfg ["i", "o"] = .ok net ∧
      aFind net.neuron_map "o" = some ⟨"o", .Output, [], .Linear, 0, some 0, 0, 0⟩ := by
  exact ⟨⟨by decide, rfl, by decide⟩, ⟨_, rfl, rfl⟩⟩

theorem C5_undeclared_output_witness :
    ("o" ∈ c5Cfg.outputs) ∧ (aFind c5Cfg.neurons "o" = none) ∧ ("o" ∉ c5Cfg.inputs) ∧
    ("o" ∈ (["i", "o"] : List String)) ∧
    ((∀ e, build c5Cfg ["i", "o"] = .error e → e ≠ .unknownNeuronReference "o") ∧
      (∀ net, build c5Cfg ["i", "o"] = .ok net → ∃ n,
        aFind net.neuron_map "o" = some n ∧ n.ntype = .Output ∧
        n.activation = .Linear ∧ n.bias = 0 ∧ n.synapses = [] ∧ n.depth = some 0)) :=
  ⟨by decide, rfl, by decide, by decide,
    C5_undeclared_output c5Cfg ["i", "o"] "o" (by decide) rfl (by decide) (by decide)⟩

/-! ### C6: the evaluation order -/

theorem insSorted_perm (le : α → α → Bool) (a : α) :
    ∀ l, (insSorted le a l).Perm (a :: l) := by
  intro l
  induction l with
  | nil => exact List.Perm.refl _
  | cons b l ih =>
    by_cases hab : le a b
    · rw [insSorted, if_pos hab]
    · rw [insSorted, if_neg hab]
      exact (ih.cons b).trans (List.Perm.swap a b l)

theorem stableSort_perm (le : α → α → Bool) : ∀ l, (stableSort le l).Perm l := by
  intro l
  induction l with
  | nil => exact List.Perm.refl _
  | cons a l ih => exact (insSorted_perm le a (stableSort le l)).trans (ih.cons a)

theorem insSorted_pairwise (le : α → α → Bool)
    (htr : ∀ a b c, le a b = true → le b c = true → le a c = true)
    (htot : ∀ a b, le a b = true ∨ le b a = true) (a : α) :
    ∀ l, l.Pairwise (fun x y => le x y = true) →
      (insSorted le a l).Pairwise (fun x y => le x y = true) := by
  intro l
  induction l with
  | nil =>
    intro _
    exact List.pairwise_cons.mpr ⟨fun x hx => absurd hx (List.not_mem_nil x),
      List.Pairwise.nil⟩
  | cons b l ih =>
    intro hp
    obtain ⟨hb, hl⟩ := List.pairwise_cons.mp hp
    by_cases hab : le a b
    · rw [insSorted, if_pos hab]
      refine List.pairwise_cons.mpr ⟨?_, hp⟩
      intro x hx
      rcases List.mem_cons.mp hx with h | h
      · rw [h]
        exact hab
      · exact htr a b x hab (hb x h)
    · rw [insSorted, if_neg hab]
      have hba : le b a = true := by
        rcases htot a b with h | h
        · exact absurd h hab
        · exact h
      refine List.pairwise_cons.mpr ⟨?_, ih hl⟩
      intro x hx
      rcases (insSorted_perm le a l).mem_iff.mp hx |> List.mem_cons.mp with h | h
      · rw [h]
        exact hba
      · exact hb x h

theorem stableSort_pairwise (le : α → α → Bool)
    (htr : ∀ a b c, le a b = true → le b c = true → le a c = true)
    (htot : ∀ a b, le a b = true ∨ le b a = true) :
    ∀ l, (stableSort le l).Pairwise (fun x y => le x y = true) := by
  intro l
  induction l with
  | nil => exact List.Pairwise.nil
  | cons a l ih => exact insSorted_pairwise le htr htot a (stableSort le l) ih

theorem depthLE_trans (a b c : Option Nat) (h1 : depthLE a b = true)
    (h2 : depthLE b c = true) : depthLE a c = true := by
  cases a <;> cases b <;> cases c <;> simp [depthLE] at h1 h2 ⊢
  · exact Nat.le_trans h1 h2

theorem depthLE_total (a b : Option Nat) : depthLE a b = true ∨ depthLE b a = true := by
  cases a <;> cases b <;> simp [depthLE]
  exact Nat.le_total _ _

theorem depthPairs_mem {map : List (String × Neuron)} {iter : List String}
    {p : String × Neuron} (h : p ∈ depthPairs map iter) : aFind map p.1 = some p.2 := by
  rw [depthPairs] at h
  obtain ⟨id0, _, hid⟩ := List.mem_filterMap.mp h
  cases hf : aFind map id0 with
  | none => rw [hf] at hid; cases hid
  | some n =>
    rw [hf] at hid
    cases hid
    exact hf

/-- Inversion of a successful build into its stages. -/
theorem build_ok_inv (cfg : ConfigJson) (mapIter : List String) (net : NeuralNetwork)
    (h : build cfg mapIter = .ok net) :
    ∃ m3 m4 dm,
      createAllNeurons (createOutputsMap (createInputsMap [] cfg.inputs) cfg.outputs)
          cfg.neurons = .ok m3 ∧
      wireAll m3 cfg.neurons = .ok m4 ∧
      runDepths (synView m4) (m4.length + 1) emptyD mapIter = .ok dm ∧
      net = ⟨cfg.inputs, cfg.outputs, writeDepths m4 dm,
        sortNet (writeDepths m4 dm) mapIter, .LossSquared⟩ := by
  cases h3 : createAllNeurons (createOutputsMap (createInputsMap [] cfg.inputs)
      cfg.outputs) cfg.neurons with
  | error e0 =>
    rw [show build cfg mapIter = .error e0 by simp only [build, h3]] at h
    cases h
  | ok m3 =>
    cases h4 : wireAll m3 cfg.neurons with
    | error e0 =>
      rw [show build cfg mapIter = .error e0 by simp only [build, h3, h4]] at h
      cases h
    | ok m4 =>
      cases h5 : runDepths (synView m4) (m4.length + 1) emptyD mapIter with
      | error e0 =>
        rw [show build cfg mapIter = .error (.depthFailure e0) by
          simp only [build, h3, h4, h5]] at h
        cases h
      | ok dm =>
        rw [show build cfg mapIter = .ok ⟨cfg.inputs, cfg.outputs, writeDepths m4 dm,
          sortNet (writeDepths m4 dm) mapIter, .LossSquared⟩ by
          simp only [build, h3, h4, h5]] at h
        cases h
        exact ⟨m3, m4, dm, rfl, h4, h5, rfl⟩

/-- The evaluation order of any map and iteration order is ascending in
depth and a permutation of the iterated ids. -/
theorem sortNet_spec (map : List (String × Neuron)) (iter : List String) :
    (sortNet map iter).Pairwise (fun a b =>
      depthLE (findNeuron map a).depth (findNeuron map b).depth = true) ∧
    (sortNet map iter).Perm ((depthPairs map iter).map Prod.fst) := by
  constructor
  · have hp := stableSort_pairwise (fun a b : String × Neuron => depthLE a.2.depth b.2.depth)
      (fun a b c h1 h2 => depthLE_trans _ _ _ h1 h2)
      (fun a b => depthLE_total _ _) (depthPairs map iter)
    rw [sortNet, List.pairwise_map]
    refine hp.imp_of_mem ?_
    intro p q hpmem hqmem hle
    have hp1 : aFind map p.1 = some p.2 :=
      depthPairs_mem ((stableSort_perm _ _).mem_iff.mp hpmem)
    have hq1 : aFind map q.1 = some q.2 :=
      depthPairs_mem ((stableSort_perm _ _).mem_iff.mp hqmem)
    rw [findNeuron, hp1, findNeuron, hq1]
    exact hle
  · exact (stableSort_perm _ _).map Prod.fst

/-- C6 amended: after build, the evaluation order is ascending in depth and
is a permutation of the neuron map's iteration order; ties between
equal-depth neurons follow the hash map's iteration order (the sort is
stable with respect to it), which is not the original insertion order and is
not fixed by the topology description, so two builds of the same description
with different map iteration orders can produce different evaluation
orders. -/
theorem C6_eval_order (cfg : ConfigJson) (mapIter : List String) (net : NeuralNetwork)
    (h : build cfg mapIter = .ok net) :
    net.sorted_neurons.Pairwise (fun a b =>
      depthLE (findNeuron net.neuron_map a).depth
        (findNeuron net.neuron_map b).depth = true) ∧
    net.sorted_neurons.Perm ((depthPairs net.neuron_map mapIter).map Prod.fst) := by
  obtain ⟨m3, m4, dm, _, _, _, hnet⟩ := build_ok_inv cfg mapIter net h
  subst hnet
  exact sortNet_spec _ mapIter

/-- C6 counterexample: the same description built with two different map
iteration orders yields two different evaluation orders, and the second
disagrees with the insertion order `["i", "j"]` — refuting both the
insertion-order tie-break and build-to-build determinism. -/
theorem C6_counterexample :
    (build c6Cfg ["i", "j"]).toOption.map (fun net => net.sorted_neurons) =
      some ["i", "j"] ∧
    (build c6Cfg ["j", "i"]).toOption.map (fun net => net.sorted_neurons) =
      some ["j", "i"] ∧
    (["i", "j"] : List String) ≠ ["j", "i"] :=
  ⟨rfl, rfl, by decide⟩

theorem C6_eval_order_witness :
    ∃ net, build c6Cfg ["j", "i"] = .ok net ∧
      (net.sorted_neurons.Pairwise (fun a b =>
        depthLE (findNeuron net.neuron_map a).depth
          (findNeuron net.neuron_map b).depth = true) ∧
      net.sorted_neurons.Perm ((depthPairs net.neuron_map ["j", "i"]).map Prod.fst)) :=
  ⟨_, rfl, C6_eval_order c6Cfg ["j", "i"] _ rfl⟩

/-- C9 counterexample: on the cyclic topology `c9Cfg`, building from the
snapshot with a different (equally admissible) hash-map iteration order
reverses the depths of `u` and `v`, changing the evaluation order and the
propagate outputs: the original graph answers `[1, 0]` on input `[1, 0]`,
the round-tripped graph answers `[1, 1]`. -/
theorem C9_counterexample :
    ∃ net1 net2, build c9Cfg ["i", "j", "u", "v"] = .ok net1 ∧
      build (snapshot net1) ["i", "j", "v", "u"] = .ok net2 ∧
      runSequence net1 [[1, 0]] ≠ runSequence net2 [[1, 0]] := by
  refine ⟨c9Net1, c9Net2, rfl, rfl, ?_⟩
  have h1 : runSequence c9Net1 [[1, 0]] = [[1, 0]] := by
    norm_num [runSequence, NeuralNetwork.propagate, c9Net1, setInputValues, runForward,
      Neuron.propagate, findNeuron, aFind, aIns, aModify, Neuron.is_input,
      ActivationFunction.activation, Option.getD_some,
      (by decide : ("i" : String) ≠ "j"), (by decide : ("i" : String) ≠ "u"), (by decide : ("i" : String) ≠ "v"), (by decide : ("j" : String) ≠ "i"), (by decide : ("j" : String) ≠ "u"), (by decide : ("j" : String) ≠ "v"), (by decide : ("u" : String) ≠ "i"), (by decide : ("u" : String) ≠ "j"), (by decide : ("u" : String) ≠ "v"), (by decide : ("v" : String) ≠ "i"), (by decide : ("v" : String) ≠ "j"), (by decide : ("v" : String) ≠ "u")]
  have h2 : runSequence c9Net2 [[1, 0]] = [[1, 1]] := by
    norm_num [runSequence, NeuralNetwork.propagate, c9Net2, setInputValues, runForward,
      Neuron.propagate, findNeuron, aFind, aIns, aModify, Neuron.is_input,
      ActivationFunction.activation, Option.getD_some,
      (by decide : ("i" : String) ≠ "j"), (by decide : ("i" : String) ≠ "u"), (by decide : ("i" : String) ≠ "v"), (by decide : ("j" : String) ≠ "i"), (by decide : ("j" : String) ≠ "u"), (by decide : ("j" : String) ≠ "v"), (by decide : ("u" : String) ≠ "i"), (by decide : ("u" : String) ≠ "j"), (by decide : ("u" : String) ≠ "v"), (by decide : ("v" : String) ≠ "i"), (by decide : ("v" : String) ≠ "j"), (by decide : ("v" : String) ≠ "u")]
  rw [h1, h2]
  norm_num

/-! ### Toward the acyclic round-trip: map and rank facts -/

theorem aFind_some_mem {map : List (String × α)} {id : String} {v : α}
    (h : aFind map id = some v) : (id, v) ∈ map := by
  induction map with
  | nil => cases h
  | cons p rest ih =>
    obtain ⟨k, w⟩ := p
    by_cases hk : k = id
    · rw [aFind, if_pos hk] at h
      cases h
      rw [hk]
      exact List.mem_cons_self _ _
    · rw [aFind, if_neg hk] at h
      exact List.mem_cons_of_mem _ (ih h)

theorem aFind_of_mem_nodup {map : List (String × α)} {id : String} {v : α}
    (hnd : (map.map Prod.fst).Nodup) (h : (id, v) ∈ map) : aFind map id = some v := by
  induction map with
  | nil => cases h
  | cons p rest ih =>
    obtain ⟨k, w⟩ := p
    rw [List.map_cons] at hnd
    have hnd2 := List.nodup_cons.mp hnd
    rcases List.mem_cons.mp h with hh | hh
    · have h1 : id = k := congrArg Prod.fst hh
      have h2 : w = v := (congrArg Prod.snd hh).symm
      rw [aFind, if_pos h1.symm, h2]
    · have hk : k ≠ id := by
        intro hcon
        subst hcon
        exact hnd2.1 (by
          have : (k, v).1 ∈ rest.map Prod.fst := List.mem_map_of_mem Prod.fst hh
          simpa using this)
      rw [aFind, if_neg hk]
      exact ih hnd2.2 hh

theorem aFind_isSome_iff_mem {map : List (String × α)} {id : String} :
    (aFind map id).isSome = true ↔ id ∈ map.map Prod.fst := by
  induction map with
  | nil => simp [aFind]
  | cons p rest ih =>
    obtain ⟨k, w⟩ := p
    by_cases hk : k = id
    · simp [aFind, hk]
    · have : ¬ id = k := fun h => hk h.symm
      simp [aFind, hk, ih, this]

theorem aIns_not_mem_append {map : List (String × α)} {k : String}
    (h : aFind map k = none) (v : α) : aIns map k v = map ++ [(k, v)] := by
  induction map with
  | nil => rfl
  | cons p rest ih =>
    obtain ⟨k0, w⟩ := p
    by_cases hk : k0 = k
    · rw [aFind, if_pos hk] at h
      cases h
    · rw [aFind, if_neg hk] at h
      rw [aIns, if_neg hk, ih h, List.cons_append]

theorem aIns_keys {map : List (String × α)} {k : String}
    (h : (aFind map k).isSome = true) (v : α) :
    (aIns map k v).map Prod.fst = map.map Prod.fst := by
  induction map with
  | nil => cases h
  | cons p rest ih =>
    obtain ⟨k0, w⟩ := p
    by_cases hk : k0 = k
    · rw [aIns, if_pos hk]
      simp
    · rw [aFind, if_neg hk] at h
      rw [aIns, if_neg hk, List.map_cons, List.map_cons, ih h]

theorem aModify_keys (map : List (String × α)) (k : String) (f : α → α) :
    (aModify map k f).map Prod.fst = map.map Prod.fst := by
  induction map with
  | nil => rfl
  | cons p rest ih =>
    obtain ⟨k0, w⟩ := p
    by_cases hk : k0 = k
    · rw [aModify, if_pos hk]
      simp
    · rw [aModify, if_neg hk, List.map_cons, List.map_cons, ih]

theorem writeDepths_keys (map : List (String × Neuron)) (dm : DMap) :
    (writeDepths map dm).map Prod.fst = map.map Prod.fst := by
  induction map with
  | nil => rfl
  | cons p rest ih =>
    obtain ⟨k, w⟩ := p
    show ((k, { w with depth := dm k }) :: writeDepths rest dm).map Prod.fst = _
    rw [List.map_cons, List.map_cons, ih]

theorem foldr_max_ge {ds : List Nat} {x : Nat} (h : x ∈ ds) :
    x ≤ ds.foldr Nat.max 0 := by
  induction ds with
  | nil => cases h
  | cons d t ih =>
    rcases List.mem_cons.mp h with hh | hh
    · rw [hh]
      exact Nat.le_max_left _ _
    · exact Nat.le_trans (ih hh) (Nat.le_max_right _ _)

theorem omap_mem {m : DMap} :
    ∀ {l : List String} {ds : List Nat}, omap m l = some ds →
      ∀ s ∈ l, ∃ d, m s = some d ∧ d ∈ ds := by
  intro l
  induction l with
  | nil => intro ds _ s hs; cases hs
  | cons a t ih =>
    intro ds h s hs
    cases ha : m a with
    | none => rw [omap, ha] at h; cases h
    | some d =>
      cases ht : omap m t with
      | none => rw [omap, ha, ht] at h; cases h
      | some ds0 =>
        rw [omap, ha, ht] at h
        cases h
        rcases List.mem_cons.mp hs with hh | hh
        · exact ⟨d, hh ▸ ha, List.mem_cons_self _ _⟩
        · obtain ⟨d0, hd0, hmem⟩ := ih ht s hh
          exact ⟨d0, hd0, List.mem_cons_of_mem _ hmem⟩

theorem countP_mono_lt {p q : α → Bool} (hpq : ∀ a, p a = true → q a = true) :
    ∀ {l : List α} {a : α}, a ∈ l → q a = true → p a = false →
      l.countP p < l.countP q := by
  intro l
  induction l with
  | nil => intro a ha; cases ha
  | cons b t ih =>
    intro a ha hqa hpa
    rcases List.mem_cons.mp ha with hh | hh
    · subst hh
      rw [List.countP_cons, List.countP_cons, hqa, hpa]
      have h1 : (if (false = true) then 1 else 0) = 0 := rfl
      have h2 : (if (true = true) then 1 else 0) = 1 := rfl
      rw [h1, h2]
      have hle : t.countP p ≤ t.countP q := List.countP_mono_left (fun x _ => hpq x)
      omega
    · rw [List.countP_cons, List.countP_cons]
      have hlt := ih hh hqa hpa
      have : (if p b then 1 else 0) ≤ (if q b then 1 else 0) := by
        by_cases hpb : p b
        · rw [if_pos hpb, if_pos (hpq b hpb)]
        · rw [if_neg hpb]
          by_cases hqb : q b
          · rw [if_pos hqb]; omega
          · rw [if_neg hqb]
      omega

/-- Any acyclicity witness can be normalized to one bounded by the number of
graph nodes, preserving strict decrease between nodes of the graph. -/
theorem rank_localize (keys : List String) (rank : String → Nat) :
    ∃ rank' : String → Nat, (∀ n ∈ keys, rank' n < keys.length + 1) ∧
      (∀ n s, n ∈ keys → s ∈ keys → rank s < rank n → rank' s < rank' n) := by
  refine ⟨fun n => keys.countP (fun k => decide (rank k < rank n)), ?_, ?_⟩
  · intro n _
    exact Nat.lt_succ_of_le (List.countP_le_length _)
  · intro n s _ hs hlt
    refine countP_mono_lt ?_ hs ?_ ?_
    · intro a ha
      have := of_decide_eq_true ha
      exact decide_eq_true (lt_trans this hlt)
    · exact decide_eq_true hlt
    · exact decide_eq_false (lt_irrefl (rank s))

theorem createInputsMap_not_mem (o : String) :
    ∀ (ins : List String) (map : List (String × Neuron)), o ∉ ins →
      aFind (createInputsMap map ins) o = aFind map o := by
  intro ins
  induction ins with
  | nil => intro map _; rfl
  | cons id rest ih =>
    intro map ho
    have h1 : o ∉ rest := fun h => ho (List.mem_cons_of_mem id h)
    have h2 : id ≠ o := fun h => ho (h ▸ List.mem_cons_self id rest)
    show aFind (createInputsMap (aIns map id (Neuron.new id .Input .Linear 0)) rest) o = _
    rw [ih _ h1, aFind_aIns, if_neg h2]

theorem createInputsMap_mem (o : String) :
    ∀ (ins : List String) (map : List (String × Neuron)), o ∈ ins →
      aFind (createInputsMap map ins) o = some (Neuron.new o .Input .Linear 0) := by
  intro ins
  induction ins with
  | nil => intro map h; cases h
  | cons id rest ih =>
    intro map ho
    by_cases hr : o ∈ rest
    · exact ih _ hr
    · have hid : id = o := by
        rcases List.mem_cons.mp ho with h | h
        · exact h.symm
        · exact absurd h hr
      subst hid
      show aFind (createInputsMap (aIns map id (Neuron.new id .Input .Linear 0)) rest) id = _
      rw [createInputsMap_not_mem id rest _ hr, aFind_aIns, if_pos rfl]

/-- State of the map after input and output registration. -/
theorem m2_char (cfg : ConfigJson) (id : String) :
    aFind (createOutputsMap (createInputsMap [] cfg.inputs) cfg.outputs) id =
      if id ∈ cfg.outputs then some (Neuron.new id .Output .Linear 0)
      else if id ∈ cfg.inputs then some (Neuron.new id .Input .Linear 0)
      else none := by
  by_cases ho : id ∈ cfg.outputs
  · rw [if_pos ho]
    exact createOutputsMap_mem id cfg.outputs _ ho
  · rw [if_neg ho, createOutputsMap_not_mem id cfg.outputs _ ho]
    by_cases hi : id ∈ cfg.inputs
    · rw [if_pos hi]
      exact createInputsMap_mem id cfg.inputs _ hi
    · rw [if_neg hi, createInputsMap_not_mem id cfg.inputs _ hi]
      rfl

theorem createNeuronStep_preserve {map m2 : List (String × Neuron)} {k : String}
    {defs : NeuronDefs} {x : String} (hk : k ≠ x)
    (h : createNeuronStep map k defs = .ok m2) : aFind m2 x = aFind map x := by
  cases hact : ActivationFunction.new defs.activation with
  | none =>
    rw [createNeuronStep, hact] at h
    cases h
  | some act =>
    cases hfind : aFind map k with
    | some n0 =>
      rw [createNeuronStep, hact, hfind] at h
      cases h
      rw [aFind_aModify, if_neg hk]
    | none =>
      rw [createNeuronStep, hact, hfind] at h
      cases h
      rw [aFind_aIns, if_neg hk]

/-- After neuron creation, the entry of a declared id carries the declared
activation and bias, layered on the input/output base entry. -/
theorem createAllNeurons_at_key :
    ∀ (l : List (String × NeuronDefs)) (map m' : List (String × Neuron))
      (id : String) (defs : NeuronDefs),
      (l.map Prod.fst).Nodup → (id, defs) ∈ l → createAllNeurons map l = .ok m' →
      ∃ act, ActivationFunction.new defs.activation = some act ∧
        aFind m' id = some (match aFind map id with
          | some b => b.set_activation_bias act defs.bias
          | none => Neuron.new id .Normal act defs.bias) := by
  intro l
  induction l with
  | nil => intro map m' id defs _ hmem; cases hmem
  | cons p rest ih =>
    intro map m' id defs hnd hmem h
    obtain ⟨k, dk⟩ := p
    rw [List.map_cons] at hnd
    have hnd2 := List.nodup_cons.mp hnd
    cases hact : ActivationFunction.new dk.activation with
    | none =>
      rw [createAllNeurons, createNeuronStep, hact] at h
      cases h
    | some act =>
      have hstep : ∃ m2, createNeuronStep map k dk = .ok m2 ∧ createAllNeurons m2 rest = .ok m' := by
        cases hs : createNeuronStep map k dk with
        | error e =>
          rw [createNeuronStep, hact] at hs
          cases hfind : aFind map k with
          | some n0 => rw [hfind] at hs; cases hs
          | none => rw [hfind] at hs; cases hs
        | ok m2 =>
          refine ⟨m2, rfl, ?_⟩
          rw [createAllNeurons, hs] at h
          exact h
      obtain ⟨m2, hs, hrest⟩ := hstep
      rcases List.mem_cons.mp hmem with hh | hh
      · have h1 : id = k := congrArg Prod.fst hh
        have h2 : defs = dk := congrArg Prod.snd hh
        subst h1
        subst h2
        have hnotrest : ∀ q ∈ rest, q.1 ≠ id := by
          intro q hq hcon
          have hq1 : q.1 ∈ rest.map Prod.fst := List.mem_map_of_mem Prod.fst hq
          rw [hcon] at hq1
          exact hnd2.1 hq1
        have hpres := createAllNeurons_preserve id rest m2 m' hnotrest hrest
        refine ⟨act, hact, ?_⟩
        rw [hpres]
        rw [createNeuronStep, hact] at hs
        cases hfind : aFind map id with
        | some b =>
          rw [hfind] at hs
          cases hs
          rw [aFind_aModify, if_pos rfl, hfind]
          rfl
        | none =>
          rw [hfind] at hs
          cases hs
          rw [aFind_aIns, if_pos rfl]
      · have hkid : k ≠ id := by
          intro hcon
          have hq1 : id ∈ rest.map Prod.fst := List.mem_map_of_mem Prod.fst hh
          rw [← hcon] at hq1
          exact hnd2.1 hq1
        have hkeep : aFind m2 id = aFind map id := createNeuronStep_preserve hkid hs
        obtain ⟨act2, hact2, hval⟩ := ih m2 m' id defs hnd2.2 hh hrest
        rw [hkeep] at hval
        exact ⟨act2, hact2, hval⟩

theorem createAllNeurons_presence :
    ∀ (l : List (String × NeuronDefs)) (map m' : List (String × Neuron)) (x : String),
      createAllNeurons map l = .ok m' →
      ((aFind m' x).isSome = true ↔
        (aFind map x).isSome = true ∨ x ∈ l.map Prod.fst) := by
  intro l
  induction l with
  | nil =>
    intro map m' x h
    cases h
    simp
  | cons p rest ih =>
    intro map m' x h
    obtain ⟨k, dk⟩ := p
    cases hact : ActivationFunction.new dk.activation with
    | none =>
      rw [createAllNeurons, createNeuronStep, hact] at h
      cases h
    | some act =>
      cases hfind : aFind map k with
      | some n0 =>
        rw [createAllNeurons, createNeuronStep, hact, hfind] at h
        have := ih _ m' x h
        rw [this, aFind_aModify]
        by_cases hkx : k = x
        · subst hkx
          rw [hfind]
          simp
        · rw [if_neg hkx]
          simp only [List.map_cons, List.mem_cons]
          constructor
          · intro hc
            rcases hc with hc | hc
            · exact Or.inl hc
            · exact Or.inr (Or.inr hc)
          · intro hc
            rcases hc with hc | hc | hc
            · exact Or.inl hc
            · exact absurd hc.symm hkx
            · exact Or.inr hc
      | none =>
        rw [createAllNeurons, createNeuronStep, hact, hfind] at h
        have := ih _ m' x h
        rw [this, aFind_aIns]
        by_cases hkx : k = x
        · subst hkx
          simp
        · rw [if_neg hkx]
          simp only [List.map_cons, List.mem_cons]
          constructor
          · intro hc
            rcases hc with hc | hc
            · exact Or.inl hc
            · exact Or.inr (Or.inr hc)
          · intro hc
            rcases hc with hc | hc | hc
            · exact Or.inl hc
            · exact absurd hc.symm hkx
            · exact Or.inr hc

theorem connectNeurons_ok {map m2 : List (String × Neuron)} {lid rid : String} {w : ℝ}
    (h : connectNeurons map lid rid w = .ok m2) :
    (aFind map lid).isSome = true ∧
    m2 = aModify map rid (fun n => { n with synapses := n.synapses ++ [(lid, w)] }) := by
  cases hl : aFind map lid with
  | none =>
    rw [connectNeurons, hl] at h
    cases h
  | some ln =>
    cases hr : aFind map rid with
    | none =>
      simp only [connectNeurons, hl, hr] at h
      cases h
    | some rn =>
      by_cases hin : rn.is_input
      · simp only [connectNeurons, hl, hr, if_pos hin] at h
        cases h
      · simp only [connectNeurons, hl, hr, if_neg hin] at h
        cases h
        exact ⟨rfl, rfl⟩

theorem wireOne_others {rid : String} :
    ∀ (syns : List (String × ℝ)) (map m' : List (String × Neuron)),
      wireOne map rid syns = .ok m' →
      ∀ x, x ≠ rid → aFind m' x = aFind map x := by
  intro syns
  induction syns with
  | nil =>
    intro map m' h x _
    cases h
    rfl
  | cons q rest ih =>
    intro map m' h x hx
    obtain ⟨lid, w⟩ := q
    cases hc : connectNeurons map lid rid w with
    | error e =>
      rw [wireOne, hc] at h
      cases h
    | ok m2 =>
      rw [wireOne, hc] at h
      obtain ⟨_, hm2⟩ := connectNeurons_ok hc
      rw [ih m2 m' h x hx, hm2, aFind_aModify, if_neg (fun hcon => hx hcon.symm)]

theorem wireOne_char {rid : String} :
    ∀ (syns : List (String × ℝ)) (map m' : List (String × Neuron)) (n : Neuron),
      aFind map rid = some n → wireOne map rid syns = .ok m' →
      aFind m' rid = some { n with synapses := n.synapses ++ syns } ∧
      (∀ x, x ≠ rid → aFind m' x = aFind map x) ∧
      (∀ p ∈ syns, (aFind map p.1).isSome = true) := by
  intro syns
  induction syns with
  | nil =>
    intro map m' n hn h
    cases h
    refine ⟨?_, fun x _ => rfl, fun p hp => absurd hp (List.not_mem_nil p)⟩
    rw [hn, List.append_nil]
  | cons q rest ih =>
    intro map m' n hn h
    obtain ⟨lid, w⟩ := q
    cases hc : connectNeurons map lid (rid) w with
    | error e =>
      rw [wireOne, hc] at h
      cases h
    | ok m2 =>
      rw [wireOne, hc] at h
      obtain ⟨hlid, hm2⟩ := connectNeurons_ok hc
      have hm2rid : aFind m2 rid = some { n with synapses := n.synapses ++ [(lid, w)] } := by
        rw [hm2, aFind_aModify, if_pos rfl, hn]
        rfl
      obtain ⟨h1, h2, h3⟩ := ih m2 m' _ hm2rid h
      refine ⟨?_, ?_, ?_⟩
      · rw [h1]
        simp [List.append_assoc]
      · intro x hx
        rw [h2 x hx, hm2, aFind_aModify, if_neg (fun hcon => hx hcon.symm)]
      · intro p hp
        rcases List.mem_cons.mp hp with hh | hh
        · rw [hh]
          exact hlid
        · have := h3 p hh
          rw [hm2, aFind_aModify] at this
          by_cases hpr : rid = p.1
          · rw [← hpr, hn]
            simp
          · rw [if_neg hpr] at this
            exact this

theorem wireOne_presence {rid : String} :
    ∀ (syns : List (String × ℝ)) (map m' : List (String × Neuron)),
      wireOne map rid syns = .ok m' →
      ∀ x, (aFind m' x).isSome = (aFind map x).isSome := by
  intro syns
  induction syns with
  | nil =>
    intro map m' h x
    cases h
    rfl
  | cons q rest ih =>
    intro map m' h x
    obtain ⟨lid, w⟩ := q
    cases hc : connectNeurons map lid rid w with
    | error e =>
      rw [wireOne, hc] at h
      cases h
    | ok m2 =>
      rw [wireOne, hc] at h
      obtain ⟨_, hm2⟩ := connectNeurons_ok hc
      rw [ih m2 m' h x, hm2, aFind_aModify]
      by_cases hrx : rid = x
      · subst hrx
        rw [if_pos rfl]
        cases aFind map rid <;> rfl
      · rw [if_neg hrx]

theorem wireAll_presence :
    ∀ (l : List (String × NeuronDefs)) (map m' : List (String × Neuron)),
      wireAll map l = .ok m' → ∀ x, (aFind m' x).isSome = (aFind map x).isSome := by
  intro l
  induction l with
  | nil =>
    intro map m' h x
    cases h
    rfl
  | cons p rest ih =>
    intro map m' h x
    obtain ⟨rid, defs⟩ := p
    cases hc : wireOne map rid defs.synapses with
    | error e =>
      rw [wireAll, hc] at h
      cases h
    | ok m2 =>
      rw [wireAll, hc] at h
      rw [ih m2 m' h x, wireOne_presence defs.synapses map m2 hc x]

theorem wireAll_char :
    ∀ (l : List (String × NeuronDefs)) (map m' : List (String × Neuron)),
      (l.map Prod.fst).Nodup → wireAll map l = .ok m' →
      (∀ id defs n, (id, defs) ∈ l → aFind map id = some n →
        aFind m' id = some { n with synapses := n.synapses ++ defs.synapses } ∧
        (∀ p ∈ defs.synapses, (aFind m' p.1).isSome = true)) ∧
      (∀ x, x ∉ l.map Prod.fst → aFind m' x = aFind map x) := by
  intro l
  induction l with
  | nil =>
    intro map m' _ h
    cases h
    exact ⟨fun id defs n hmem => absurd hmem (List.not_mem_nil _), fun x _ => rfl⟩
  | cons q rest ih =>
    intro map m' hnd h
    obtain ⟨rid, dk⟩ := q
    rw [List.map_cons] at hnd
    have hnd2 := List.nodup_cons.mp hnd
    cases hc : wireOne map rid dk.synapses with
    | error e =>
      rw [wireAll, hc] at h
      cases h
    | ok m2 =>
      rw [wireAll, hc] at h
      obtain ⟨hrest, hout⟩ := ih m2 m' hnd2.2 h
      constructor
      · intro id defs n hmem hn
        rcases List.mem_cons.mp hmem with hh | hh
        · have h1 : id = rid := congrArg Prod.fst hh
          have h2 : defs = dk := congrArg Prod.snd hh
          subst h1
          subst h2
          obtain ⟨hw1, _, hw3⟩ := wireOne_char defs.synapses map m2 n hn hc
          have hidout : id ∉ rest.map Prod.fst := hnd2.1
          refine ⟨by rw [hout id hidout, hw1], ?_⟩
          intro p hp
          have hpm2 := hw3 p hp
          have := wireAll_presence rest m2 m' h p.1
          rw [this]
          rw [wireOne_presence defs.synapses map m2 hc p.1]
          exact hpm2
        · have hidrid : id ≠ rid := by
            intro hcon
            have hq1 : id ∈ rest.map Prod.fst := List.mem_map_of_mem Prod.fst hh
            rw [hcon] at hq1
            exact hnd2.1 hq1
          have hn2 : aFind m2 id = some n := by
            rw [wireOne_others dk.synapses map m2 hc id hidrid, hn]
          exact hrest id defs n hh hn2
      · intro x hx
        have hxrid : x ≠ rid := by
          intro hcon
          exact hx (by rw [hcon, List.map_cons]; exact List.mem_cons_self _ _)
        have hxrest : x ∉ rest.map Prod.fst := by
          intro hcon
          exact hx (by rw [List.map_cons]; exact List.mem_cons_of_mem _ hcon)
        rw [hout x hxrest, wireOne_others dk.synapses map m2 hc x hxrid]

theorem runDepths_ok_entry (syn : String → List String) (fuel : Nat) :
    ∀ order m m', runDepths syn fuel m order = .ok m' →
      ∀ id ∈ order, ∃ d, m' id = some d := by
  intro order
  induction order with
  | nil =>
    intro m m' _ id hid
    exact absurd hid (List.not_mem_nil id)
  | cons k rest ih =>
    intro m m' h id hid
    cases hv : (calcDepth syn fuel [] m k).1 k with
    | none =>
      rw [runDepths, hv] at h
      cases h
    | some d =>
      rw [runDepths, hv] at h
      rcases List.mem_cons.mp hid with hh | hh
      · subst hh
        exact ⟨d, runDepths_extends syn fuel rest _ m' h id d hv⟩
      · exact ih _ m' h id hh

theorem aIns_keys_nodup {map : List (String × α)} {k : String} (v : α)
    (h : (map.map Prod.fst).Nodup) : ((aIns map k v).map Prod.fst).Nodup := by
  cases hk : (aFind map k).isSome with
  | true => rw [aIns_keys hk]; exact h
  | false =>
    have hnone : aFind map k = none := by
      cases hx : aFind map k with
      | none => rfl
      | some v0 => rw [hx] at hk; cases hk
    rw [aIns_not_mem_append hnone v, List.map_append]
    rw [List.nodup_append]
    refine ⟨h, List.nodup_singleton _, ?_⟩
    intro a ha
    have hne : a ∈ map.map Prod.fst → a ≠ k := by
      intro _ hcon
      subst hcon
      rw [← aFind_isSome_iff_mem] at ha
      rw [hnone] at ha
      cases ha
    simp only [List.map_cons, List.map_nil, List.mem_singleton]
    exact fun hc => (hne ha) (by simpa using hc)

theorem createInputsMap_keys_nodup :
    ∀ (ins : List String) (map : List (String × Neuron)),
      (map.map Prod.fst).Nodup → ((createInputsMap map ins).map Prod.fst).Nodup := by
  intro ins
  induction ins with
  | nil => intro map h; exact h
  | cons id rest ih =>
    intro map h
    exact ih _ (aIns_keys_nodup _ h)

theorem createOutputsMap_keys_nodup :
    ∀ (outs : List String) (map : List (String × Neuron)),
      (map.map Prod.fst).Nodup → ((createOutputsMap map outs).map Prod.fst).Nodup := by
  intro outs
  induction outs with
  | nil => intro map h; exact h
  | cons id rest ih =>
    intro map h
    exact ih _ (aIns_keys_nodup _ h)

theorem createAllNeurons_keys_nodup :
    ∀ (l : List (String × NeuronDefs)) (map m' : List (String × Neuron)),
      (map.map Prod.fst).Nodup → createAllNeurons map l = .ok m' →
      (m'.map Prod.fst).Nodup := by
  intro l
  induction l with
  | nil =>
    intro map m' hm h
    cases h
    exact hm
  | cons p rest ih =>
    intro map m' hm h
    obtain ⟨k, dk⟩ := p
    cases hact : ActivationFunction.new dk.activation with
    | none =>
      rw [createAllNeurons, createNeuronStep, hact] at h
      cases h
    | some act =>
      cases hfind : aFind map k with
      | some n0 =>
        rw [createAllNeurons, createNeuronStep, hact, hfind] at h
        exact ih _ m' (by rw [aModify_keys]; exact hm) h
      | none =>
        rw [createAllNeurons, createNeuronStep, hact, hfind] at h
        exact ih _ m' (aIns_keys_nodup _ hm) h

theorem wireOne_keys {rid : String} :
    ∀ (syns : List (String × ℝ)) (map m' : List (String × Neuron)),
      wireOne map rid syns = .ok m' → m'.map Prod.fst = map.map Prod.fst := by
  intro syns
  induction syns with
  | nil =>
    intro map m' h
    cases h
    rfl
  | cons q rest ih =>
    intro map m' h
    obtain ⟨lid, w⟩ := q
    cases hc : connectNeurons map lid rid w with
    | error e =>
      rw [wireOne, hc] at h
      cases h
    | ok m2 =>
      rw [wireOne, hc] at h
      obtain ⟨_, hm2⟩ := connectNeurons_ok hc
      rw [ih m2 m' h, hm2, aModify_keys]

theorem wireAll_keys :
    ∀ (l : List (String × NeuronDefs)) (map m' : List (String × Neuron)),
      wireAll map l = .ok m' → m'.map Prod.fst = map.map Prod.fst := by
  intro l
  induction l with
  | nil =>
    intro map m' h
    cases h
    rfl
  | cons p rest ih =>
    intro map m' h
    obtain ⟨rid, dk⟩ := p
    cases hc : wireOne map rid dk.synapses with
    | error e =>
      rw [wireAll, hc] at h
      cases h
    | ok m2 =>
      rw [wireAll, hc] at h
      rw [ih m2 m' h, wireOne_keys dk.synapses map m2 hc]

theorem depthPairs_keys {map : List (String × Neuron)} :
    ∀ {iter : List String}, (∀ id ∈ iter, (aFind map id).isSome = true) →
      (depthPairs map iter).map Prod.fst = iter := by
  intro iter
  induction iter with
  | nil => intro _; rfl
  | cons id rest ih =>
    intro h
    have hid := h id (List.mem_cons_self id rest)
    cases hf : aFind map id with
    | none => rw [hf] at hid; cases hid
    | some n =>
      have hstep : depthPairs map (id :: rest) = (id, n) :: depthPairs map rest := by
        simp only [depthPairs, List.filterMap_cons, hf, Option.map_some']
      rw [hstep, List.map_cons, ih (fun x hx => h x (List.mem_cons_of_mem id hx))]

theorem m4_char (cfg : ConfigJson) (m3 m4 : List (String × Neuron))
    (hwf : CfgWF cfg)
    (h3 : createAllNeurons (createOutputsMap (createInputsMap [] cfg.inputs)
      cfg.outputs) cfg.neurons = .ok m3)
    (h4 : wireAll m3 cfg.neurons = .ok m4) :
    (m4.map Prod.fst).Nodup ∧
    (∀ x, (aFind m4 x).isSome = true ↔
      (x ∈ cfg.inputs ∨ x ∈ cfg.outputs ∨ x ∈ cfg.neurons.map Prod.fst)) ∧
    (∀ id n, aFind m4 id = some n →
      some n.activation = cfgAct cfg id ∧ n.bias = cfgBias cfg id ∧
      n.synapses = cfgSyn cfg id ∧ n.depth = none ∧
      (n.is_input = true ↔ id ∈ cfg.inputs) ∧
      n.last_activation_value = 0 ∧ n.backup_activation_value = 0 ∧
      (∀ p ∈ n.synapses, (aFind m4 p.1).isSome = true)) := by
  obtain ⟨hndI, hndO, hndN, hIN, hOI, hsynN⟩ := hwf
  have hndm2 : ((createOutputsMap (createInputsMap [] cfg.inputs)
      cfg.outputs).map Prod.fst).Nodup :=
    createOutputsMap_keys_nodup _ _ (createInputsMap_keys_nodup _ _ (by simp))
  have hndm3 := createAllNeurons_keys_nodup cfg.neurons _ m3 hndm2 h3
  have hndm4 : (m4.map Prod.fst).Nodup := by
    rw [wireAll_keys cfg.neurons m3 m4 h4]
    exact hndm3
  refine ⟨hndm4, ?_, ?_⟩
  · intro x
    rw [wireAll_presence cfg.neurons m3 m4 h4 x,
      createAllNeurons_presence cfg.neurons _ m3 x h3, m2_char cfg x]
    by_cases ho : x ∈ cfg.outputs
    · simp only [if_pos ho, Option.isSome_some]
      constructor
      · intro _; exact Or.inr (Or.inl ho)
      · intro _; exact Or.inl trivial
    · by_cases hi : x ∈ cfg.inputs
      · simp only [if_neg ho, if_pos hi, Option.isSome_some]
        constructor
        · intro _; exact Or.inl hi
        · intro _; exact Or.inl trivial
      · simp only [if_neg ho, if_neg hi, Option.isSome_none]
        constructor
        · intro hc
          rcases hc with hc | hc
          · cases hc
          · exact Or.inr (Or.inr hc)
        · intro hc
          rcases hc with hc | hc | hc
          · exact absurd hc hi
          · exact absurd hc ho
          · exact Or.inr hc
  · intro id n hn
    by_cases hin : id ∈ cfg.neurons.map Prod.fst
    · rcases List.mem_map.mp hin with ⟨p, hmem, hfst⟩
      obtain ⟨id0, defs⟩ := p
      cases hfst
      have hfindN : aFind cfg.neurons id0 = some defs := aFind_of_mem_nodup hndN hmem
      obtain ⟨act, hact, hm3⟩ :=
        createAllNeurons_at_key cfg.neurons _ m3 id0 defs hndN hmem h3
      have hnotin : id0 ∉ cfg.inputs := fun hc => hIN id0 hc hin
      have hca : cfgAct cfg id0 = some act := by
        unfold cfgAct
        rw [hfindN]
        exact hact
      have hcb : cfgBias cfg id0 = defs.bias := by
        simp only [cfgBias, hfindN, Option.map_some', Option.getD_some]
      have hcs : cfgSyn cfg id0 = defs.synapses := by
        simp only [cfgSyn, hfindN, Option.map_some', Option.getD_some]
      rw [m2_char] at hm3
      by_cases ho : id0 ∈ cfg.outputs
      · rw [if_pos ho] at hm3
        obtain ⟨hm4, hsrc⟩ :=
          (wireAll_char cfg.neurons m3 m4 hndN h4).1 id0 defs _ hmem hm3
        rw [hn] at hm4
        injection hm4 with hm4
        subst hm4
        refine ⟨?_, ?_, ?_, rfl, ?_, rfl, rfl, ?_⟩
        · rw [hca]
          rfl
        · rw [hcb]
          rfl
        · rw [hcs]
          exact List.nil_append _
        · constructor
          · intro hc; cases hc
          · intro hc; exact absurd hc hnotin
        · intro q hq
          exact hsrc q hq
      · rw [if_neg ho, if_neg hnotin] at hm3
        obtain ⟨hm4, hsrc⟩ :=
          (wireAll_char cfg.neurons m3 m4 hndN h4).1 id0 defs _ hmem hm3
        rw [hn] at hm4
        injection hm4 with hm4
        subst hm4
        refine ⟨?_, ?_, ?_, rfl, ?_, rfl, rfl, ?_⟩
        · rw [hca]
          rfl
        · rw [hcb]
          rfl
        · rw [hcs]
          exact List.nil_append _
        · constructor
          · intro hc; cases hc
          · intro hc; exact absurd hc hnotin
        · intro q hq
          exact hsrc q hq
    · have hfnone : aFind cfg.neurons id = none := by
        cases hx : aFind cfg.neurons id with
        | none => rfl
        | some d =>
          exact absurd (aFind_isSome_iff_mem.mp (by rw [hx]; rfl)) hin
      have hca : cfgAct cfg id = some .Linear := by
        unfold cfgAct
        rw [hfnone]
      have hcb : cfgBias cfg id = 0 := by
        simp only [cfgBias, hfnone, Option.map_none', Option.getD_none]
      have hcs : cfgSyn cfg id = [] := by
        simp only [cfgSyn, hfnone, Option.map_none', Option.getD_none]
      have hm4eq : aFind m4 id = aFind m3 id :=
        (wireAll_char cfg.neurons m3 m4 hndN h4).2 id hin
      have hm3eq := createAllNeurons_preserve id cfg.neurons _ m3
        (fun p hp hc => hin (by rw [← hc]; exact List.mem_map_of_mem Prod.fst hp)) h3
      rw [hm4eq, hm3eq, m2_char] at hn
      by_cases ho : id ∈ cfg.outputs
      · rw [if_pos ho] at hn
        injection hn with hn
        subst hn
        refine ⟨?_, ?_, ?_, rfl, ?_, rfl, rfl, ?_⟩
        · rw [hca]
          rfl
        · rw [hcb]
          rfl
        · rw [hcs]
          rfl
        · constructor
          · intro hc; cases hc
          · intro hc; exact absurd hc (hOI id ho)
        · intro q hq; cases hq
      · by_cases hi : id ∈ cfg.inputs
        · rw [if_neg ho, if_pos hi] at hn
          injection hn with hn
          subst hn
          refine ⟨?_, ?_, ?_, rfl, ?_, rfl, rfl, ?_⟩
          · rw [hca]
            rfl
          · rw [hcb]
            rfl
          · rw [hcs]
            rfl
          · constructor
            · intro _; exact hi
            · intro _; rfl
          · intro q hq; cases hq
        · rw [if_neg ho, if_neg hi] at hn
          exact Option.noConfusion hn

theorem build_good (cfg : ConfigJson) (mapIter : List String) (net : NeuralNetwork)
    (rank : String → Nat) (hwf : CfgWF cfg)
    (hacyc : ∀ p ∈ cfg.neurons, ∀ q ∈ p.2.synapses, rank q.1 < rank p.1)
    (h : build cfg mapIter = .ok net)
    (hiter : mapIter.Perm (net.neuron_map.map Prod.fst)) :
    net.inputs = cfg.inputs ∧ net.outputs = cfg.outputs ∧
    (∀ x, (aFind net.neuron_map x).isSome = true ↔
      (x ∈ cfg.inputs ∨ x ∈ cfg.outputs ∨ x ∈ cfg.neurons.map Prod.fst)) ∧
    (∀ id n, aFind net.neuron_map id = some n →
      some n.activation = cfgAct cfg id ∧ n.bias = cfgBias cfg id ∧
      n.synapses = cfgSyn cfg id ∧ (n.is_input = true ↔ id ∈ cfg.inputs) ∧
      n.last_activation_value = 0 ∧ n.backup_activation_value = 0) ∧
    GoodNet net rank := by
  obtain ⟨m3, m4, dm, h3, h4, h5, hnet⟩ := build_ok_inv cfg mapIter net h
  obtain ⟨hnd4, hpres4, hchar4⟩ := m4_char cfg m3 m4 hwf h3 h4
  have hmap : net.neuron_map = writeDepths m4 dm := by rw [hnet]
  have hsort : net.sorted_neurons = sortNet (writeDepths m4 dm) mapIter := by rw [hnet]
  have hinp : net.inputs = cfg.inputs := by rw [hnet]
  have hout : net.outputs = cfg.outputs := by rw [hnet]
  rw [hmap, writeDepths_keys] at hiter
  have hpres5 : ∀ x, (aFind (writeDepths m4 dm) x).isSome = (aFind m4 x).isSome := by
    intro x
    rw [aFind_writeDepths]
    cases aFind m4 x <;> rfl
  have hentry5 : ∀ id n, aFind (writeDepths m4 dm) id = some n →
      ∃ n4, aFind m4 id = some n4 ∧ n = { n4 with depth := dm id } := by
    intro id n hn
    rw [aFind_writeDepths] at hn
    cases h4x : aFind m4 id with
    | none => rw [h4x] at hn; cases hn
    | some n4 =>
      rw [h4x] at hn
      injection hn with hn
      exact ⟨n4, rfl, hn.symm⟩
  have hdmem : ∀ x ∈ m4.map Prod.fst, ∃ d, dm x = some d := by
    intro x hx
    exact runDepths_ok_entry _ _ mapIter emptyD dm h5 x (hiter.mem_iff.mpr hx)
  have hrank4 : ∀ id n, aFind m4 id = some n → ∀ q ∈ n.synapses, rank q.1 < rank id := by
    intro id n hn q hq
    have hsyn := (hchar4 id n hn).2.2.1
    rw [hsyn] at hq
    cases hf : aFind cfg.neurons id with
    | none =>
      simp only [cfgSyn, hf, Option.map_none', Option.getD_none] at hq
      exact absurd hq (List.not_mem_nil q)
    | some defs =>
      simp only [cfgSyn, hf, Option.map_some', Option.getD_some] at hq
      exact hacyc (id, defs) (aFind_some_mem hf) q hq
  have hsrc4 : ∀ id n, aFind m4 id = some n → ∀ q ∈ n.synapses,
      q.1 ∈ m4.map Prod.fst := by
    intro id n hn q hq
    exact aFind_isSome_iff_mem.mp ((hchar4 id n hn).2.2.2.2.2.2.2 q hq)
  obtain ⟨rank', hbound, hmono⟩ := rank_localize (m4.map Prod.fst) rank
  have hacyc' : ∀ a s, s ∈ synView m4 a → rank' s < rank' a := by
    intro a s hs
    cases h4a : aFind m4 a with
    | none =>
      simp only [synView, h4a, Option.map_none', Option.getD_none] at hs
      exact absurd hs (List.not_mem_nil s)
    | some n4 =>
      simp only [synView, h4a, Option.map_some', Option.getD_some] at hs
      rcases List.mem_map.mp hs with ⟨q, hq, hqs⟩
      have ha_in : a ∈ m4.map Prod.fst := aFind_isSome_iff_mem.mp (by rw [h4a]; rfl)
      have hs_in : s ∈ m4.map Prod.fst := hqs ▸ hsrc4 a n4 h4a q hq
      exact hmono a s ha_in hs_in (hqs ▸ hrank4 a n4 h4a q hq)
  have hfuel : ∀ x ∈ mapIter, rank' x < m4.length + 1 := by
    intro x hx
    have hb := hbound x (hiter.mem_iff.mp hx)
    rwa [List.length_map] at hb
  obtain ⟨m'', hrun, _, hinv, _⟩ :=
    runDepths_acyclic (synView m4) rank' hacyc' (m4.length + 1) mapIter emptyD hfuel
      (invD_empty _)
  rw [hrun] at h5
  injection h5 with h5
  subst h5
  have hstrict : ∀ id n, aFind m4 id = some n → ∀ q ∈ n.synapses,
      ∃ dq dn, m'' q.1 = some dq ∧ m'' id = some dn ∧ dq < dn := by
    intro id n hn q hq
    have hid_in : id ∈ m4.map Prod.fst := aFind_isSome_iff_mem.mp (by rw [hn]; rfl)
    obtain ⟨dn, hdn⟩ := hdmem id hid_in
    have hle := hinv id dn hdn
    have hsv : synView m4 id = n.sourceIds := by
      simp only [synView, hn, Option.map_some', Option.getD_some]
    cases hle with
    | inl hle =>
      rcases hle with ⟨hnil, _⟩
      rw [hsv] at hnil
      have hq1 : q.1 ∈ n.sourceIds := List.mem_map_of_mem Prod.fst hq
      rw [hnil] at hq1
      exact absurd hq1 (List.not_mem_nil _)
    | inr hle =>
      rcases hle with ⟨_, ds, hds, hdn2⟩
      rw [hsv] at hds
      obtain ⟨dq, hdq, hdqmem⟩ := omap_mem hds q.1 (List.mem_map_of_mem Prod.fst hq)
      exact ⟨dq, dn, hdq, hdn,
        by rw [hdn2]; exact Nat.lt_succ_of_le (foldr_max_ge hdqmem)⟩
  obtain ⟨hndI, hndO, _, _, _, _⟩ := hwf
  refine ⟨hinp, hout, ?_, ?_, ?_⟩
  · intro x
    rw [hmap, ← hpres4 x, hpres5 x]
  · intro id n hn
    rw [hmap] at hn
    obtain ⟨n4, h4e, hne⟩ := hentry5 id n hn
    subst hne
    obtain ⟨ha, hb, hs, _, hiff, hl, hbk, _⟩ := hchar4 id n4 h4e
    exact ⟨ha, hb, hs, hiff, hl, hbk⟩
  · unfold GoodNet
    refine ⟨?_, ?_, ?_, ?_, ?_, ?_, ?_, ?_, ?_⟩
    · rw [hmap, writeDepths_keys]
      exact hnd4
    · rw [hinp]
      exact hndI
    · rw [hmap, hsort, writeDepths_keys]
      have hdp : (depthPairs (writeDepths m4 m'') mapIter).map Prod.fst = mapIter := by
        refine depthPairs_keys ?_
        intro x hx
        rw [hpres5 x]
        exact aFind_isSome_iff_mem.mpr (hiter.mem_iff.mp hx)
      have h1 := (sortNet_spec (writeDepths m4 m'') mapIter).2
      rw [hdp] at h1
      exact h1.trans hiter
    · rw [hmap, hsort]
      exact (sortNet_spec _ mapIter).1
    · intro x
      rw [hmap, hinp]
      cases hx : aFind (writeDepths m4 m'') x with
      | none =>
        have hfd : findNeuron (writeDepths m4 m'') x = default := by
          rw [findNeuron, hx]
          rfl
        rw [hfd]
        constructor
        · intro hc
          exact absurd hc (by decide)
        · intro hc
          have hp := (hpres4 x).mpr (Or.inl hc)
          rw [← hpres5 x, hx] at hp
          simp at hp
      | some n5 =>
        obtain ⟨n4, h4e, hne⟩ := hentry5 x n5 hx
        subst hne
        have hfd : findNeuron (writeDepths m4 m'') x = { n4 with depth := m'' x } := by
          rw [findNeuron, hx]
          rfl
        rw [hfd]
        exact (hchar4 x n4 h4e).2.2.2.2.1
    · intro o hoo
      rw [hmap]
      rw [hout] at hoo
      rw [hpres5 o]
      exact (hpres4 o).mpr (Or.inr (Or.inl hoo))
    · intro x q hq
      rw [hmap] at hq
      cases hx : aFind (writeDepths m4 m'') x with
      | none =>
        rw [findNeuron, hx] at hq
        exact absurd hq (List.not_mem_nil q)
      | some n5 =>
        obtain ⟨n4, h4e, hne⟩ := hentry5 x n5 hx
        rw [findNeuron, hx] at hq
        have hq4 : q ∈ n4.synapses := by
          rw [hne] at hq
          exact hq
        exact hrank4 x n4 h4e q hq4
    · intro x q hq
      rw [hmap] at hq ⊢
      cases hx : aFind (writeDepths m4 m'') x with
      | none =>
        rw [findNeuron, hx] at hq
        exact absurd hq (List.not_mem_nil q)
      | some n5 =>
        obtain ⟨n4, h4e, hne⟩ := hentry5 x n5 hx
        rw [findNeuron, hx] at hq
        have hq4 : q ∈ n4.synapses := by
          rw [hne] at hq
          exact hq
        rw [hpres5 q.1]
        exact aFind_isSome_iff_mem.mpr (hsrc4 x n4 h4e q hq4)
    · intro id n hn q hq
      rw [hmap] at hn ⊢
      obtain ⟨n4, h4e, hne⟩ := hentry5 id n hn
      have hq4 : q ∈ n4.synapses := by
        rw [hne] at hq
        exact hq
      obtain ⟨dq, dn, hdq, hdn, hlt⟩ := hstrict id n4 h4e q hq4
      obtain ⟨nq4, hnq4⟩ : ∃ nq4, aFind m4 q.1 = some nq4 := by
        have hpq := aFind_isSome_iff_mem.mpr (hsrc4 id n4 h4e q hq4)
        cases hz : aFind m4 q.1 with
        | none => rw [hz] at hpq; cases hpq
        | some w => exact ⟨w, rfl⟩
      refine ⟨dq, dn, ?_, ?_, hlt⟩
      · have hq5 : aFind (writeDepths m4 m'') q.1 = some { nq4 with depth := m'' q.1 } := by
          rw [aFind_writeDepths, hnq4]
          rfl
        rw [findNeuron, hq5]
        exact hdq
      · rw [hne]
        exact hdn

theorem Vf_fuel_congr (map : List (String × Neuron)) (inp : String → ℝ)
    (rank : String → Nat)
    (hr : ∀ id0 q, q ∈ (findNeuron map id0).synapses → rank q.1 < rank id0) :
    ∀ k id0 fuel1 fuel2, rank id0 ≤ k → rank id0 < fuel1 → rank id0 < fuel2 →
      Vf map inp fuel1 id0 = Vf map inp fuel2 id0 := by
  intro k
  induction k with
  | zero =>
    intro id0 fuel1 fuel2 hk h1 h2
    cases fuel1 with
    | zero => exact absurd h1 (Nat.not_lt_zero _)
    | succ f1 =>
      cases fuel2 with
      | zero => exact absurd h2 (Nat.not_lt_zero _)
      | succ f2 =>
        rw [Vf, Vf]
        cases hm : aFind map id0 with
        | none => rfl
        | some n =>
          cases hin : n.is_input with
          | true => simp only [if_pos hin]
          | false =>
            simp only [hin, if_neg (Bool.false_ne_true)]
            have hmapeq : n.synapses.map (fun p => p.2 * Vf map inp f1 p.1) =
                n.synapses.map (fun p => p.2 * Vf map inp f2 p.1) := by
              refine List.map_congr_left ?_
              intro q hq
              have hlt := hr id0 q (by rw [findNeuron, hm]; exact hq)
              have hk0 : rank id0 = 0 := Nat.le_zero.mp hk
              rw [hk0] at hlt
              exact absurd hlt (Nat.not_lt_zero _)
            rw [hmapeq]
  | succ k ih =>
    intro id0 fuel1 fuel2 hk h1 h2
    cases fuel1 with
    | zero => exact absurd h1 (Nat.not_lt_zero _)
    | succ f1 =>
      cases fuel2 with
      | zero => exact absurd h2 (Nat.not_lt_zero _)
      | succ f2 =>
        rw [Vf, Vf]
        cases hm : aFind map id0 with
        | none => rfl
        | some n =>
          cases hin : n.is_input with
          | true => simp only [if_pos hin]
          | false =>
            simp only [hin, if_neg (Bool.false_ne_true)]
            have hmapeq : n.synapses.map (fun p => p.2 * Vf map inp f1 p.1) =
                n.synapses.map (fun p => p.2 * Vf map inp f2 p.1) := by
              refine List.map_congr_left ?_
              intro q hq
              have hlt := hr id0 q (by rw [findNeuron, hm]; exact hq)
              have hq1 : Vf map inp f1 q.1 = Vf map inp (rank q.1 + 1) q.1 := by
                refine ih q.1 f1 (rank q.1 + 1) ?_ ?_ (Nat.lt_succ_self _)
                · exact Nat.le_of_lt_succ (Nat.lt_of_lt_of_le hlt hk)
                · exact Nat.lt_of_lt_of_le hlt (Nat.le_of_lt_succ h1)
              have hq2 : Vf map inp f2 q.1 = Vf map inp (rank q.1 + 1) q.1 := by
                refine ih q.1 f2 (rank q.1 + 1) ?_ ?_ (Nat.lt_succ_self _)
                · exact Nat.le_of_lt_succ (Nat.lt_of_lt_of_le hlt hk)
                · exact Nat.lt_of_lt_of_le hlt (Nat.le_of_lt_succ h2)
              rw [hq1, hq2]
            rw [hmapeq]

theorem Vf_congr (m1 m2 : List (String × Neuron)) (inp1 inp2 : String → ℝ)
    (h : MapEquiv m1 m2)
    (hinp : ∀ id0 n1, aFind m1 id0 = some n1 → n1.is_input = true →
      inp1 id0 = inp2 id0) :
    ∀ fuel id0, Vf m1 inp1 fuel id0 = Vf m2 inp2 fuel id0 := by
  intro fuel
  induction fuel with
  | zero => intro id0; rfl
  | succ f ih =>
    intro id0
    rw [Vf, Vf]
    rcases h id0 with ⟨ha, hb⟩ | ⟨n1, n2, ha, hb, heq⟩
    · rw [ha, hb]
    · rw [ha, hb]
      show (if n1.is_input = true then inp1 id0 else n1.activation.activation
          ((List.map (fun p => p.2 * Vf m1 inp1 f p.1) n1.synapses).sum + n1.bias)) =
        (if n2.is_input = true then inp2 id0 else n2.activation.activation
          ((List.map (fun p => p.2 * Vf m2 inp2 f p.1) n2.synapses).sum + n2.bias))
      obtain ⟨hinq, hact, hbias, hperm⟩ := heq
      cases hi1 : n1.is_input with
      | true =>
        rw [hi1] at hinq
        rw [← hinq, if_pos rfl, if_pos rfl]
        exact hinp id0 n1 ha hi1
      | false =>
        rw [hi1] at hinq
        rw [← hinq, if_neg Bool.false_ne_true, if_neg Bool.false_ne_true]
        rw [hact, hbias]
        have hsum : (n1.synapses.map (fun p => p.2 * Vf m1 inp1 f p.1)).sum =
            (n2.synapses.map (fun p => p.2 * Vf m2 inp2 f p.1)).sum := by
          have hf : (fun p : String × ℝ => p.2 * Vf m1 inp1 f p.1) =
              (fun p : String × ℝ => p.2 * Vf m2 inp2 f p.1) := by
            funext p
            rw [ih p.1]
          rw [hf]
          exact (hperm.map _).sum_eq
        rw [hsum]

theorem sameStruct_self (m : List (String × Neuron)) : SameStruct m m := by
  refine ⟨Eq.refl _, ?_⟩
  intro id0
  refine ⟨Eq.refl _, ?_⟩
  intro n1 n2 h1 h2
  rw [h1] at h2
  injection h2 with h2
  subst h2
  exact ⟨Eq.refl _, Eq.refl _, Eq.refl _, Eq.refl _, Eq.refl _, Eq.refl _⟩

theorem sameStruct_trans {m1 m2 m3 : List (String × Neuron)}
    (h12 : SameStruct m1 m2) (h23 : SameStruct m2 m3) : SameStruct m1 m3 := by
  obtain ⟨hk12, hp12⟩ := h12
  obtain ⟨hk23, hp23⟩ := h23
  refine ⟨hk23.trans hk12, ?_⟩
  intro id0
  obtain ⟨hs12, hf12⟩ := hp12 id0
  obtain ⟨hs23, hf23⟩ := hp23 id0
  refine ⟨hs12.trans hs23, ?_⟩
  intro n1 n3 h1 h3
  have hsm : (aFind m2 id0).isSome = true := by rw [← hs12, h1]; rfl
  cases h2 : aFind m2 id0 with
  | none => rw [h2] at hsm; cases hsm
  | some n2 =>
    obtain ⟨a1, a2, a3, a4, a5, a6⟩ := hf12 n1 n2 h1 h2
    obtain ⟨b1, b2, b3, b4, b5, b6⟩ := hf23 n2 n3 h2 h3
    exact ⟨a1.trans b1, a2.trans b2, a3.trans b3, a4.trans b4, a5.trans b5, a6.trans b6⟩

theorem SameStruct_aModify_value (m : List (String × Neuron)) (k : String) (v : ℝ) :
    SameStruct m (aModify m k (fun n => { n with last_activation_value := v })) := by
  refine ⟨by rw [aModify_keys], ?_⟩
  intro id0
  rw [aFind_aModify]
  by_cases hk : k = id0
  · subst hk
    rw [if_pos rfl]
    refine ⟨?_, ?_⟩
    · cases aFind m k <;> rfl
    · intro n1 n2 h1 h2
      rw [h1, Option.map_some'] at h2
      injection h2 with h2
      subst h2
      exact ⟨Eq.refl _, Eq.refl _, Eq.refl _, Eq.refl _, Eq.refl _, Eq.refl _⟩
  · rw [if_neg hk]
    refine ⟨Eq.refl _, ?_⟩
    intro n1 n2 h1 h2
    rw [h1] at h2
    injection h2 with h2
    subst h2
    exact ⟨Eq.refl _, Eq.refl _, Eq.refl _, Eq.refl _, Eq.refl _, Eq.refl _⟩

theorem SameStruct_aIns_propagate (m : List (String × Neuron)) (k : String) (n : Neuron)
    (find : String → Neuron) (h : aFind m k = some n) :
    SameStruct m (aIns m k (n.propagate find)) := by
  refine ⟨by rw [aIns_keys (by rw [h]; rfl)], ?_⟩
  intro id0
  rw [aFind_aIns]
  by_cases hk : k = id0
  · subst hk
    rw [if_pos rfl, h]
    refine ⟨Eq.refl _, ?_⟩
    intro n1 n2 h1 h2
    injection h1 with h1
    injection h2 with h2
    subst h1
    subst h2
    exact ⟨Eq.refl _, Eq.refl _, Eq.refl _, Eq.refl _, Eq.refl _, Eq.refl _⟩
  · rw [if_neg hk]
    refine ⟨Eq.refl _, ?_⟩
    intro n1 n2 h1 h2
    rw [h1] at h2
    injection h2 with h2
    subst h2
    exact ⟨Eq.refl _, Eq.refl _, Eq.refl _, Eq.refl _, Eq.refl _, Eq.refl _⟩

theorem setInputValues_struct :
    ∀ (pairs : List (ℝ × String)) (m : List (String × Neuron)),
      SameStruct m (setInputValues m pairs) := by
  intro pairs
  induction pairs with
  | nil => intro m; exact sameStruct_self m
  | cons p rest ih =>
    intro m
    obtain ⟨v, id0⟩ := p
    exact sameStruct_trans (SameStruct_aModify_value m id0 v) (ih _)

theorem setInputValues_not_mem :
    ∀ (pairs : List (ℝ × String)) (m : List (String × Neuron)) (x : String),
      x ∉ pairs.map Prod.snd → aFind (setInputValues m pairs) x = aFind m x := by
  intro pairs
  induction pairs with
  | nil => intro m x _; rfl
  | cons p rest ih =>
    intro m x hx
    obtain ⟨v, y⟩ := p
    rw [List.map_cons] at hx
    have hxr : x ∉ rest.map Prod.snd := fun hc => hx (List.mem_cons_of_mem _ hc)
    have hxy : y ≠ x := fun hc => hx (by rw [hc]; exact List.mem_cons_self _ _)
    show aFind (setInputValues (aModify m y _) rest) x = aFind m x
    rw [ih _ x hxr, aFind_aModify, if_neg hxy]

theorem setInputValues_mem :
    ∀ (pairs : List (ℝ × String)) (m : List (String × Neuron)) (x : String) (v : ℝ),
      (pairs.map Prod.snd).Nodup → (v, x) ∈ pairs →
      aFind (setInputValues m pairs) x =
        (aFind m x).map (fun n => { n with last_activation_value := v }) := by
  intro pairs
  induction pairs with
  | nil => intro m x v _ hmem; exact absurd hmem (List.not_mem_nil _)
  | cons p rest ih =>
    intro m x v hnd hmem
    obtain ⟨w, y⟩ := p
    rw [List.map_cons] at hnd
    have hnd2 := List.nodup_cons.mp hnd
    rcases List.mem_cons.mp hmem with hh | hh
    · injection hh with hh1 hh2
      subst hh1
      subst hh2
      have hxr : x ∉ rest.map Prod.snd := hnd2.1
      show aFind (setInputValues (aModify m x _) rest) x = _
      rw [setInputValues_not_mem rest _ x hxr, aFind_aModify, if_pos rfl]
    · have hxy : y ≠ x := by
        intro hc
        refine hnd2.1 ?_
        rw [hc]
        exact List.mem_map.mpr ⟨(v, x), hh, rfl⟩
      show aFind (setInputValues (aModify m y _) rest) x = _
      rw [ih _ x v hnd2.2 hh, aFind_aModify, if_neg hxy]

theorem SameStruct.find_fields {m1 m2 : List (String × Neuron)}
    (h : SameStruct m1 m2) (id0 : String) :
    (findNeuron m2 id0).ntype = (findNeuron m1 id0).ntype ∧
    (findNeuron m2 id0).synapses = (findNeuron m1 id0).synapses ∧
    (findNeuron m2 id0).activation = (findNeuron m1 id0).activation ∧
    (findNeuron m2 id0).bias = (findNeuron m1 id0).bias ∧
    (findNeuron m2 id0).depth = (findNeuron m1 id0).depth ∧
    (findNeuron m2 id0).is_input = (findNeuron m1 id0).is_input := by
  obtain ⟨_, hp⟩ := h
  obtain ⟨hps, hfld⟩ := hp id0
  cases h1 : aFind m1 id0 with
  | none =>
    have h2 : aFind m2 id0 = none := by
      rw [h1] at hps
      cases h2x : aFind m2 id0 with
      | none => rfl
      | some w => rw [h2x] at hps; cases hps
    rw [findNeuron, findNeuron, h1, h2]
    exact ⟨Eq.refl _, Eq.refl _, Eq.refl _, Eq.refl _, Eq.refl _, Eq.refl _⟩
  | some n1 =>
    have h2 : ∃ n2, aFind m2 id0 = some n2 := by
      rw [h1] at hps
      cases h2x : aFind m2 id0 with
      | none => rw [h2x] at hps; cases hps
      | some w => exact ⟨w, rfl⟩
    obtain ⟨n2, h2⟩ := h2
    obtain ⟨_, ht, hs, ha, hb, hd⟩ := hfld n1 n2 h1 h2
    rw [findNeuron, findNeuron, h1, h2]
    refine ⟨ht.symm, hs.symm, ha.symm, hb.symm, hd.symm, ?_⟩
    simp only [Option.getD_some, Neuron.is_input, ht]

theorem Vf_input (map : List (String × Neuron)) (inp : String → ℝ) (fuel : Nat)
    (id0 : String) (n : Neuron) (h : aFind map id0 = some n)
    (hi : n.is_input = true) : Vf map inp (fuel + 1) id0 = inp id0 := by
  rw [Vf, h]
  show (if n.is_input = true then inp id0 else _) = inp id0
  rw [hi, if_pos rfl]

theorem Vf_noninput (map : List (String × Neuron)) (inp : String → ℝ) (fuel : Nat)
    (id0 : String) (n : Neuron) (h : aFind map id0 = some n)
    (hi : n.is_input = false) :
    Vf map inp (fuel + 1) id0 = n.activation.activation
      ((n.synapses.map (fun p => p.2 * Vf map inp fuel p.1)).sum + n.bias) := by
  rw [Vf, h]
  show (if n.is_input = true then inp id0 else _) = _
  rw [hi, if_neg Bool.false_ne_true]

theorem runForward_inv (map1 : List (String × Neuron)) (rank : String → Nat)
    (inp : String → ℝ)
    (hrank : ∀ id0 q, q ∈ (findNeuron map1 id0).synapses → rank q.1 < rank id0)
    (hdS : ∀ id0 n, aFind map1 id0 = some n → ∀ q ∈ n.synapses,
      ∃ dq dn, (findNeuron map1 q.1).depth = some dq ∧ n.depth = some dn ∧ dq < dn)
    (hsrcP : ∀ id0 q, q ∈ (findNeuron map1 id0).synapses →
      (aFind map1 q.1).isSome = true) :
    ∀ (S : List String), S.Nodup →
      S.Pairwise (fun a b =>
        depthLE (findNeuron map1 a).depth (findNeuron map1 b).depth = true) →
      ∀ (mapCur : List (String × Neuron)), SameStruct map1 mapCur →
      (∀ id0 n, aFind map1 id0 = some n →
        (findNeuron mapCur id0).last_activation_value =
          if id0 ∈ S ∧ n.is_input = false then n.last_activation_value
          else Vf map1 inp (rank id0 + 1) id0) →
      SameStruct map1 (runForward mapCur S) ∧
      (∀ id0 n, aFind map1 id0 = some n →
        (findNeuron (runForward mapCur S) id0).last_activation_value =
          if id0 ∈ S ∧ n.is_input = false then Vf map1 inp (rank id0 + 1) id0
          else (findNeuron mapCur id0).last_activation_value) := by
  intro S
  induction S with
  | nil =>
    intro _ _ mapCur hss hv
    refine ⟨hss, ?_⟩
    intro id0 n hn
    have hc : ¬ (id0 ∈ ([] : List String) ∧ n.is_input = false) :=
      fun hc => absurd hc.1 (List.not_mem_nil _)
    rw [if_neg hc]
    rfl
  | cons hd T ih =>
    intro hnd hpw mapCur hss hv
    rw [List.nodup_cons] at hnd
    rcases List.pairwise_cons.mp hpw with ⟨hrel, hpwT⟩
    cases hfc : aFind mapCur hd with
    | none =>
      have hf1 : aFind map1 hd = none := by
        have hps := (hss.2 hd).1
        rw [hfc] at hps
        cases h1x : aFind map1 hd with
        | none => rfl
        | some w => rw [h1x] at hps; cases hps
      have hstep : runForward mapCur (hd :: T) = runForward mapCur T := by
        rw [runForward, hfc]
      have hne : ∀ id0 n0, aFind map1 id0 = some n0 → id0 ≠ hd := by
        intro id0 n0 hn0 hc
        rw [hc, hf1] at hn0
        cases hn0
      have hiff : ∀ id0 n0, aFind map1 id0 = some n0 →
          ((id0 ∈ hd :: T ∧ n0.is_input = false) ↔ (id0 ∈ T ∧ n0.is_input = false)) := by
        intro id0 n0 hn0
        constructor
        · rintro ⟨hm, hb⟩
          exact ⟨(List.mem_cons.mp hm).resolve_left (hne id0 n0 hn0), hb⟩
        · rintro ⟨hm, hb⟩
          exact ⟨List.mem_cons_of_mem hd hm, hb⟩
      have hv' : ∀ id0 n0, aFind map1 id0 = some n0 →
          (findNeuron mapCur id0).last_activation_value =
            if id0 ∈ T ∧ n0.is_input = false then n0.last_activation_value
            else Vf map1 inp (rank id0 + 1) id0 := by
        intro id0 n0 hn0
        rw [hv id0 n0 hn0]
        exact if_congr (hiff id0 n0 hn0) rfl rfl
      obtain ⟨hS2, hV2⟩ := ih hnd.2 hpwT mapCur hss hv'
      rw [hstep]
      refine ⟨hS2, ?_⟩
      intro id0 n0 hn0
      rw [hV2 id0 n0 hn0]
      exact if_congr (hiff id0 n0 hn0).symm rfl rfl
    | some n' =>
      obtain ⟨n, hn1⟩ : ∃ n, aFind map1 hd = some n := by
        have hps := (hss.2 hd).1
        rw [hfc] at hps
        cases h1x : aFind map1 hd with
        | none => rw [h1x] at hps; cases hps
        | some w => exact ⟨w, rfl⟩
      obtain ⟨_, hnt, hsyn_eq, hact_eq, hbias_eq, _⟩ := (hss.2 hd).2 n n' hn1 hfc
      have hiieq : n.is_input = n'.is_input := by
        simp only [Neuron.is_input, hnt]
      cases hii : n'.is_input with
      | true =>
        have hni : n.is_input = true := by rw [hiieq, hii]
        have hstep : runForward mapCur (hd :: T) = runForward mapCur T := by
          rw [runForward, hfc]
          show (if n'.is_input = true then runForward mapCur T
            else runForward (aIns mapCur hd (n'.propagate (findNeuron mapCur))) T) =
            runForward mapCur T
          rw [hii, if_pos rfl]
        have hiff : ∀ id0 n0, aFind map1 id0 = some n0 →
            ((id0 ∈ hd :: T ∧ n0.is_input = false) ↔
              (id0 ∈ T ∧ n0.is_input = false)) := by
          intro id0 n0 hn0
          constructor
          · rintro ⟨hm, hb⟩
            rcases List.mem_cons.mp hm with hc | hc
            · exfalso
              rw [hc, hn1] at hn0
              injection hn0 with hn0
              rw [← hn0] at hb
              rw [hni] at hb
              cases hb
            · exact ⟨hc, hb⟩
          · rintro ⟨hm, hb⟩
            exact ⟨List.mem_cons_of_mem hd hm, hb⟩
        have hv' : ∀ id0 n0, aFind map1 id0 = some n0 →
            (findNeuron mapCur id0).last_activation_value =
              if id0 ∈ T ∧ n0.is_input = false then n0.last_activation_value
              else Vf map1 inp (rank id0 + 1) id0 := by
          intro id0 n0 hn0
          rw [hv id0 n0 hn0]
          exact if_congr (hiff id0 n0 hn0) rfl rfl
        obtain ⟨hS2, hV2⟩ := ih hnd.2 hpwT mapCur hss hv'
        rw [hstep]
        refine ⟨hS2, ?_⟩
        intro id0 n0 hn0
        rw [hV2 id0 n0 hn0]
        exact if_congr (hiff id0 n0 hn0).symm rfl rfl
      | false =>
        have hni : n.is_input = false := by rw [hiieq, hii]
        have hstep : runForward mapCur (hd :: T) =
            runForward (aIns mapCur hd (n'.propagate (findNeuron mapCur))) T := by
          rw [runForward, hfc]
          show (if n'.is_input = true then runForward mapCur T
            else runForward (aIns mapCur hd (n'.propagate (findNeuron mapCur))) T) =
            runForward (aIns mapCur hd (n'.propagate (findNeuron mapCur))) T
          rw [hii, if_neg Bool.false_ne_true]
        have hsum : ∀ q ∈ n.synapses,
            (findNeuron mapCur q.1).last_activation_value =
              Vf map1 inp (rank q.1 + 1) q.1 := by
          intro q hq
          have hqP : (aFind map1 q.1).isSome = true := by
            refine hsrcP hd q ?_
            rw [findNeuron, hn1]
            exact hq
          obtain ⟨nq, hnq⟩ : ∃ nq, aFind map1 q.1 = some nq := by
            cases hz : aFind map1 q.1 with
            | none => rw [hz] at hqP; cases hqP
            | some w => exact ⟨w, rfl⟩
          obtain ⟨dq, dn, hdq, hdn, hlt⟩ := hdS hd n hn1 q hq
          have hqnotS : q.1 ∉ hd :: T := by
            intro hmem
            rcases List.mem_cons.mp hmem with hc | hc
            · rw [hc] at hdq
              have hdq2 : n.depth = some dq := by
                rw [findNeuron, hn1] at hdq
                exact hdq
              rw [hdn] at hdq2
              injection hdq2 with hdq2
              rw [hdq2] at hlt
              exact Nat.lt_irrefl dq hlt
            · have hrel2 := hrel q.1 hc
              have hfdn : (findNeuron map1 hd).depth = some dn := by
                rw [findNeuron, hn1]
                exact hdn
              rw [hfdn, hdq] at hrel2
              have hle : dn ≤ dq := of_decide_eq_true hrel2
              exact Nat.lt_irrefl dq (Nat.lt_of_lt_of_le hlt hle)
          rw [hv q.1 nq hnq, if_neg (fun hc => hqnotS hc.1)]
        have hval : (n'.propagate (findNeuron mapCur)).last_activation_value =
            Vf map1 inp (rank hd + 1) hd := by
          show n'.activation.activation
            ((n'.synapses.map
              (fun p => p.2 * (findNeuron mapCur p.1).last_activation_value)).sum +
              n'.bias) = _
          rw [← hsyn_eq, ← hact_eq, ← hbias_eq,
            Vf_noninput map1 inp (rank hd) hd n hn1 hni]
          refine congrArg _ ?_
          refine congrArg (fun z => z + n.bias) ?_
          refine congrArg List.sum ?_
          refine List.map_congr_left ?_
          intro q hq
          rw [hsum q hq]
          have hlt : rank q.1 < rank hd := by
            refine hrank hd q ?_
            rw [findNeuron, hn1]
            exact hq
          rw [Vf_fuel_congr map1 inp rank hrank (rank q.1) q.1 (rank q.1 + 1) (rank hd)
            le_rfl (Nat.lt_succ_self _) hlt]
        have hssNew : SameStruct map1
            (aIns mapCur hd (n'.propagate (findNeuron mapCur))) :=
          sameStruct_trans hss (SameStruct_aIns_propagate mapCur hd n' (findNeuron mapCur) hfc)
        have hfindNew_hd : findNeuron (aIns mapCur hd (n'.propagate (findNeuron mapCur))) hd =
            n'.propagate (findNeuron mapCur) := by
          rw [findNeuron, aFind_aIns, if_pos rfl]
          rfl
        have hfindNew_other : ∀ id0, id0 ≠ hd →
            findNeuron (aIns mapCur hd (n'.propagate (findNeuron mapCur))) id0 =
              findNeuron mapCur id0 := by
          intro id0 hid
          rw [findNeuron, findNeuron, aFind_aIns, if_neg (fun hc => hid hc.symm)]
        have hvNew : ∀ id0 n0, aFind map1 id0 = some n0 →
            (findNeuron (aIns mapCur hd (n'.propagate (findNeuron mapCur)))
                id0).last_activation_value =
              if id0 ∈ T ∧ n0.is_input = false then n0.last_activation_value
              else Vf map1 inp (rank id0 + 1) id0 := by
          intro id0 n0 hn0
          by_cases hid : id0 = hd
          · subst hid
            have hn0n : n0 = n := by
              rw [hn0] at hn1
              injection hn1 with hn1
            have hnotT : ¬ (id0 ∈ T ∧ n0.is_input = false) := fun hc => hnd.1 hc.1
            rw [if_neg hnotT, hfindNew_hd, hval]
          · rw [hfindNew_other id0 hid, hv id0 n0 hn0]
            refine if_congr ?_ rfl rfl
            constructor
            · rintro ⟨hm, hb⟩
              exact ⟨(List.mem_cons.mp hm).resolve_left hid, hb⟩
            · rintro ⟨hm, hb⟩
              exact ⟨List.mem_cons_of_mem hd hm, hb⟩
        obtain ⟨hS2, hV2⟩ := ih hnd.2 hpwT _ hssNew hvNew
        rw [hstep]
        refine ⟨hS2, ?_⟩
        intro id0 n0 hn0
        rw [hV2 id0 n0 hn0]
        by_cases hid : id0 = hd
        · subst hid
          have hn0n : n0 = n := by
            rw [hn0] at hn1
            injection hn1 with hn1
          have hnotT : ¬ (id0 ∈ T ∧ n0.is_input = false) := fun hc => hnd.1 hc.1
          have hcondS : id0 ∈ id0 :: T ∧ n0.is_input = false :=
            ⟨List.mem_cons_self _ _, by rw [hn0n]; exact hni⟩
          rw [if_neg hnotT, if_pos hcondS, hfindNew_hd, hval]
        · have hiff2 : (id0 ∈ T ∧ n0.is_input = false) ↔
              (id0 ∈ hd :: T ∧ n0.is_input = false) := by
            constructor
            · rintro ⟨hm, hb⟩
              exact ⟨List.mem_cons_of_mem hd hm, hb⟩
            · rintro ⟨hm, hb⟩
              exact ⟨(List.mem_cons.mp hm).resolve_left hid, hb⟩
          rw [hfindNew_other id0 hid]
          exact if_congr hiff2 rfl rfl

theorem MapEquiv_of_SameStruct {m1 m2 : List (String × Neuron)}
    (h : SameStruct m1 m2) : MapEquiv m1 m2 := by
  intro id0
  obtain ⟨hps, hfld⟩ := h.2 id0
  cases h1 : aFind m1 id0 with
  | none =>
    refine Or.inl ⟨rfl, ?_⟩
    rw [h1] at hps
    cases h2 : aFind m2 id0 with
    | none => rfl
    | some w => rw [h2] at hps; cases hps
  | some n1 =>
    rw [h1] at hps
    cases h2 : aFind m2 id0 with
    | none => rw [h2] at hps; cases hps
    | some n2 =>
      obtain ⟨_, ht, hs, ha, hb, _⟩ := hfld n1 n2 h1 h2
      refine Or.inr ⟨n1, n2, rfl, rfl, ?_, ha, hb, hs ▸ List.Perm.refl _⟩
      simp only [Neuron.is_input, ht]

theorem MapEquiv.symm {m1 m2 : List (String × Neuron)} (h : MapEquiv m1 m2) :
    MapEquiv m2 m1 := by
  intro id0
  rcases h id0 with ⟨h1, h2⟩ | ⟨n1, n2, h1, h2, he⟩
  · exact Or.inl ⟨h2, h1⟩
  · exact Or.inr ⟨n2, n1, h2, h1, he.1.symm, he.2.1.symm, he.2.2.1.symm, he.2.2.2.symm⟩

theorem mapEquiv_trans {m1 m2 m3 : List (String × Neuron)}
    (h12 : MapEquiv m1 m2) (h23 : MapEquiv m2 m3) : MapEquiv m1 m3 := by
  intro id0
  rcases h12 id0 with ⟨ha1, ha2⟩ | ⟨n1, n2, ha1, ha2, hae⟩
  · rcases h23 id0 with ⟨hb1, hb2⟩ | ⟨w2, w3, hb1, hb2, _⟩
    · exact Or.inl ⟨ha1, hb2⟩
    · rw [ha2] at hb1; cases hb1
  · rcases h23 id0 with ⟨hb1, hb2⟩ | ⟨w2, w3, hb1, hb2, hbe⟩
    · rw [ha2] at hb1; cases hb1
    · rw [ha2] at hb1
      injection hb1 with hb1
      subst hb1
      exact Or.inr ⟨n1, w3, ha1, hb2, hae.1.trans hbe.1, hae.2.1.trans hbe.2.1,
        hae.2.2.1.trans hbe.2.2.1, hae.2.2.2.trans hbe.2.2.2⟩

theorem GoodNet_transfer {net net' : NeuralNetwork} {rank : String → Nat}
    (hs : SameStruct net.neuron_map net'.neuron_map)
    (hi : net'.inputs = net.inputs) (ho : net'.outputs = net.outputs)
    (hsn : net'.sorted_neurons = net.sorted_neurons)
    (g : GoodNet net rank) : GoodNet net' rank := by
  obtain ⟨g1, g2, g3, g4, g5, g6, g7, g8, g9⟩ := g
  refine ⟨?_, ?_, ?_, ?_, ?_, ?_, ?_, ?_, ?_⟩
  · rw [hs.1]
    exact g1
  · rw [hi]
    exact g2
  · rw [hsn, hs.1]
    exact g3
  · rw [hsn]
    refine g4.imp ?_
    intro a b hab
    rw [(hs.find_fields a).2.2.2.2.1, (hs.find_fields b).2.2.2.2.1]
    exact hab
  · intro id0
    rw [(hs.find_fields id0).2.2.2.2.2, hi]
    exact g5 id0
  · intro o hoo
    rw [ho] at hoo
    have hp := (hs.2 o).1
    rw [← hp]
    exact g6 o hoo
  · intro id0 q hq
    rw [(hs.find_fields id0).2.1] at hq
    exact g7 id0 q hq
  · intro id0 q hq
    rw [(hs.find_fields id0).2.1] at hq
    have hp := (hs.2 q.1).1
    rw [← hp]
    exact g8 id0 q hq
  · intro id0 n hn q hq
    have hps := (hs.2 id0).1
    have hsome : (aFind net.neuron_map id0).isSome = true := by
      rw [hps, hn]
      rfl
    obtain ⟨n1, hn1⟩ : ∃ n1, aFind net.neuron_map id0 = some n1 := by
      cases hz : aFind net.neuron_map id0 with
      | none => rw [hz] at hsome; cases hsome
      | some w => exact ⟨w, rfl⟩
    obtain ⟨_, _, hsyn, _, _, hdep⟩ := (hs.2 id0).2 n1 n hn1 hn
    have hq1 : q ∈ n1.synapses := by
      rw [hsyn]
      exact hq
    obtain ⟨dq, dn, hdq, hdn, hlt⟩ := g9 id0 n1 hn1 q hq1
    refine ⟨dq, dn, ?_, ?_, hlt⟩
    · rw [(hs.find_fields q.1).2.2.2.2.1]
      exact hdq
    · rw [← hdep]
      exact hdn

theorem propagate_values (net : NeuralNetwork) (rank : String → Nat)
    (g : GoodNet net rank) (vals : List ℝ)
    (hlen : vals.length = net.inputs.length) :
    (net.propagate vals).1 = .ok () ∧
    (net.propagate vals).2 = { net with
      neuron_map := runForward (assignedMap net vals) net.sorted_neurons } ∧
    SameStruct net.neuron_map (net.propagate vals).2.neuron_map ∧
    (∀ id0 n, aFind net.neuron_map id0 = some n →
      (findNeuron (net.propagate vals).2.neuron_map id0).last_activation_value =
        Vf (assignedMap net vals) (inpView (assignedMap net vals)) (rank id0 + 1) id0) := by
  obtain ⟨g1, g2, g3, g4, g5, g6, g7, g8, g9⟩ := g
  have hnot : ¬ (vals.length ≠ net.inputs.length) := fun hc => hc hlen
  have hprop : net.propagate vals = (.ok (), { net with
      neuron_map := runForward (assignedMap net vals) net.sorted_neurons }) := by
    unfold NeuralNetwork.propagate
    rw [if_neg hnot]
    rfl
  have hsA : SameStruct net.neuron_map (assignedMap net vals) :=
    setInputValues_struct _ _
  have hpresA : ∀ x, (aFind net.neuron_map x).isSome = (aFind (assignedMap net vals) x).isSome :=
    fun x => (hsA.2 x).1
  have hentryA : ∀ id0 n, aFind (assignedMap net vals) id0 = some n →
      ∃ n1, aFind net.neuron_map id0 = some n1 ∧
        n1.synapses = n.synapses ∧ n1.depth = n.depth ∧ n1.is_input = n.is_input := by
    intro id0 n hn
    have hp := hpresA id0
    rw [hn] at hp
    cases hz : aFind net.neuron_map id0 with
    | none => rw [hz] at hp; cases hp
    | some n1 =>
      obtain ⟨_, ht, hs, _, _, hd⟩ := (hsA.2 id0).2 n1 n hz hn
      refine ⟨n1, rfl, hs, hd, ?_⟩
      simp only [Neuron.is_input, ht]
  have hrankA : ∀ id0 q, q ∈ (findNeuron (assignedMap net vals) id0).synapses →
      rank q.1 < rank id0 := by
    intro id0 q hq
    rw [(hsA.find_fields id0).2.1] at hq
    exact g7 id0 q hq
  have hdSA : ∀ id0 n, aFind (assignedMap net vals) id0 = some n → ∀ q ∈ n.synapses,
      ∃ dq dn, (findNeuron (assignedMap net vals) q.1).depth = some dq ∧
        n.depth = some dn ∧ dq < dn := by
    intro id0 n hn q hq
    obtain ⟨n1, hn1, hs, hd, _⟩ := hentryA id0 n hn
    have hq1 : q ∈ n1.synapses := by rw [hs]; exact hq
    obtain ⟨dq, dn, hdq, hdn, hlt⟩ := g9 id0 n1 hn1 q hq1
    refine ⟨dq, dn, ?_, ?_, hlt⟩
    · rw [(hsA.find_fields q.1).2.2.2.2.1]
      exact hdq
    · rw [← hd]
      exact hdn
  have hsrcPA : ∀ id0 q, q ∈ (findNeuron (assignedMap net vals) id0).synapses →
      (aFind (assignedMap net vals) q.1).isSome = true := by
    intro id0 q hq
    rw [(hsA.find_fields id0).2.1] at hq
    rw [← hpresA q.1]
    exact g8 id0 q hq
  have hndS : net.sorted_neurons.Nodup := (g3.nodup_iff).mpr g1
  have hpwA : net.sorted_neurons.Pairwise (fun a b =>
      depthLE (findNeuron (assignedMap net vals) a).depth
        (findNeuron (assignedMap net vals) b).depth = true) := by
    refine g4.imp ?_
    intro a b hab
    rw [(hsA.find_fields a).2.2.2.2.1, (hsA.find_fields b).2.2.2.2.1]
    exact hab
  have hvA : ∀ id0 n, aFind (assignedMap net vals) id0 = some n →
      (findNeuron (assignedMap net vals) id0).last_activation_value =
        if id0 ∈ net.sorted_neurons ∧ n.is_input = false then n.last_activation_value
        else Vf (assignedMap net vals) (inpView (assignedMap net vals)) (rank id0 + 1) id0 := by
    intro id0 n hn
    by_cases hc : id0 ∈ net.sorted_neurons ∧ n.is_input = false
    · rw [if_pos hc, findNeuron, hn, Option.getD_some]
    · rw [if_neg hc]
      have hmem : id0 ∈ net.sorted_neurons := by
        refine (g3.mem_iff).mpr ?_
        refine aFind_isSome_iff_mem.mp ?_
        rw [hpresA id0, hn]
        rfl
      have hinput : n.is_input = true := by
        cases hz : n.is_input with
        | true => rfl
        | false => exact absurd ⟨hmem, hz⟩ hc
      rw [Vf_input (assignedMap net vals) (inpView (assignedMap net vals))
        (rank id0) id0 n hn hinput]
      rfl
  obtain ⟨hS2, hV2⟩ := runForward_inv (assignedMap net vals) rank
    (inpView (assignedMap net vals)) hrankA hdSA hsrcPA net.sorted_neurons hndS hpwA
    (assignedMap net vals) (sameStruct_self _) hvA
  refine ⟨by rw [hprop], by rw [hprop], ?_, ?_⟩
  · rw [hprop]
    exact sameStruct_trans hsA hS2
  · intro id0 n hn
    rw [hprop]
    show (findNeuron (runForward (assignedMap net vals) net.sorted_neurons)
        id0).last_activation_value = _
    have hp := hpresA id0
    rw [hn] at hp
    obtain ⟨nA, hnA⟩ : ∃ nA, aFind (assignedMap net vals) id0 = some nA := by
      cases hz : aFind (assignedMap net vals) id0 with
      | none => rw [hz] at hp; cases hp
      | some w => exact ⟨w, rfl⟩
    rw [hV2 id0 nA hnA]
    by_cases hc : id0 ∈ net.sorted_neurons ∧ nA.is_input = false
    · rw [if_pos hc]
    · rw [if_neg hc, hvA id0 nA hnA, if_neg hc]

theorem aFind_append_none {acc : List (String × α)} {x : String}
    (h : aFind acc x = none) (l : List (String × α)) :
    aFind (acc ++ l) x = aFind l x := by
  induction acc with
  | nil => rfl
  | cons p rest ih =>
    obtain ⟨k, v⟩ := p
    by_cases hk : k = x
    · rw [aFind, if_pos hk] at h
      cases h
    · rw [aFind, if_neg hk] at h
      show aFind ((k, v) :: (rest ++ l)) x = aFind l x
      rw [aFind, if_neg hk]
      exact ih h

theorem foldl_aIns_append :
    ∀ (l acc : List (String × ℝ)), (l.map Prod.fst).Nodup →
      (∀ k ∈ l.map Prod.fst, aFind acc k = none) →
      l.foldl (fun a p => aIns a p.1 p.2) acc = acc ++ l := by
  intro l
  induction l with
  | nil => intro acc _ _; exact (List.append_nil acc).symm
  | cons p rest ih =>
    intro acc hnd habs
    obtain ⟨k, v⟩ := p
    rw [List.map_cons] at hnd habs
    have hk : aFind acc k = none := habs k (List.mem_cons_self _ _)
    have hnd2 := List.nodup_cons.mp hnd
    rw [List.foldl_cons]
    have hstep : aIns acc k v = acc ++ [(k, v)] := aIns_not_mem_append hk v
    rw [hstep, ih (acc ++ [(k, v)]) hnd2.2 ?_]
    · rw [List.append_assoc]
      rfl
    · intro x hx
      have hxk : x ≠ k := fun hc => hnd2.1 (hc ▸ hx)
      rw [aFind_append_none (habs x (List.mem_cons_of_mem _ hx))]
      rw [aFind, if_neg (fun hc => hxk hc.symm)]
      rfl

theorem get_synapses_map_eq (n : Neuron) (h : (n.synapses.map Prod.fst).Nodup) :
    n.get_synapses_map = n.synapses := by
  rw [Neuron.get_synapses_map, foldl_aIns_append n.synapses [] h (fun k _ => rfl)]
  rfl

theorem snapNeurons_skip (map : List (String × Neuron)) :
    ∀ (order : List String) (acc : List (String × NeuronDefs)) (x : String),
      x ∉ order → aFind (snapNeurons map order acc) x = aFind acc x := by
  intro order
  induction order with
  | nil => intro acc x _; rfl
  | cons id0 rest ih =>
    intro acc x hx
    have hxr : x ∉ rest := fun hc => hx (List.mem_cons_of_mem _ hc)
    have hxid : id0 ≠ x := fun hc => hx (hc ▸ List.mem_cons_self _ _)
    cases hm : aFind map id0 with
    | none =>
      rw [snapNeurons, hm]
      exact ih acc x hxr
    | some n =>
      cases hi : n.is_input with
      | true =>
        rw [snapNeurons, hm]
        show aFind (if n.is_input = true then snapNeurons map rest acc else _) x = _
        rw [hi, if_pos rfl]
        exact ih acc x hxr
      | false =>
        rw [snapNeurons, hm]
        show aFind (if n.is_input = true then _ else snapNeurons map rest
          (aIns acc id0 ⟨n.activation.get_name, n.bias, n.get_synapses_map⟩)) x = _
        rw [hi, if_neg Bool.false_ne_true]
        rw [ih _ x hxr, aFind_aIns, if_neg hxid]

theorem snapNeurons_nonentry (map : List (String × Neuron)) :
    ∀ (order : List String) (acc : List (String × NeuronDefs)) (x : String),
      (∀ n, aFind map x = some n → n.is_input = true) →
      aFind (snapNeurons map order acc) x = aFind acc x := by
  intro order
  induction order with
  | nil => intro acc x _; rfl
  | cons id0 rest ih =>
    intro acc x hno
    cases hm : aFind map id0 with
    | none =>
      rw [snapNeurons, hm]
      exact ih acc x hno
    | some n =>
      cases hi : n.is_input with
      | true =>
        rw [snapNeurons, hm]
        show aFind (if n.is_input = true then snapNeurons map rest acc else _) x = _
        rw [hi, if_pos rfl]
        exact ih acc x hno
      | false =>
        rw [snapNeurons, hm]
        show aFind (if n.is_input = true then _ else snapNeurons map rest
          (aIns acc id0 ⟨n.activation.get_name, n.bias, n.get_synapses_map⟩)) x = _
        rw [hi, if_neg Bool.false_ne_true]
        have hxid : id0 ≠ x := by
          intro hc
          subst hc
          rw [hno n hm] at hi
          cases hi
        rw [ih _ x hno, aFind_aIns, if_neg hxid]

theorem snapNeurons_mem (map : List (String × Neuron)) :
    ∀ (order : List String) (acc : List (String × NeuronDefs)) (x : String) (n : Neuron),
      order.Nodup → x ∈ order → aFind map x = some n → n.is_input = false →
      aFind (snapNeurons map order acc) x =
        some ⟨n.activation.get_name, n.bias, n.get_synapses_map⟩ := by
  intro order
  induction order with
  | nil => intro acc x n _ hmem; exact absurd hmem (List.not_mem_nil _)
  | cons id0 rest ih =>
    intro acc x n hnd hmem hfind hni
    have hnd2 := List.nodup_cons.mp hnd
    by_cases hx : x = id0
    · subst hx
      rw [snapNeurons, hfind]
      show aFind (if n.is_input = true then _ else snapNeurons map rest
        (aIns acc x ⟨n.activation.get_name, n.bias, n.get_synapses_map⟩)) x = _
      rw [hni, if_neg Bool.false_ne_true]
      rw [snapNeurons_skip map rest _ x hnd2.1, aFind_aIns, if_pos rfl]
    · have hxr : x ∈ rest := (List.mem_cons.mp hmem).resolve_left hx
      cases hm : aFind map id0 with
      | none =>
        rw [snapNeurons, hm]
        exact ih acc x n hnd2.2 hxr hfind hni
      | some n0 =>
        cases hi : n0.is_input with
        | true =>
          rw [snapNeurons, hm]
          show aFind (if n0.is_input = true then snapNeurons map rest acc else _) x = _
          rw [hi, if_pos rfl]
          exact ih acc x n hnd2.2 hxr hfind hni
        | false =>
          rw [snapNeurons, hm]
          show aFind (if n0.is_input = true then _ else snapNeurons map rest
            (aIns acc id0 ⟨n0.activation.get_name, n0.bias, n0.get_synapses_map⟩)) x = _
          rw [hi, if_neg Bool.false_ne_true]
          exact ih _ x n hnd2.2 hxr hfind hni

theorem runSequence_cons (net : NeuralNetwork) (v : List ℝ) (rest : List (List ℝ)) :
    runSequence net (v :: rest) =
      ((net.propagate v).2.outputs.map
        (fun id0 => (findNeuron (net.propagate v).2.neuron_map id0).last_activation_value)) ::
        runSequence (net.propagate v).2 rest := rfl

theorem runSequence_eq (rank : String → Nat) :
    ∀ (vs : List (List ℝ)) (net1 net2 : NeuralNetwork),
      GoodNet net1 rank → GoodNet net2 rank →
      net1.inputs = net2.inputs → net1.outputs = net2.outputs →
      MapEquiv net1.neuron_map net2.neuron_map →
      (∀ v ∈ vs, v.length = net1.inputs.length) →
      runSequence net1 vs = runSequence net2 vs := by
  intro vs
  induction vs with
  | nil => intro net1 net2 _ _ _ _ _ _; rfl
  | cons v rest ih =>
    intro net1 net2 g1 g2 hin hout hme hlen
    have hlv : v.length = net1.inputs.length := hlen v (List.mem_cons_self _ _)
    have hlv2 : v.length = net2.inputs.length := by rw [← hin]; exact hlv
    obtain ⟨hok1, hrec1, hs1, hval1⟩ := propagate_values net1 rank g1 v hlv
    obtain ⟨hok2, hrec2, hs2, hval2⟩ := propagate_values net2 rank g2 v hlv2
    have hin1 : (net1.propagate v).2.inputs = net1.inputs := by rw [hrec1]
    have hout1 : (net1.propagate v).2.outputs = net1.outputs := by rw [hrec1]
    have hsn1 : (net1.propagate v).2.sorted_neurons = net1.sorted_neurons := by rw [hrec1]
    have hin2 : (net2.propagate v).2.inputs = net2.inputs := by rw [hrec2]
    have hout2 : (net2.propagate v).2.outputs = net2.outputs := by rw [hrec2]
    have hsn2 : (net2.propagate v).2.sorted_neurons = net2.sorted_neurons := by rw [hrec2]
    have hsA1 : SameStruct net1.neuron_map (assignedMap net1 v) := setInputValues_struct _ _
    have hsA2 : SameStruct net2.neuron_map (assignedMap net2 v) := setInputValues_struct _ _
    have hpairs : v.zip net2.inputs = v.zip net1.inputs := by rw [hin]
    have hagree : ∀ x n1a, aFind (assignedMap net1 v) x = some n1a →
        n1a.is_input = true →
        inpView (assignedMap net1 v) x = inpView (assignedMap net2 v) x := by
      intro x n1a hx hxi
      have hp1 : (aFind net1.neuron_map x).isSome = true := by
        rw [(hsA1.2 x).1, hx]
        rfl
      obtain ⟨n1, hn1⟩ : ∃ n1, aFind net1.neuron_map x = some n1 := by
        cases hz : aFind net1.neuron_map x with
        | none => rw [hz] at hp1; cases hp1
        | some w => exact ⟨w, rfl⟩
      have hii : n1.is_input = true := by
        obtain ⟨_, ht, _, _, _, _⟩ := (hsA1.2 x).2 n1 n1a hn1 hx
        have heq : n1.is_input = n1a.is_input := by simp only [Neuron.is_input, ht]
        rw [heq, hxi]
      have hxin : x ∈ net1.inputs := by
        refine (g1.2.2.2.2.1 x).mp ?_
        rw [findNeuron, hn1, Option.getD_some]
        exact hii
      have hsnd : (v.zip net1.inputs).map Prod.snd = net1.inputs :=
        List.map_snd_zip v net1.inputs (Nat.le_of_eq hlv.symm)
      have hxin2 : x ∈ (v.zip net1.inputs).map Prod.snd := by rw [hsnd]; exact hxin
      obtain ⟨p, hp, hps⟩ := List.mem_map.mp hxin2
      have hpx : (p.1, x) ∈ v.zip net1.inputs := by
        rw [← hps]
        exact hp
      have hnd1 : ((v.zip net1.inputs).map Prod.snd).Nodup := by
        rw [hsnd]
        exact g1.2.1
      have hv1 : aFind (assignedMap net1 v) x =
          (aFind net1.neuron_map x).map
            (fun n => { n with last_activation_value := p.1 }) :=
        setInputValues_mem (v.zip net1.inputs) net1.neuron_map x p.1 hnd1 hpx
      have hp2 : (aFind net2.neuron_map x).isSome = true := by
        rcases hme x with ⟨ha, _⟩ | ⟨w1, w2, _, hb, _⟩
        · rw [ha] at hn1; cases hn1
        · rw [hb]; rfl
      obtain ⟨n2, hn2⟩ : ∃ n2, aFind net2.neuron_map x = some n2 := by
        cases hz : aFind net2.neuron_map x with
        | none => rw [hz] at hp2; cases hp2
        | some w => exact ⟨w, rfl⟩
      have hv2 : aFind (assignedMap net2 v) x =
          (aFind net2.neuron_map x).map
            (fun n => { n with last_activation_value := p.1 }) :=
        setInputValues_mem (v.zip net2.inputs) net2.neuron_map x p.1
          (by rw [hpairs]; exact hnd1) (by rw [hpairs]; exact hpx)
      show (findNeuron (assignedMap net1 v) x).last_activation_value =
        (findNeuron (assignedMap net2 v) x).last_activation_value
      rw [findNeuron, findNeuron, hv1, hv2, hn1, hn2, Option.map_some',
        Option.map_some', Option.getD_some, Option.getD_some]
    have hmeA : MapEquiv (assignedMap net1 v) (assignedMap net2 v) :=
      mapEquiv_trans (mapEquiv_trans (MapEquiv_of_SameStruct hsA1).symm hme)
        (MapEquiv_of_SameStruct hsA2)
    have hhead : ((net1.propagate v).2.outputs.map
        (fun id0 => (findNeuron (net1.propagate v).2.neuron_map id0).last_activation_value)) =
        ((net2.propagate v).2.outputs.map
        (fun id0 => (findNeuron (net2.propagate v).2.neuron_map id0).last_activation_value)) := by
      rw [hout1, hout2, hout]
      refine List.map_congr_left ?_
      intro o ho
      have ho1 : o ∈ net1.outputs := by rw [hout]; exact ho
      have hp1 : (aFind net1.neuron_map o).isSome = true := g1.2.2.2.2.2.1 o ho1
      have hp2 : (aFind net2.neuron_map o).isSome = true := g2.2.2.2.2.2.1 o ho
      obtain ⟨n1, hn1⟩ : ∃ n1, aFind net1.neuron_map o = some n1 := by
        cases hz : aFind net1.neuron_map o with
        | none => rw [hz] at hp1; cases hp1
        | some w => exact ⟨w, rfl⟩
      obtain ⟨n2, hn2⟩ : ∃ n2, aFind net2.neuron_map o = some n2 := by
        cases hz : aFind net2.neuron_map o with
        | none => rw [hz] at hp2; cases hp2
        | some w => exact ⟨w, rfl⟩
      rw [hval1 o n1 hn1, hval2 o n2 hn2]
      exact Vf_congr _ _ _ _ hmeA hagree (rank o + 1) o
    have g1' : GoodNet (net1.propagate v).2 rank :=
      GoodNet_transfer hs1 hin1 hout1 hsn1 g1
    have g2' : GoodNet (net2.propagate v).2 rank :=
      GoodNet_transfer hs2 hin2 hout2 hsn2 g2
    have hme' : MapEquiv (net1.propagate v).2.neuron_map
        (net2.propagate v).2.neuron_map :=
      mapEquiv_trans (mapEquiv_trans (MapEquiv_of_SameStruct hs1).symm hme)
        (MapEquiv_of_SameStruct hs2)
    rw [runSequence_cons, runSequence_cons, hhead]
    refine congrArg (List.cons _) ?_
    refine ih _ _ g1' g2' (by rw [hin1, hin2, hin]) (by rw [hout1, hout2, hout]) hme' ?_
    intro w hw
    rw [hin1]
    exact hlen w (List.mem_cons_of_mem _ hw)

theorem CfgEquiv_refl (c : ConfigJson) : CfgEquiv c c :=
  ⟨rfl, rfl, fun _ => rfl, fun _ => rfl, fun _ => rfl, fun _ => List.Perm.refl _⟩

/-- C9: amended.  The spec claims `print_as_json` then rebuild reproduces a
behaviorally identical network.  That is false for cyclic graphs
(`C9_counterexample`) but holds for acyclic well-formed topologies: any graph
built from a description equivalent to the snapshot behaves identically —
the same forward-pass output sequence for every input sequence — regardless
of either build's hash-map iteration order. -/
theorem C9_amended (cfg cfg2 : ConfigJson) (it1 it2 : List String)
    (rank : String → Nat)
    (hwf : CfgWF cfg) (hwf2 : CfgWF cfg2)
    (hacyc : ∀ p ∈ cfg.neurons, ∀ q ∈ p.2.synapses, rank q.1 < rank p.1)
    (net1 net2 : NeuralNetwork)
    (h1 : build cfg it1 = .ok net1)
    (hi1 : it1.Perm (net1.neuron_map.map Prod.fst))
    (hsnap : CfgEquiv (snapshot net1) cfg2)
    (h2 : build cfg2 it2 = .ok net2)
    (hi2 : it2.Perm (net2.neuron_map.map Prod.fst))
    (vs : List (List ℝ)) (hlen : ∀ v ∈ vs, v.length = cfg.inputs.length) :
    runSequence net1 vs = runSequence net2 vs := by
  obtain ⟨hbi1, hbo1, hpres1, hchar1, hg1⟩ := build_good cfg it1 net1 rank hwf hacyc h1 hi1
  obtain ⟨hsI, hsO, hsPres, hsAct, hsBias, hsSyn⟩ := hsnap
  have hin12 : cfg2.inputs = cfg.inputs := by
    rw [← hsI]
    exact hbi1
  have hout12 : cfg2.outputs = cfg.outputs := by
    rw [← hsO]
    exact hbo1
  have hnds : net1.sorted_neurons.Nodup := (hg1.2.2.1.nodup_iff).mpr hg1.1
  have hsynnd : ∀ x, ((cfgSyn cfg x).map Prod.fst).Nodup := by
    intro x
    cases hf : aFind cfg.neurons x with
    | none => simp [cfgSyn, hf]
    | some defs =>
      simp only [cfgSyn, hf, Option.map_some', Option.getD_some]
      exact hwf.2.2.2.2.2 (x, defs) (aFind_some_mem hf)
  have hsnapchar_mem : ∀ x n1, aFind net1.neuron_map x = some n1 → n1.is_input = false →
      aFind (snapshot net1).neurons x =
        some ⟨n1.activation.get_name, n1.bias, n1.get_synapses_map⟩ := by
    intro x n1 hx hni
    show aFind (snapNeurons net1.neuron_map net1.sorted_neurons []) x = _
    refine snapNeurons_mem _ _ [] x n1 hnds ?_ hx hni
    exact (hg1.2.2.1.mem_iff).mpr (aFind_isSome_iff_mem.mp (by rw [hx]; rfl))
  have hsnapchar_non : ∀ x, (∀ n, aFind net1.neuron_map x = some n → n.is_input = true) →
      aFind (snapshot net1).neurons x = none := by
    intro x hno
    show aFind (snapNeurons net1.neuron_map net1.sorted_neurons []) x = none
    rw [snapNeurons_nonentry _ _ [] x hno]
    rfl
  have hsnapSyn : ∀ x n1, aFind net1.neuron_map x = some n1 → n1.is_input = false →
      cfgSyn (snapshot net1) x = n1.synapses := by
    intro x n1 hx hni
    have hsyn1 : n1.synapses = cfgSyn cfg x := (hchar1 x n1 hx).2.2.1
    simp only [cfgSyn, hsnapchar_mem x n1 hx hni, Option.map_some', Option.getD_some]
    show n1.get_synapses_map = n1.synapses
    refine get_synapses_map_eq n1 ?_
    rw [hsyn1]
    exact hsynnd x
  have hacyc2 : ∀ p ∈ cfg2.neurons, ∀ q ∈ p.2.synapses, rank q.1 < rank p.1 := by
    intro p hp q hq
    obtain ⟨k, defs⟩ := p
    have hfk : aFind cfg2.neurons k = some defs := aFind_of_mem_nodup hwf2.2.2.1 hp
    have hq2 : q ∈ cfgSyn cfg2 k := by
      simp only [cfgSyn, hfk, Option.map_some', Option.getD_some]
      exact hq
    have hq3 : q ∈ cfgSyn (snapshot net1) k := ((hsSyn k).mem_iff).mpr hq2
    cases hzk : aFind net1.neuron_map k with
    | none =>
      have hz2 : aFind (snapshot net1).neurons k = none :=
        hsnapchar_non k (fun n hn => by rw [hzk] at hn; cases hn)
      rw [show cfgSyn (snapshot net1) k = [] from by simp [cfgSyn, hz2]] at hq3
      exact absurd hq3 (List.not_mem_nil q)
    | some n1 =>
      cases hni : n1.is_input with
      | true =>
        have hz2 : aFind (snapshot net1).neurons k = none := by
          refine hsnapchar_non k ?_
          intro n hn
          rw [hzk] at hn
          injection hn with hn
          rw [← hn]
          exact hni
        rw [show cfgSyn (snapshot net1) k = [] from by simp [cfgSyn, hz2]] at hq3
        exact absurd hq3 (List.not_mem_nil q)
      | false =>
        rw [hsnapSyn k n1 hzk hni] at hq3
        have hsyn1 : n1.synapses = cfgSyn cfg k := (hchar1 k n1 hzk).2.2.1
        rw [hsyn1] at hq3
        cases hfc : aFind cfg.neurons k with
        | none =>
          rw [show cfgSyn cfg k = [] from by simp [cfgSyn, hfc]] at hq3
          exact absurd hq3 (List.not_mem_nil q)
        | some defs0 =>
          have hq4 : q ∈ defs0.synapses := by
            simp only [cfgSyn, hfc, Option.map_some', Option.getD_some] at hq3
            exact hq3
          exact hacyc (k, defs0) (aFind_some_mem hfc) q hq4
  obtain ⟨hbi2, hbo2, hpres2, hchar2, hg2⟩ :=
    build_good cfg2 it2 net2 rank hwf2 hacyc2 h2 hi2
  have hinEq : net1.inputs = net2.inputs := by rw [hbi1, hbi2, hin12]
  have houtEq : net1.outputs = net2.outputs := by rw [hbo1, hbo2, hout12]
  have hkeys2iff : ∀ x, x ∈ cfg2.neurons.map Prod.fst ↔
      ∃ n1, aFind net1.neuron_map x = some n1 ∧ n1.is_input = false := by
    intro x
    rw [← aFind_isSome_iff_mem, ← hsPres x]
    constructor
    · intro hx
      cases hz : aFind net1.neuron_map x with
      | none =>
        rw [hsnapchar_non x (fun n hn => by rw [hz] at hn; cases hn)] at hx
        cases hx
      | some n1 =>
        cases hni : n1.is_input with
        | true =>
          rw [hsnapchar_non x (fun n hn => by
            rw [hz] at hn
            injection hn with hn
            rw [← hn]
            exact hni)] at hx
          cases hx
        | false => exact ⟨n1, rfl, hni⟩
    · rintro ⟨n1, hz, hni⟩
      rw [hsnapchar_mem x n1 hz hni]
      rfl
  have hpresiff : ∀ x, (aFind net1.neuron_map x).isSome = true ↔
      (aFind net2.neuron_map x).isSome = true := by
    intro x
    rw [hpres1 x, hpres2 x, hin12, hout12]
    constructor
    · rintro (hc | hc | hc)
      · exact Or.inl hc
      · exact Or.inr (Or.inl hc)
      · have hpx := (hpres1 x).mpr (Or.inr (Or.inr hc))
        obtain ⟨n1, hn1⟩ : ∃ n1, aFind net1.neuron_map x = some n1 := by
          cases hz : aFind net1.neuron_map x with
          | none => rw [hz] at hpx; cases hpx
          | some w => exact ⟨w, rfl⟩
        have hni : n1.is_input = false := by
          cases hz : n1.is_input with
          | false => rfl
          | true =>
            exact absurd hc (hwf.2.2.2.1 x ((hchar1 x n1 hn1).2.2.2.1.mp hz))
        exact Or.inr (Or.inr ((hkeys2iff x).mpr ⟨n1, hn1, hni⟩))
    · rintro (hc | hc | hc)
      · exact Or.inl hc
      · exact Or.inr (Or.inl hc)
      · obtain ⟨n1, hn1, _⟩ := (hkeys2iff x).mp hc
        exact (hpres1 x).mp (by rw [hn1]; rfl)
  have hme : MapEquiv net1.neuron_map net2.neuron_map := by
    intro x
    cases hz1 : aFind net1.neuron_map x with
    | none =>
      refine Or.inl ⟨rfl, ?_⟩
      cases hz2 : aFind net2.neuron_map x with
      | none => rfl
      | some w =>
        exfalso
        have hpx2 := (hpresiff x).mpr (by rw [hz2]; rfl)
        rw [hz1] at hpx2
        cases hpx2
    | some n1 =>
      have hp2 : (aFind net2.neuron_map x).isSome = true :=
        (hpresiff x).mp (by rw [hz1]; rfl)
      obtain ⟨n2, hz2⟩ : ∃ n2, aFind net2.neuron_map x = some n2 := by
        cases hz : aFind net2.neuron_map x with
        | none => rw [hz] at hp2; cases hp2
        | some w => exact ⟨w, rfl⟩
      obtain ⟨hact1, hbias1, hsyn1, hiff1, _, _⟩ := hchar1 x n1 hz1
      obtain ⟨hact2, hbias2, hsyn2, hiff2, _, _⟩ := hchar2 x n2 hz2
      refine Or.inr ⟨n1, n2, rfl, hz2, ?_, ?_, ?_, ?_⟩
      · -- is_input agree
        cases hni : n1.is_input with
        | true =>
          have hxin : x ∈ cfg2.inputs := by
            rw [hin12]
            exact hiff1.mp hni
          exact (hiff2.mpr hxin).symm
        | false =>
          cases hni2 : n2.is_input with
          | false => rfl
          | true =>
            have hxin : x ∈ cfg.inputs := by
              rw [← hin12]
              exact hiff2.mp hni2
            rw [hiff1.mpr hxin] at hni
            cases hni
      · -- activation agree
        cases hni : n1.is_input with
        | false =>
          have hs1 : cfgAct (snapshot net1) x = some n1.activation := by
            unfold cfgAct
            rw [hsnapchar_mem x n1 hz1 hni]
            exact new_get_name n1.activation
          have : some n2.activation = some n1.activation := by
            rw [hact2, ← hsAct x, hs1]
          injection this with hh
          exact hh.symm
        | true =>
          have hxin : x ∈ cfg.inputs := hiff1.mp hni
          have hf1none : aFind cfg.neurons x = none := by
            cases hfx : aFind cfg.neurons x with
            | none => rfl
            | some d =>
              exact absurd (aFind_isSome_iff_mem.mp (by rw [hfx]; rfl))
                (hwf.2.2.2.1 x hxin)
          have hsnone : aFind (snapshot net1).neurons x = none := by
            refine hsnapchar_non x ?_
            intro n hn
            rw [hz1] at hn
            injection hn with hn
            rw [← hn]
            exact hni
          have ha1 : some n1.activation = some ActivationFunction.Linear := by
            rw [hact1]
            unfold cfgAct
            rw [hf1none]
          have ha2 : some n2.activation = some ActivationFunction.Linear := by
            rw [hact2, ← hsAct x]
            unfold cfgAct
            rw [hsnone]
          injection ha1 with ha1
          injection ha2 with ha2
          rw [ha1, ha2]
      · -- bias agree
        cases hni : n1.is_input with
        | false =>
          have hs1 : cfgBias (snapshot net1) x = n1.bias := by
            simp only [cfgBias, hsnapchar_mem x n1 hz1 hni, Option.map_some',
              Option.getD_some]
          rw [hbias1, hbias2, ← hsBias x, hs1]
          exact ((hchar1 x n1 hz1).2.1).symm ▸ rfl
        | true =>
          have hsnone : aFind (snapshot net1).neurons x = none := by
            refine hsnapchar_non x ?_
            intro n hn
            rw [hz1] at hn
            injection hn with hn
            rw [← hn]
            exact hni
          have hf1none : aFind cfg.neurons x = none := by
            cases hfx : aFind cfg.neurons x with
            | none => rfl
            | some d =>
              exact absurd (aFind_isSome_iff_mem.mp (by rw [hfx]; rfl))
                (hwf.2.2.2.1 x (hiff1.mp hni))
          rw [hbias1, hbias2, ← hsBias x]
          simp only [cfgBias, hf1none, hsnone, Option.map_none', Option.getD_none]
      · -- synapses agree up to permutation
        cases hni : n1.is_input with
        | false =>
          rw [hsyn1, hsyn2, ← (hchar1 x n1 hz1).2.2.1]
          rw [← hsnapSyn x n1 hz1 hni]
          exact hsSyn x
        | true =>
          have hsnone : aFind (snapshot net1).neurons x = none := by
            refine hsnapchar_non x ?_
            intro n hn
            rw [hz1] at hn
            injection hn with hn
            rw [← hn]
            exact hni
          have hf1none : aFind cfg.neurons x = none := by
            cases hfx : aFind cfg.neurons x with
            | none => rfl
            | some d =>
              exact absurd (aFind_isSome_iff_mem.mp (by rw [hfx]; rfl))
                (hwf.2.2.2.1 x (hiff1.mp hni))
          have h2nil : cfgSyn cfg2 x = [] := by
            refine List.Perm.eq_nil ?_
            refine ((hsSyn x).symm.trans ?_)
            rw [show cfgSyn (snapshot net1) x = [] from by simp [cfgSyn, hsnone]]
          rw [hsyn1, hsyn2, h2nil]
          rw [show cfgSyn cfg x = [] from by simp [cfgSyn, hf1none]]
  refine runSequence_eq rank vs net1 net2 hg1 hg2 hinEq houtEq hme ?_
  intro v hv
  rw [hbi1]
  exact hlen v hv

theorem C9_amended_witness :
    build c9wCfg ["i", "o"] = .ok c9wNet1 ∧
    build (snapshot c9wNet1) ["o", "i"] = .ok c9wNet2 ∧
    runSequence c9wNet1 [[5]] = runSequence c9wNet2 [[5]] :=
  ⟨rfl, rfl,
    C9_amended c9wCfg (snapshot c9wNet1) ["i", "o"] ["o", "i"] c9wRank
      (by unfold CfgWF; decide) (by unfold CfgWF; decide) (by decide)
      c9wNet1 c9wNet2 rfl (by decide) (CfgEquiv_refl _) rfl (by decide)
      [[5]] (by
        intro v hv
        rw [List.mem_singleton] at hv
        subst hv
        rfl)⟩

end MMNN
